import Mathlib

/-!
Verification of the append-only Obsidian note merger and title-graph builder
from scripts/obsidian/obsidian-xlsx-to-md.py.

Strings are modelled as lists of characters (`Str`); documents as lists of
lines (`Lines`).  Python string primitives (strip, splitlines, join, the
wikilink regular expression) are given executable models below; each model is
named after, and shaped like, the source construct it embeds.  Case folding
is modelled on ASCII letters (`Char.toLower`), which covers every string the
tool's fixed markers and the claims exercise.
-/

abbrev Str := List Char

abbrev Lines := List Str

def str (s : String) : Str := s.toList

/-- Python whitespace (the set recognised by str.strip, str.isspace and
regex \s): ASCII whitespace, the C1 separators, NEL and the Unicode spaces. -/
def isPySpace (c : Char) : Bool :=
  (c == ' ') || (c == '\t') || (c == '\n') || (c == '\r') || (c == '\x0b') || (c == '\x0c') ||
  (c == '\x1c') || (c == '\x1d') || (c == '\x1e') || (c == '\x1f') || (c == '\x85') ||
  (c == ' ') || (c == ' ') || ((' '.val ≤ c.val) && (c.val ≤ ' '.val)) ||
  (c == ' ') || (c == ' ') || (c == ' ') || (c == ' ') || (c == '　')

/-- Line boundaries recognised by Python str.splitlines. -/
def isPyBreak (c : Char) : Bool :=
  (c == '\n') || (c == '\r') || (c == '\x0b') || (c == '\x0c') ||
  (c == '\x1c') || (c == '\x1d') || (c == '\x1e') || (c == '\x85') ||
  (c == ' ') || (c == ' ')

/-- Python str.rstrip (no argument): drop trailing whitespace. -/
def pyRstrip (s : Str) : Str := (s.reverse.dropWhile isPySpace).reverse

/-- Python str.lstrip (no argument): drop leading whitespace. -/
def pyLstrip (s : Str) : Str := s.dropWhile isPySpace

/-- Python str.strip (no argument): drop whitespace on both ends. -/
def pyStrip (s : Str) : Str := pyLstrip (pyRstrip s)

/-- A string with no line-break characters, i.e. one that stays a single
line under str.splitlines. -/
def breakFree (s : Str) : Bool := s.all (fun c => !(isPyBreak c))

/-- Helper for `pySplitlines`: the accumulator holds the current line
reversed; the flag records whether the previous character was a carriage
return, so that the "\n" of an "\r\n" pair is consumed silently.  A
pending empty line at end of input is not emitted, matching Python (text
ending in a line break yields no final empty line). -/
def pySplitlinesAux : Str → Str → Bool → Lines
  | [], acc, _ => if acc.isEmpty then [] else [acc.reverse]
  | c :: rest, acc, prevCR =>
    if c == '\n' && prevCR then pySplitlinesAux rest acc false
    else if isPyBreak c then acc.reverse :: pySplitlinesAux rest [] (c == '\r')
    else pySplitlinesAux rest (c :: acc) false

/-- Python str.splitlines. -/
def pySplitlines (s : Str) : Lines := pySplitlinesAux s [] false

/-- Python "\n".join. -/
def pyJoin : Lines → Str
  | [] => []
  | [l] => l
  | l :: ls => l ++ '\n' :: pyJoin ls

/-- ASCII-case-folded copy of a string (models str.lower on the ASCII
strings this tool compares). -/
def lowerStr (s : Str) : Str := s.map Char.toLower

/-- Lexicographic comparison of strings by code point (Python string <=). -/
def lexLe : Str → Str → Bool
  | [], _ => true
  | _ :: _, [] => false
  | a :: as, b :: bs => if a = b then lexLe as bs else decide (a < b)

/-- The comparison used by sorted(..., key=str.lower). -/
def lowLe (x y : Str) : Bool := lexLe (lowerStr x) (lowerStr y)

/-- Stable insertion used by `pySortLower`: x goes after every element
that is not strictly greater, so equal keys keep their original order. -/
def insLow (x : Str) : Lines → Lines
  | [] => [x]
  | y :: ys => if lowLe x y && !(lowLe y x) then x :: y :: ys else y :: insLow x ys

/-- Python sorted(l, key=str.lower): a stable sort by the case-folded key. -/
def pySortLower (l : Lines) : Lines := l.foldl (fun acc x => insLow x acc) []

/-- Worker for `pydedup`: keep the elements not seen before. -/
def pydedupAux : List Str → List Str → List Str
  | [], _ => []
  | x :: xs, seen => if x ∈ seen then pydedupAux xs seen else x :: pydedupAux xs (x :: seen)

/-- Python set(l) for strings: membership-based deduplication (the
iteration order of a Python set is arbitrary; this picks one order). -/
def pydedup (l : List Str) : List Str := pydedupAux l []

/-- Python lines[s:e]. -/
def pySlice (l : Lines) (s e : Nat) : Lines := (l.take e).drop s

/-- Python list.insert performed repeatedly at positions p, p+1, ...,
as in the append loops of the source. -/
def insertAllAt (lines : Lines) (p : Nat) (items : Lines) : Lines :=
  match items with
  | [] => lines
  | it :: rest => insertAllAt (lines.insertIdx p it) (p + 1) rest

/-- Index of the first line satisfying p (the linear scans in
find_section_range). -/
def findFirst (p : Str → Bool) : Lines → Option Nat
  | [] => none
  | l :: ls => if p l then some 0 else (findFirst p ls).map (· + 1)

/-- A line opening a (sub)section terminator: startswith("## "). -/
def isHH (l : Str) : Bool := (str "## ").isPrefixOf l

/-- The heading line text for a section header. -/
def hline (header : Str) : Str := str "## " ++ header

/-!  ## The wikilink pattern

WIKILINK_RE = \[\[([^\]|]+)(?:\|[^\]]+)?\]\].  `tryMatchWikilink` attempts
the anchored match at the start of the string, returning the captured group
and the rest of the input after the match; `scanWikilinks` reproduces
re.finditer: leftmost, non-overlapping matches.  Greedy backtracking never
helps this pattern (each character class excludes its closing delimiter),
so the anchored match is deterministic. -/

/-- The predicate of the first capture group, [^\]|]. -/
def wlG1 (c : Char) : Bool := !(c == ']') && !(c == '|')

/-- The predicate of the display part, [^\]]. -/
def wlG2 (c : Char) : Bool := !(c == ']')

/-- Length consumed by the part of the pattern after the opening
brackets (capture, optional display, closing brackets), or none if the
anchored match fails there. -/
def wikiMatchLen (rest : Str) : Option Nat :=
  let g1 := rest.takeWhile wlG1
  if g1.isEmpty then none
  else
    match rest.drop g1.length with
    | '|' :: rest2 =>
      let g2 := rest2.takeWhile wlG2
      if g2.isEmpty then none
      else
        match rest2.drop g2.length with
        | ']' :: ']' :: _ => some (g1.length + 1 + g2.length + 2)
        | _ => none
    | ']' :: ']' :: _ => some (g1.length + 2)
    | _ => none

/-- Anchored match of the wikilink pattern at the head of s: on success
returns the first capture group and the input after the whole match. -/
def tryMatchWikilink (s : Str) : Option (Str × Str) :=
  match s with
  | '[' :: '[' :: rest =>
    match wikiMatchLen rest with
    | some n => some (rest.takeWhile wlG1, rest.drop n)
    | none => none
  | _ => none

/-- Fuel-indexed worker for `scanWikilinks`; every step consumes at least
one character, so fuel equal to the string length is always enough. -/
def scanWikilinksAux : Nat → Str → List Str
  | 0, _ => []
  | Nat.succ fuel, s =>
    match s with
    | [] => []
    | c :: rest =>
      match tryMatchWikilink (c :: rest) with
      | some (t, rem) => t :: scanWikilinksAux fuel rem
      | none => scanWikilinksAux fuel rest

/-- re.finditer over one line: captured groups of the leftmost
non-overlapping matches; on failure the scan advances one character. -/
def scanWikilinks (s : Str) : List Str := scanWikilinksAux s.length s

/-!  ## Section location and the append-only merge -/

/-- find_section_range: the first line whose stripped text equals
"## header" opens the section; it runs to the next line that starts with
"## ", or to end of document.  none models the (-1, -1) result. -/
def find_section_range (lines : Lines) (header : Str) : Option (Nat × Nat) :=
  match findFirst (fun ln => pyStrip ln == hline header) lines with
  | none => none
  | some s =>
    let e := match findFirst isHH (lines.drop (s + 1)) with
      | some j => s + 1 + j
      | none => lines.length
    some (s, e)

/-- ensure_section: if the section is missing, append a blank separator
(when the last line is non-blank), the heading line and a blank line at the
end of the document; returns the lines and the section range. -/
def ensure_section (lines : Lines) (header : Str) : Lines × Nat × Nat :=
  match find_section_range lines header with
  | some (s, e) => (lines, s, e)
  | none =>
    let lines1 :=
      match lines.getLast? with
      | some last => if pyStrip last ≠ [] then lines ++ [([] : Str)] else lines
      | none => lines
    let lines2 := lines1 ++ [hline header, ([] : Str)]
    (lines2, lines2.length - 2, lines2.length)

/-- extract_existing_wikilinks over lines[start:end]: every captured
wikilink target, stripped. -/
def extract_existing_wikilinks (lines : Lines) (s e : Nat) : List Str :=
  (pySlice lines s e).flatMap (fun ln => (scanWikilinks ln).map pyStrip)

/-- normalize_leaf_pair: strip both fields, join with a newline, collapse
every whitespace run to one space, strip, case-fold. -/
def collapseWsAux : Bool → Str → Str
  | _, [] => []
  | inWs, c :: rest =>
    if isPySpace c then
      if inWs then collapseWsAux true rest else ' ' :: collapseWsAux true rest
    else c :: collapseWsAux false rest

def collapseWs (s : Str) : Str := collapseWsAux false s

def normalize_leaf_pair (description source : Str) : Str :=
  lowerStr (pyStrip (collapseWs (pyStrip description ++ '\n' :: pyStrip source)))

/-- The two literal markers of a Description/Source block. -/
def descMarker : Str := str "- **Description:**"

def srcMarker : Str := str "**Source:**"

/-- extract_existing_leaf_pairs: scan the section for the block pattern,
pairing each Description line with the next Source line, and collect the
normalized keys.  The first argument of the worker is the pending stripped
description (the desc variable of the source). -/
def leafScan : Option Str → Lines → List Str
  | _, [] => []
  | desc, ln :: rest =>
    let t := pyStrip ln
    if descMarker.isPrefixOf t then
      leafScan (some (pyStrip (t.drop descMarker.length))) rest
    else
      match desc with
      | some d =>
        if srcMarker.isPrefixOf t then
          normalize_leaf_pair d (pyStrip (t.drop srcMarker.length)) :: leafScan none rest
        else leafScan (some d) rest
      | none => leafScan none rest

def extract_existing_leaf_pairs (lines : Lines) (s e : Nat) : List Str :=
  leafScan none (pySlice lines s e)

/-- The appended link line "- [[Title]]". -/
def linkLine (t : Str) : Str := str "- [[" ++ t ++ str "]]"

/-- append_missing_links: ensure the section, read its existing link
targets, and insert the missing candidates (sorted case-insensitively) at
the end of the section. -/
def append_missing_links (lines : Lines) (section_header : Str) (new_links : List Str) : Lines :=
  let r := ensure_section lines section_header
  let lines1 := r.1
  let s := r.2.1
  let e := r.2.2
  let existing := extract_existing_wikilinks lines1 s e
  let to_add := (pySortLower (pydedup new_links)).filter (fun x => ¬ x ∈ existing)
  if to_add.isEmpty then lines1
  else insertAllAt lines1 e (to_add.map linkLine)

/-- The two appended lines of one Description/Source block, with trailing
whitespace trimmed. -/
def leafBlock (d s : Str) : Lines :=
  [pyRstrip (str "- **Description:** " ++ d), pyRstrip (str "  **Source:** " ++ s)]

/-- The block-collection loop of append_missing_leaf_blocks: each kept
pair's key joins the in-memory existing set at once. -/
def collectLeafBlocks : List (Str × Str) → List Str → List Lines
  | [], _ => []
  | (d, s) :: rest, existing =>
    let key := normalize_leaf_pair d s
    if key ≠ [] ∧ ¬ key ∈ existing then
      leafBlock d s :: collectLeafBlocks rest (key :: existing)
    else collectLeafBlocks rest existing

/-- append_missing_leaf_blocks: ensure the "Description and source"
section, read the existing normalized keys, and insert the kept blocks at
the end of the section in input order. -/
def append_missing_leaf_blocks (lines : Lines) (new_leaf_pairs : List (Str × Str)) : Lines :=
  let r := ensure_section lines (str "Description and source")
  let lines1 := r.1
  let s := r.2.1
  let e := r.2.2
  let existing := extract_existing_leaf_pairs lines1 s e
  let blocks := collectLeafBlocks new_leaf_pairs existing
  if blocks.isEmpty then lines1
  else insertAllAt lines1 e blocks.flatten

/-- create_new_note_lines: the fixed template of a fresh note. -/
def create_new_note_lines (title : Str) : Lines :=
  [str "# " ++ title, [],
   str "## Parents", [],
   str "## Children", [],
   str "## Description and source", []]

/-- The in-memory body of update_note_file_append_only: the three
conditional append passes over the loaded lines. -/
def merge_note_lines (lines : Lines) (add_parents add_children : List Str)
    (add_leaf_pairs : List (Str × Str)) : Lines :=
  let lines1 := if add_parents.isEmpty then lines
    else append_missing_links lines (str "Parents") add_parents
  let lines2 := if add_children.isEmpty then lines1
    else append_missing_links lines1 (str "Children") add_children
  if add_leaf_pairs.isEmpty then lines2
  else append_missing_leaf_blocks lines2 add_leaf_pairs

/-- The lines loaded from the existing file content: absent or zero-line
content is replaced by the fresh template. -/
def load_note_lines (existing : Option Str) (title : Str) : Lines :=
  match existing with
  | some raw =>
    let ls := pySplitlines raw
    if ls.isEmpty then create_new_note_lines title else ls
  | none => create_new_note_lines title

/-- update_note_file_append_only as a pure text transformer: the file read
and write are abstracted into the optional input text and the returned
output text (joined lines, trailing whitespace stripped, one final
newline). -/
def update_note_file_append_only (existing : Option Str) (title : Str)
    (add_parents add_children : List Str) (add_leaf_pairs : List (Str × Str)) : Str :=
  let lines := load_note_lines existing title
  pyRstrip (pyJoin (merge_note_lines lines add_parents add_children add_leaf_pairs)) ++ ['\n']

/-!  ## Graph building (build_title_graph_from_parts)

The two defaultdict(set) mappings are association lists in insertion
order; a set is a duplicate-free list.  Reading d[k] on a defaultdict
materialises the key, which the claims about key coverage depend on, so
the read is modelled by `ddTouch` followed by `ddGet`. -/

structure Row where
  parts : List Str
  description : Str
  source : Str

abbrev DictSet := List (Str × List Str)

def ddKeys (d : DictSet) : List Str := d.map (·.1)

def ddGet (d : DictSet) (k : Str) : List Str :=
  match d.find? (fun en => en.1 == k) with
  | some en => en.2
  | none => []

/-- defaultdict access: materialise the key with an empty set. -/
def ddTouch (d : DictSet) (k : Str) : DictSet :=
  if (d.find? (fun en => en.1 == k)).isSome then d else d ++ [(k, [])]

/-- d[k].add(v): set insertion (no duplicates), materialising the key. -/
def ddAdd (d : DictSet) (k v : Str) : DictSet :=
  match d.find? (fun en => en.1 == k) with
  | some _ => d.map (fun en => if en.1 == k then (en.1, if v ∈ en.2 then en.2 else en.2 ++ [v]) else en)
  | none => d ++ [(k, [v])]

/-- d.setdefault(k, set()). -/
def ddSetdefault (d : DictSet) (k : Str) : DictSet := ddTouch d k

abbrev DictList := List (Str × List (Str × Str))

/-- defaultdict(list) access plus append. -/
def dlAppend (d : DictList) (k : Str) (v : Str × Str) : DictList :=
  match d.find? (fun en => en.1 == k) with
  | some _ => d.map (fun en => if en.1 == k then (en.1, en.2 ++ [v]) else en)
  | none => d ++ [(k, [v])]

def dlGet (d : DictList) (k : Str) : List (Str × Str) :=
  match d.find? (fun en => en.1 == k) with
  | some en => en.2
  | none => []

structure GraphState where
  parent_to_children : DictSet
  child_to_parents : DictSet
  leaf_info : DictList
  edge_count : Nat
  leaf_entry_count : Nat

def GraphState.initial : GraphState := ⟨[], [], [], 0, 0⟩

/-- One consecutive pair: if c not in parent_to_children[p] the counter
grows; then both mappings record the edge. -/
def addEdge (st : GraphState) (p c : Str) : GraphState :=
  let p2c := ddTouch st.parent_to_children p
  let hit := c ∈ ddGet p2c p
  let ec := if hit then st.edge_count else st.edge_count + 1
  { st with
    parent_to_children := ddAdd p2c p c
    child_to_parents := ddAdd st.child_to_parents c p
    edge_count := ec }

/-- The inner loop over i in range(len(parts) - 1). -/
def addEdges (st : GraphState) : List Str → GraphState
  | p :: c :: rest => addEdges (addEdge st p c) (c :: rest)
  | _ => st

/-- One row of the outer loop: edges, then the optional leaf entry, then
the two setdefault calls. -/
def addRow (st : GraphState) (r : Row) : GraphState :=
  if r.parts.isEmpty then st
  else
    let st := addEdges st r.parts
    let leaf_title := r.parts.getLastD []
    let description := pyStrip r.description
    let source := pyStrip r.source
    let st :=
      if ¬ description.isEmpty ∨ ¬ source.isEmpty then
        { st with
          leaf_info := dlAppend st.leaf_info leaf_title (description, source)
          leaf_entry_count := st.leaf_entry_count + 1 }
      else st
    { st with
      parent_to_children := ddSetdefault st.parent_to_children leaf_title
      child_to_parents := ddSetdefault st.child_to_parents (r.parts.headD []) }

/-- build_title_graph_from_parts. -/
def build_title_graph_from_parts (rows : List Row) : GraphState :=
  rows.foldl addRow GraphState.initial

/-- The consecutive (parent, child) pairs of one row. -/
def consecPairs : List Str → List (Str × Str)
  | p :: c :: rest => (p, c) :: consecPairs (c :: rest)
  | _ => []

/-!  ## Derived notions used to state the claims -/

/-- All consecutive pairs contributed by a row list. -/
def rowsPairs (rows : List Row) : List (Str × Str) :=
  rows.flatMap (fun r => consecPairs r.parts)

/-- The body of the first "## header" section: the lines strictly after
the heading line, up to the section end. -/
def sectionBody (lines : Lines) (header : Str) : Option Lines :=
  match find_section_range lines header with
  | some (s, e) => some (pySlice lines (s + 1) e)
  | none => none

/-- The lines that are not blank (whitespace-only). -/
def nonBlankLines (ls : Lines) : Lines := ls.filter (fun l => ¬ (pyStrip l).isEmpty)

/-- A line consisting only of whitespace. -/
def isWsLine (l : Str) : Bool := l.all isPySpace

/-- What serialization (join, rstrip, add newline) followed by
splitlines does to a break-free line list: trailing whitespace-only lines
are dropped and the final remaining line loses its trailing whitespace;
an all-whitespace document collapses to one empty line. -/
def endTrimLines (ls : Lines) : Lines :=
  let m := (ls.reverse.dropWhile isWsLine).reverse
  match m.getLast? with
  | none => [([] : Str)]
  | some last => m.dropLast ++ [pyRstrip last]

/-- A title that round-trips through the link line "- [[t]]": non-empty,
already stripped, a single line, and free of the regex delimiters. -/
def cleanTitle (t : Str) : Bool :=
  !t.isEmpty && (pyStrip t == t) && breakFree t && !t.contains ']' && !t.contains '|'

/-- A description/source field that stays on its own line. -/
def cleanPair (p : Str × Str) : Bool := breakFree p.1 && breakFree p.2

/-- No line of the document passes the stripped-equality test for the
"## header" heading while carrying leading whitespace (such an indented
heading opens a section that the end-scan of other sections cannot see,
which lets link insertions cross section bodies). -/
def noIndentHeading (lines : Lines) (header : Str) : Bool :=
  lines.all (fun ln => !(pyStrip ln == hline header) || isHH ln)

/-- Worker for `pyWords`: the accumulator is the current word reversed. -/
def pyWordsAux : Str → Str → List Str
  | [], acc => if acc.isEmpty then [] else [acc.reverse]
  | c :: rest, acc =>
    if isPySpace c then
      if acc.isEmpty then pyWordsAux rest [] else acc.reverse :: pyWordsAux rest []
    else pyWordsAux rest (c :: acc)

/-- The maximal whitespace-free words of a string, in order. -/
def pyWords (s : Str) : List Str := pyWordsAux s []

/-- The stripped wikilink targets found in a block of lines (what
extract_existing_wikilinks computes on a section slice). -/
def wikiTargetsOf (sec : Lines) : List Str :=
  sec.flatMap (fun ln => (scanWikilinks ln).map pyStrip)

/-- The titles append_missing_links keeps for a section whose slice is
sec: the deduplicated candidates, sorted case-insensitively, minus those
already present as targets. -/
def addedTitles (links : List Str) (sec : Lines) : List Str :=
  (pySortLower (pydedup links)).filter (fun x => ¬ x ∈ wikiTargetsOf sec)

/-- The link lines append_missing_links adds to a section whose slice is
sec. -/
def addedLinks (links : List Str) (sec : Lines) : Lines :=
  (addedTitles links sec).map linkLine

/-- The normalized keys found in a block of lines (what
extract_existing_leaf_pairs computes on a section slice). -/
def leafKeysOf (sec : Lines) : List Str := leafScan none sec

/-- The block lines append_missing_leaf_blocks adds to a section whose
slice is sec. -/
def addedLeafBlocks (pairs : List (Str × Str)) (sec : Lines) : Lines :=
  (collectLeafBlocks pairs (leafKeysOf sec)).flatten

/-- The blank separator ensure_section may prepend to a created section. -/
def ensureSep (lines : Lines) : Lines :=
  match lines.getLast? with
  | some last => if pyStrip last ≠ [] then [([] : Str)] else []
  | none => []

/-- Space-joined word list (the shape every normalized leaf key has). -/
def joinWords : List Str → Str
  | [] => []
  | [w] => w
  | w :: ws => w ++ ' ' :: joinWords ws

/-!  ## Dictionary lemmas -/

theorem ddGet_cons (en : Str × List Str) (d : DictSet) (k : Str) :
    ddGet (en :: d) k = if en.1 = k then en.2 else ddGet d k := by
  simp only [ddGet, List.find?]
  by_cases h : en.1 = k
  · simp [h]
  · simp [h, beq_eq_false_iff_ne.2 h]

theorem ddTouch_cons (en : Str × List Str) (d : DictSet) (k : Str) :
    ddTouch (en :: d) k = if en.1 = k then en :: d else en :: ddTouch d k := by
  by_cases h : en.1 = k
  · rw [if_pos h]
    simp only [ddTouch]
    rw [List.find?_cons_of_pos _ (by simp [h])]
    simp
  · rw [if_neg h]
    simp only [ddTouch]
    rw [List.find?_cons_of_neg _ (by simp [h])]
    split <;> rfl

theorem ddAdd_cons (en : Str × List Str) (d : DictSet) (k v : Str) :
    ddAdd (en :: d) k v =
      if en.1 = k then (en.1, if v ∈ en.2 then en.2 else en.2 ++ [v]) :: d.map (fun e => if e.1 == k then (e.1, if v ∈ e.2 then e.2 else e.2 ++ [v]) else e)
      else en :: ddAdd d k v := by
  by_cases h : en.1 = k
  · subst h
    rw [if_pos rfl]
    simp only [ddAdd]
    rw [List.find?_cons_of_pos _ (by simp)]
    simp
  · rw [if_neg h]
    simp only [ddAdd]
    rw [List.find?_cons_of_neg _ (by simp [h])]
    cases hf : List.find? (fun e => e.1 == k) d with
    | some e => simp [ddAdd, hf, h]
    | none => simp [ddAdd, hf, h]

theorem ddGet_touch (d : DictSet) (k k2 : Str) : ddGet (ddTouch d k) k2 = ddGet d k2 := by
  induction d with
  | nil =>
    simp only [ddTouch, List.find?, Option.isSome_none, Bool.false_eq_true, if_false,
      List.nil_append]
    rw [ddGet, ddGet]
    simp only [List.find?]
    by_cases h : k = k2
    · simp [h]
    · simp [beq_eq_false_iff_ne.2 h]
  | cons en d ih =>
    rw [ddTouch_cons]
    by_cases h : en.1 = k
    · simp [h]
    · rw [if_neg h, ddGet_cons, ddGet_cons, ih]

theorem ddGet_add_self (d : DictSet) (k v : Str) :
    ddGet (ddAdd d k v) k = if v ∈ ddGet d k then ddGet d k else ddGet d k ++ [v] := by
  induction d with
  | nil => simp [ddAdd, ddGet, List.find?]
  | cons en d ih =>
    rw [ddAdd_cons]
    by_cases h : en.1 = k
    · rw [if_pos h, ddGet_cons, ddGet_cons, if_pos h, if_pos h]
    · rw [if_neg h, ddGet_cons, ddGet_cons, if_neg h, if_neg h, ih]

theorem ddGet_updMap_ne (d : DictSet) (k v k2 : Str) (hne : k2 ≠ k) :
    ddGet (d.map (fun e => if e.1 == k then (e.1, if v ∈ e.2 then e.2 else e.2 ++ [v]) else e)) k2 = ddGet d k2 := by
  induction d with
  | nil => rfl
  | cons en d ih =>
    simp only [List.map_cons]
    by_cases h : en.1 = k
    · rw [if_pos (by simp [h]), ddGet_cons, ddGet_cons]
      have hne2 : ¬ (en.1 = k2) := by rw [h]; exact Ne.symm hne
      rw [if_neg hne2, if_neg hne2, ih]
    · rw [if_neg (by simp [h]), ddGet_cons, ddGet_cons]
      by_cases h3 : en.1 = k2
      · rw [if_pos h3, if_pos h3]
      · rw [if_neg h3, if_neg h3, ih]

theorem ddGet_add_ne (d : DictSet) (k v k2 : Str) (hne : k2 ≠ k) :
    ddGet (ddAdd d k v) k2 = ddGet d k2 := by
  induction d with
  | nil =>
    simp only [ddAdd, List.find?, List.nil_append]
    rw [ddGet_cons, ddGet]
    simp [List.find?, Ne.symm hne]
  | cons en d ih =>
    rw [ddAdd_cons]
    by_cases h : en.1 = k
    · rw [if_pos h, ddGet_cons, ddGet_cons]
      have hne2 : en.1 ≠ k2 := by rw [h]; exact Ne.symm hne
      rw [if_neg hne2, if_neg hne2, ddGet_updMap_ne d k v k2 hne]
    · rw [if_neg h, ddGet_cons, ddGet_cons, ih]

theorem mem_ddGet_add (d : DictSet) (k v k2 v2 : Str) :
    v2 ∈ ddGet (ddAdd d k v) k2 ↔ v2 ∈ ddGet d k2 ∨ (k2 = k ∧ v2 = v) := by
  by_cases h : k2 = k
  · subst h
    rw [ddGet_add_self]
    by_cases hv : v ∈ ddGet d k2
    · simp only [if_pos hv]
      constructor
      · exact fun h2 => Or.inl h2
      · rintro (h2 | ⟨-, rfl⟩) <;> [exact h2; exact hv]
    · simp [if_neg hv, List.mem_append]
  · rw [ddGet_add_ne d k v k2 h]
    simp [h]

theorem ddKeys_touch (d : DictSet) (k k2 : Str) :
    k2 ∈ ddKeys (ddTouch d k) ↔ k2 ∈ ddKeys d ∨ k2 = k := by
  simp only [ddTouch]
  by_cases hs : (d.find? (fun en => en.1 == k)).isSome
  · rw [if_pos hs]
    rcases Option.isSome_iff_exists.1 hs with ⟨en, hen⟩
    have hmem := List.mem_of_find?_eq_some hen
    have hk : en.1 = k := by simpa using List.find?_some hen
    constructor
    · exact Or.inl
    · rintro (h | rfl)
      · exact h
      · exact List.mem_map.2 ⟨en, hmem, hk⟩
  · rw [if_neg hs]
    simp [ddKeys]

theorem ddKeys_updMap (d : DictSet) (k v : Str) :
    ddKeys (d.map (fun e => if e.1 == k then (e.1, if v ∈ e.2 then e.2 else e.2 ++ [v]) else e)) = ddKeys d := by
  induction d with
  | nil => rfl
  | cons en d ih =>
    simp only [List.map_cons, ddKeys] at ih ⊢
    by_cases h : en.1 == k
    · rw [if_pos h]; simpa using ih
    · rw [if_neg h]; simpa using ih

theorem ddKeys_add (d : DictSet) (k v k2 : Str) :
    k2 ∈ ddKeys (ddAdd d k v) ↔ k2 ∈ ddKeys d ∨ k2 = k := by
  induction d with
  | nil => simp [ddAdd, ddKeys, List.find?]
  | cons en d ih =>
    rw [ddAdd_cons]
    by_cases h : en.1 = k
    · subst h
      rw [if_pos rfl]
      have : ddKeys ((en.1, if v ∈ en.2 then en.2 else en.2 ++ [v]) ::
          d.map (fun e => if e.1 == en.1 then (e.1, if v ∈ e.2 then e.2 else e.2 ++ [v]) else e)) =
          en.1 :: ddKeys d := by
        simp only [ddKeys, List.map_cons]
        rw [show (List.map (fun x => x.1) (d.map (fun e => if e.1 == en.1 then (e.1, if v ∈ e.2 then e.2 else e.2 ++ [v]) else e)) : List Str) = ddKeys (d.map (fun e => if e.1 == en.1 then (e.1, if v ∈ e.2 then e.2 else e.2 ++ [v]) else e)) from rfl]
        rw [ddKeys_updMap]
        rfl
      rw [this]
      simp only [List.mem_cons, ddKeys, List.map_cons]
      tauto
    · rw [if_neg h]
      simp only [ddKeys, List.map_cons, List.mem_cons] at ih ⊢
      rw [ih]
      tauto

/-!  ## Graph invariants -/

theorem addEdge_p2c_mem (st : GraphState) (p c k v : Str) (E : List (Str × Str))
    (h : ∀ k v, v ∈ ddGet st.parent_to_children k ↔ (k, v) ∈ E) :
    v ∈ ddGet (addEdge st p c).parent_to_children k ↔ (k, v) ∈ E ++ [(p, c)] := by
  simp only [addEdge, mem_ddGet_add, ddGet_touch, List.mem_append, List.mem_singleton,
    Prod.mk.injEq, h k v]
  try tauto

theorem addEdge_c2p_mem (st : GraphState) (p c k v : Str) (E : List (Str × Str))
    (h : ∀ k v, v ∈ ddGet st.child_to_parents k ↔ (v, k) ∈ E) :
    v ∈ ddGet (addEdge st p c).child_to_parents k ↔ (v, k) ∈ E ++ [(p, c)] := by
  simp only [addEdge, mem_ddGet_add, List.mem_append, List.mem_singleton,
    Prod.mk.injEq, h k v]
  tauto

theorem addEdge_count (st : GraphState) (p c : Str) (E : List (Str × Str))
    (h : ∀ k v, v ∈ ddGet st.parent_to_children k ↔ (k, v) ∈ E)
    (hc : st.edge_count = E.toFinset.card) :
    (addEdge st p c).edge_count = (E ++ [(p, c)]).toFinset.card := by
  simp only [addEdge, ddGet_touch]
  rw [List.toFinset_append, List.toFinset_cons, List.toFinset_nil, insert_emptyc_eq]
  by_cases hpc : c ∈ ddGet st.parent_to_children p
  · rw [if_pos hpc]
    have : (p, c) ∈ E.toFinset := List.mem_toFinset.2 ((h p c).1 hpc)
    rw [Finset.union_comm, Finset.union_eq_right.2 (by simpa using this), hc]
  · rw [if_neg hpc]
    have : (p, c) ∉ E.toFinset := fun hmem => hpc ((h p c).2 (List.mem_toFinset.1 hmem))
    rw [Finset.union_comm]
    rw [show ({(p, c)} : Finset (Str × Str)) ∪ E.toFinset = insert (p, c) E.toFinset by rfl]
    rw [Finset.card_insert_of_not_mem this, hc]

/-- The combined edge-characterisation invariant through addEdge. -/
theorem addEdge_inv (st : GraphState) (p c : Str) (E : List (Str × Str))
    (h1 : ∀ k v, v ∈ ddGet st.parent_to_children k ↔ (k, v) ∈ E)
    (h2 : ∀ k v, v ∈ ddGet st.child_to_parents k ↔ (v, k) ∈ E)
    (h3 : st.edge_count = E.toFinset.card) :
    (∀ k v, v ∈ ddGet (addEdge st p c).parent_to_children k ↔ (k, v) ∈ E ++ [(p, c)]) ∧
    (∀ k v, v ∈ ddGet (addEdge st p c).child_to_parents k ↔ (v, k) ∈ E ++ [(p, c)]) ∧
    (addEdge st p c).edge_count = (E ++ [(p, c)]).toFinset.card :=
  ⟨fun k v => addEdge_p2c_mem st p c k v E h1,
   fun k v => addEdge_c2p_mem st p c k v E h2,
   addEdge_count st p c E h1 h3⟩

theorem addEdges_inv : ∀ (l : List Str) (st : GraphState) (E : List (Str × Str)),
    (∀ k v, v ∈ ddGet st.parent_to_children k ↔ (k, v) ∈ E) →
    (∀ k v, v ∈ ddGet st.child_to_parents k ↔ (v, k) ∈ E) →
    st.edge_count = E.toFinset.card →
    (∀ k v, v ∈ ddGet (addEdges st l).parent_to_children k ↔ (k, v) ∈ E ++ consecPairs l) ∧
    (∀ k v, v ∈ ddGet (addEdges st l).child_to_parents k ↔ (v, k) ∈ E ++ consecPairs l) ∧
    (addEdges st l).edge_count = (E ++ consecPairs l).toFinset.card
  | [], st, E, h1, h2, h3 => by
    simpa [addEdges, consecPairs] using ⟨h1, h2, h3⟩
  | [x], st, E, h1, h2, h3 => by
    simpa [addEdges, consecPairs] using ⟨h1, h2, h3⟩
  | p :: c :: rest, st, E, h1, h2, h3 => by
    obtain ⟨g1, g2, g3⟩ := addEdge_inv st p c E h1 h2 h3
    have := addEdges_inv (c :: rest) (addEdge st p c) (E ++ [(p, c)]) g1 g2 g3
    rw [show addEdges st (p :: c :: rest) = addEdges (addEdge st p c) (c :: rest) from rfl]
    rw [show consecPairs (p :: c :: rest) = (p, c) :: consecPairs (c :: rest) from rfl]
    simpa [List.append_assoc] using this

theorem addRow_inv (st : GraphState) (r : Row) (E : List (Str × Str))
    (h1 : ∀ k v, v ∈ ddGet st.parent_to_children k ↔ (k, v) ∈ E)
    (h2 : ∀ k v, v ∈ ddGet st.child_to_parents k ↔ (v, k) ∈ E)
    (h3 : st.edge_count = E.toFinset.card) :
    (∀ k v, v ∈ ddGet (addRow st r).parent_to_children k ↔ (k, v) ∈ E ++ consecPairs r.parts) ∧
    (∀ k v, v ∈ ddGet (addRow st r).child_to_parents k ↔ (v, k) ∈ E ++ consecPairs r.parts) ∧
    (addRow st r).edge_count = (E ++ consecPairs r.parts).toFinset.card := by
  by_cases hp : r.parts.isEmpty
  · have : r.parts = [] := List.isEmpty_iff.1 hp
    rw [addRow, if_pos hp, this]
    simpa [consecPairs] using ⟨h1, h2, h3⟩
  · obtain ⟨g1, g2, g3⟩ := addEdges_inv r.parts st E h1 h2 h3
    rw [addRow, if_neg hp]
    by_cases hd : ¬ (pyStrip r.description).isEmpty ∨ ¬ (pyStrip r.source).isEmpty
    · simp only [if_pos hd, ddSetdefault, ddGet_touch]
      exact ⟨g1, g2, g3⟩
    · simp only [if_neg hd, ddSetdefault, ddGet_touch]
      exact ⟨g1, g2, g3⟩

theorem build_inv : ∀ (rows : List Row) (st : GraphState) (E : List (Str × Str)),
    (∀ k v, v ∈ ddGet st.parent_to_children k ↔ (k, v) ∈ E) →
    (∀ k v, v ∈ ddGet st.child_to_parents k ↔ (v, k) ∈ E) →
    st.edge_count = E.toFinset.card →
    (∀ k v, v ∈ ddGet (rows.foldl addRow st).parent_to_children k ↔ (k, v) ∈ E ++ rowsPairs rows) ∧
    (∀ k v, v ∈ ddGet (rows.foldl addRow st).child_to_parents k ↔ (v, k) ∈ E ++ rowsPairs rows) ∧
    (rows.foldl addRow st).edge_count = (E ++ rowsPairs rows).toFinset.card
  | [], st, E, h1, h2, h3 => by
    simpa [rowsPairs] using ⟨h1, h2, h3⟩
  | r :: rows, st, E, h1, h2, h3 => by
    obtain ⟨g1, g2, g3⟩ := addRow_inv st r E h1 h2 h3
    have := build_inv rows (addRow st r) (E ++ consecPairs r.parts) g1 g2 g3
    simp only [List.foldl_cons]
    simpa [rowsPairs, List.append_assoc] using this

/-!  Key coverage -/

theorem addEdge_keys_p2c (st : GraphState) (p c k : Str)
    (h : k ∈ ddKeys st.parent_to_children ∨ k = p) :
    k ∈ ddKeys (addEdge st p c).parent_to_children := by
  simp only [addEdge, ddKeys_add, ddKeys_touch]
  tauto

theorem addEdge_keys_c2p (st : GraphState) (p c k : Str)
    (h : k ∈ ddKeys st.child_to_parents ∨ k = c) :
    k ∈ ddKeys (addEdge st p c).child_to_parents := by
  simp only [addEdge, ddKeys_add]
  tauto

theorem addEdges_keys_p2c : ∀ (l : List Str) (st : GraphState) (k : Str),
    (k ∈ ddKeys st.parent_to_children ∨ k ∈ (consecPairs l).map Prod.fst) →
    k ∈ ddKeys (addEdges st l).parent_to_children
  | [], st, k, h => by simpa [addEdges, consecPairs] using h
  | [x], st, k, h => by simpa [addEdges, consecPairs] using h
  | p :: c :: rest, st, k, h => by
    rw [show addEdges st (p :: c :: rest) = addEdges (addEdge st p c) (c :: rest) from rfl]
    apply addEdges_keys_p2c (c :: rest)
    rcases h with h | h
    · exact Or.inl (addEdge_keys_p2c st p c k (Or.inl h))
    · rw [show consecPairs (p :: c :: rest) = (p, c) :: consecPairs (c :: rest) from rfl] at h
      simp only [List.map_cons, List.mem_cons] at h
      rcases h with h | h
      · exact Or.inl (addEdge_keys_p2c st p c k (Or.inr h))
      · exact Or.inr h

theorem addEdges_keys_c2p : ∀ (l : List Str) (st : GraphState) (k : Str),
    (k ∈ ddKeys st.child_to_parents ∨ k ∈ (consecPairs l).map Prod.snd) →
    k ∈ ddKeys (addEdges st l).child_to_parents
  | [], st, k, h => by simpa [addEdges, consecPairs] using h
  | [x], st, k, h => by simpa [addEdges, consecPairs] using h
  | p :: c :: rest, st, k, h => by
    rw [show addEdges st (p :: c :: rest) = addEdges (addEdge st p c) (c :: rest) from rfl]
    apply addEdges_keys_c2p (c :: rest)
    rcases h with h | h
    · exact Or.inl (addEdge_keys_c2p st p c k (Or.inl h))
    · rw [show consecPairs (p :: c :: rest) = (p, c) :: consecPairs (c :: rest) from rfl] at h
      simp only [List.map_cons, List.mem_cons] at h
      rcases h with h | h
      · exact Or.inl (addEdge_keys_c2p st p c k (Or.inr h))
      · exact Or.inr h

theorem mem_consec_fst_or_last : ∀ (l : List Str) (t : Str), t ∈ l → l ≠ [] →
    t ∈ (consecPairs l).map Prod.fst ∨ t = l.getLastD []
  | [], t, ht, hne => absurd rfl hne
  | [x], t, ht, _ => by
    simp only [List.mem_singleton] at ht
    exact Or.inr (by simp [ht])
  | p :: c :: rest, t, ht, _ => by
    rw [show consecPairs (p :: c :: rest) = (p, c) :: consecPairs (c :: rest) from rfl]
    rcases List.mem_cons.1 ht with rfl | ht
    · exact Or.inl (by simp)
    · rcases mem_consec_fst_or_last (c :: rest) t ht (by simp) with h | h
      · exact Or.inl (by simp only [List.map_cons, List.mem_cons]; exact Or.inr h)
      · refine Or.inr ?_
        rw [h]
        rfl

theorem mem_consec_snd_or_head : ∀ (l : List Str) (t : Str), t ∈ l → l ≠ [] →
    t ∈ (consecPairs l).map Prod.snd ∨ t = l.headD []
  | [], t, ht, hne => absurd rfl hne
  | [x], t, ht, _ => by
    simp only [List.mem_singleton] at ht
    exact Or.inr (by simp [ht])
  | p :: c :: rest, t, ht, _ => by
    rw [show consecPairs (p :: c :: rest) = (p, c) :: consecPairs (c :: rest) from rfl]
    rcases List.mem_cons.1 ht with rfl | ht
    · exact Or.inr rfl
    · rcases mem_consec_snd_or_head (c :: rest) t ht (by simp) with h | h
      · exact Or.inl (by simp only [List.map_cons, List.mem_cons]; exact Or.inr h)
      · rw [h]
        simp only [List.headD_cons]
        exact Or.inl (by simp)

theorem addRow_covers (st : GraphState) (r : Row) (t : Str) (ht : t ∈ r.parts) :
    t ∈ ddKeys (addRow st r).parent_to_children ∧ t ∈ ddKeys (addRow st r).child_to_parents := by
  have hne : r.parts ≠ [] := fun h => by simp [h] at ht
  rw [addRow, if_neg (by simpa [List.isEmpty_iff] using hne)]
  by_cases hd : ¬ (pyStrip r.description).isEmpty ∨ ¬ (pyStrip r.source).isEmpty
  · simp only [if_pos hd, ddSetdefault, ddKeys_touch]
    constructor
    · rcases mem_consec_fst_or_last r.parts t ht hne with h | h
      · exact Or.inl (addEdges_keys_p2c r.parts st t (Or.inr h))
      · exact Or.inr h
    · rcases mem_consec_snd_or_head r.parts t ht hne with h | h
      · exact Or.inl (addEdges_keys_c2p r.parts st t (Or.inr h))
      · exact Or.inr h
  · simp only [if_neg hd, ddSetdefault, ddKeys_touch]
    constructor
    · rcases mem_consec_fst_or_last r.parts t ht hne with h | h
      · exact Or.inl (addEdges_keys_p2c r.parts st t (Or.inr h))
      · exact Or.inr h
    · rcases mem_consec_snd_or_head r.parts t ht hne with h | h
      · exact Or.inl (addEdges_keys_c2p r.parts st t (Or.inr h))
      · exact Or.inr h

theorem addRow_keys_mono (st : GraphState) (r : Row) (k : Str) :
    (k ∈ ddKeys st.parent_to_children → k ∈ ddKeys (addRow st r).parent_to_children) ∧
    (k ∈ ddKeys st.child_to_parents → k ∈ ddKeys (addRow st r).child_to_parents) := by
  by_cases hp : r.parts.isEmpty
  · rw [addRow, if_pos hp]
    exact ⟨id, id⟩
  · rw [addRow, if_neg hp]
    have base : ∀ st2 : GraphState,
        (k ∈ ddKeys st2.parent_to_children → k ∈ ddKeys (addEdges st2 r.parts).parent_to_children) ∧
        (k ∈ ddKeys st2.child_to_parents → k ∈ ddKeys (addEdges st2 r.parts).child_to_parents) :=
      fun st2 => ⟨fun h => addEdges_keys_p2c r.parts st2 k (Or.inl h),
                  fun h => addEdges_keys_c2p r.parts st2 k (Or.inl h)⟩
    by_cases hd : ¬ (pyStrip r.description).isEmpty ∨ ¬ (pyStrip r.source).isEmpty
    · simp only [if_pos hd, ddSetdefault, ddKeys_touch]
      exact ⟨fun h => Or.inl ((base st).1 h), fun h => Or.inl ((base st).2 h)⟩
    · simp only [if_neg hd, ddSetdefault, ddKeys_touch]
      exact ⟨fun h => Or.inl ((base st).1 h), fun h => Or.inl ((base st).2 h)⟩

theorem build_keys_mono : ∀ (rows : List Row) (st : GraphState) (k : Str),
    (k ∈ ddKeys st.parent_to_children → k ∈ ddKeys (rows.foldl addRow st).parent_to_children) ∧
    (k ∈ ddKeys st.child_to_parents → k ∈ ddKeys (rows.foldl addRow st).child_to_parents)
  | [], st, k => ⟨id, id⟩
  | r :: rows, st, k => by
    simp only [List.foldl_cons]
    obtain ⟨m1, m2⟩ := addRow_keys_mono st r k
    obtain ⟨n1, n2⟩ := build_keys_mono rows (addRow st r) k
    exact ⟨fun h => n1 (m1 h), fun h => n2 (m2 h)⟩

theorem build_covers : ∀ (rows : List Row) (st : GraphState) (r : Row) (t : Str),
    r ∈ rows → t ∈ r.parts →
    t ∈ ddKeys (rows.foldl addRow st).parent_to_children ∧
    t ∈ ddKeys (rows.foldl addRow st).child_to_parents
  | [], _, _, _, hr, _ => absurd hr (by simp)
  | r0 :: rows, st, r, t, hr, ht => by
    simp only [List.foldl_cons]
    rcases List.mem_cons.1 hr with rfl | hr
    · obtain ⟨h1, h2⟩ := addRow_covers st r t ht
      obtain ⟨n1, n2⟩ := build_keys_mono rows (addRow st r) t
      exact ⟨n1 h1, n2 h2⟩
    · exact build_covers rows (addRow st r0) r t hr ht


/-- Claim C5: after build_title_graph_from_parts completes on any row
sequence, the two mappings are converse relations (c is a child of p in
parent_to_children exactly when p is a parent of c in child_to_parents),
and every title occurring anywhere in a retained row's parts has an entry,
possibly empty, in both mappings. -/
theorem claim_C5 (rows : List Row) :
    (∀ p c, c ∈ ddGet (build_title_graph_from_parts rows).parent_to_children p ↔
            p ∈ ddGet (build_title_graph_from_parts rows).child_to_parents c) ∧
    (∀ r, r ∈ rows → ∀ t, t ∈ r.parts →
      t ∈ ddKeys (build_title_graph_from_parts rows).parent_to_children ∧
      t ∈ ddKeys (build_title_graph_from_parts rows).child_to_parents) := by
  have h1 : ∀ k v, v ∈ ddGet GraphState.initial.parent_to_children k ↔ (k, v) ∈ ([] : List (Str × Str)) := by
    intro k v
    simp [GraphState.initial, ddGet, List.find?]
  have h2 : ∀ k v, v ∈ ddGet GraphState.initial.child_to_parents k ↔ (v, k) ∈ ([] : List (Str × Str)) := by
    intro k v
    simp [GraphState.initial, ddGet, List.find?]
  have h3 : GraphState.initial.edge_count = ([] : List (Str × Str)).toFinset.card := by
    simp [GraphState.initial]
  obtain ⟨g1, g2, -⟩ := build_inv rows GraphState.initial [] h1 h2 h3
  constructor
  · intro p c
    rw [show build_title_graph_from_parts rows = rows.foldl addRow GraphState.initial from rfl]
    rw [g1 p c, g2 c p]
  · intro r hr t ht
    exact build_covers rows GraphState.initial r t hr ht

/-- Claim C5 witness at a concrete row list. -/
theorem claim_C5_witness :
    (str "M") ∈ ddKeys (build_title_graph_from_parts [⟨[str "A", str "M", str "B"], [], []⟩]).parent_to_children ∧
    (str "M") ∈ ddKeys (build_title_graph_from_parts [⟨[str "A", str "M", str "B"], [], []⟩]).child_to_parents :=
  (claim_C5 [⟨[str "A", str "M", str "B"], [], []⟩]).2
    ⟨[str "A", str "M", str "B"], [], []⟩ (by simp)
    (str "M") (by simp [str])

/-- Claim C6: edge_count returned by build_title_graph_from_parts equals
the number of distinct (parent, child) pairs among all consecutive label
pairs of all rows; for rows [["A","B","C"], ["A","B","D"]] the graph has
edges A→B, B→C, B→D, parent_to_children["A"] = a singleton containing "B",
and edge_count is 3. -/
theorem claim_C6 :
    (∀ rows : List Row, (build_title_graph_from_parts rows).edge_count = (rowsPairs rows).toFinset.card) ∧
    ((str "B") ∈ ddGet (build_title_graph_from_parts [⟨[str "A", str "B", str "C"], [], []⟩, ⟨[str "A", str "B", str "D"], [], []⟩]).parent_to_children (str "A") ∧
     (str "C") ∈ ddGet (build_title_graph_from_parts [⟨[str "A", str "B", str "C"], [], []⟩, ⟨[str "A", str "B", str "D"], [], []⟩]).parent_to_children (str "B") ∧
     (str "D") ∈ ddGet (build_title_graph_from_parts [⟨[str "A", str "B", str "C"], [], []⟩, ⟨[str "A", str "B", str "D"], [], []⟩]).parent_to_children (str "B") ∧
     ddGet (build_title_graph_from_parts [⟨[str "A", str "B", str "C"], [], []⟩, ⟨[str "A", str "B", str "D"], [], []⟩]).parent_to_children (str "A") = [str "B"] ∧
     (build_title_graph_from_parts [⟨[str "A", str "B", str "C"], [], []⟩, ⟨[str "A", str "B", str "D"], [], []⟩]).edge_count = 3) := by
  constructor
  · intro rows
    have h1 : ∀ k v, v ∈ ddGet GraphState.initial.parent_to_children k ↔ (k, v) ∈ ([] : List (Str × Str)) := by
      intro k v
      simp [GraphState.initial, ddGet, List.find?]
    have h2 : ∀ k v, v ∈ ddGet GraphState.initial.child_to_parents k ↔ (v, k) ∈ ([] : List (Str × Str)) := by
      intro k v
      simp [GraphState.initial, ddGet, List.find?]
    have h3 : GraphState.initial.edge_count = ([] : List (Str × Str)).toFinset.card := by
      simp [GraphState.initial]
    obtain ⟨-, -, g3⟩ := build_inv rows GraphState.initial [] h1 h2 h3
    simpa using g3
  · refine ⟨by decide, by decide, by decide, by decide, by decide⟩

/-!  ## String primitive lemmas -/

theorem pyRstrip_eq_rdropWhile (s : Str) : pyRstrip s = s.rdropWhile isPySpace := rfl

theorem pyRstrip_idem (s : Str) : pyRstrip (pyRstrip s) = pyRstrip s := by
  simp [pyRstrip_eq_rdropWhile, List.rdropWhile_idempotent]

theorem pyStrip_rstrip (s : Str) : pyStrip (pyRstrip s) = pyStrip s := by
  simp [pyStrip, pyRstrip_idem]

theorem pyRstrip_append_ws (s w : Str) (hw : ∀ c ∈ w, isPySpace c) :
    pyRstrip (s ++ w) = pyRstrip s := by
  induction w using List.reverseRecOn with
  | nil => simp
  | append_singleton w c ih =>
    rw [← List.append_assoc, pyRstrip_eq_rdropWhile,
      List.rdropWhile_concat_pos _ _ c (hw c (by simp)), ← pyRstrip_eq_rdropWhile]
    exact ih (fun d hd => hw d (by simp [hd]))

theorem pyRstrip_spec (s : Str) :
    ∃ w, s = pyRstrip s ++ w ∧ (∀ c ∈ w, isPySpace c) := by
  refine ⟨s.rtakeWhile isPySpace, ?_, fun c hc => List.mem_rtakeWhile_imp hc⟩
  rw [pyRstrip_eq_rdropWhile, List.rdropWhile, List.rtakeWhile,
    ← List.reverse_append, List.takeWhile_append_dropWhile, List.reverse_reverse]

theorem pyRstrip_concat_not_ws (l : Str) (c : Char) (hc : ¬ isPySpace c) :
    pyRstrip (l ++ [c]) = l ++ [c] := by
  rw [pyRstrip_eq_rdropWhile, List.rdropWhile_concat_neg _ _ c hc]

theorem pyRstrip_last_not_ws (s : Str) (hne : pyRstrip s ≠ []) :
    ¬ isPySpace ((pyRstrip s).getLast hne) :=
  List.rdropWhile_last_not isPySpace s hne

theorem pyRstrip_eq_nil_iff (s : Str) : pyRstrip s = [] ↔ ∀ c ∈ s, isPySpace c := by
  rw [pyRstrip_eq_rdropWhile, List.rdropWhile_eq_nil_iff]

/-!  sort, dedup, insert lemmas -/

theorem lexLe_total (s t : Str) : lexLe s t ∨ lexLe t s := by
  induction s generalizing t with
  | nil => exact Or.inl rfl
  | cons a as ih =>
    cases t with
    | nil => exact Or.inr rfl
    | cons b bs =>
      by_cases hab : a = b
      · subst hab
        rcases ih bs with h | h
        · exact Or.inl (by simpa [lexLe] using h)
        · exact Or.inr (by simpa [lexLe] using h)
      · rcases lt_or_gt_of_ne hab with h | h
        · exact Or.inl (by simp [lexLe, hab, h])
        · exact Or.inr (by simp [lexLe, Ne.symm hab, h, not_lt_of_gt h])

theorem lexLe_trans {a b c : Str} (h1 : lexLe a b) (h2 : lexLe b c) : lexLe a c := by
  induction a generalizing b c with
  | nil => rfl
  | cons x xs ih =>
    cases b with
    | nil => simp [lexLe] at h1
    | cons y ys =>
      cases c with
      | nil => simp [lexLe] at h2
      | cons z zs =>
        by_cases hxy : x = y
        · subst hxy
          by_cases hyz : x = z
          · subst hyz
            simp only [lexLe, if_pos rfl] at h1 h2 ⊢
            exact ih h1 h2
          · simpa [lexLe, hyz] using (by simpa [lexLe, hyz] using h2)
        · by_cases hyz : y = z
          · subst hyz
            simpa [lexLe, hxy] using (by simpa [lexLe, hxy] using h1)
          · have hx : x < y := by simpa [lexLe, hxy] using h1
            have hy : y < z := by simpa [lexLe, hyz] using h2
            have hxz : x < z := lt_trans hx hy
            simp [lexLe, ne_of_lt hxz, hxz]

theorem lowLe_total (s t : Str) : lowLe s t ∨ lowLe t s := lexLe_total _ _

theorem lowLe_trans {a b c : Str} (h1 : lowLe a b) (h2 : lowLe b c) : lowLe a c :=
  lexLe_trans h1 h2

theorem insLow_perm (x : Str) (l : Lines) : (insLow x l).Perm (x :: l) := by
  induction l with
  | nil => exact List.Perm.refl _
  | cons y ys ih =>
    rw [insLow]
    by_cases h : (lowLe x y && !(lowLe y x)) = true
    · rw [if_pos h]
    · rw [if_neg h]
      exact ((ih.cons y).trans (List.Perm.swap x y ys))

theorem insLow_sorted (x : Str) (l : Lines) (h : l.Pairwise (fun a b => lowLe a b)) :
    (insLow x l).Pairwise (fun a b => lowLe a b) := by
  induction l with
  | nil => simp [insLow]
  | cons y ys ih =>
    rw [insLow]
    rcases List.pairwise_cons.1 h with ⟨hy, hys⟩
    by_cases hc : (lowLe x y && !(lowLe y x)) = true
    · rw [if_pos hc]
      rcases Bool.and_eq_true_iff.1 hc with ⟨h1, -⟩
      refine List.pairwise_cons.2 ⟨?_, h⟩
      intro z hz
      rcases List.mem_cons.1 hz with rfl | hz
      · exact h1
      · exact lowLe_trans h1 (hy z hz)
    · rw [if_neg hc]
      refine List.pairwise_cons.2 ⟨?_, ih hys⟩
      intro z hz
      have hz2 := (insLow_perm x ys).mem_iff.1 hz
      rcases List.mem_cons.1 hz2 with rfl | hz2
      · rcases lowLe_total y z with h2 | h2
        · exact h2
        · simp only [Bool.and_eq_true, Bool.not_eq_eq_eq_not, Bool.not_true, not_and,
            Bool.not_eq_false] at hc
          by_cases h3 : lowLe z y
          · exact hc h3
          · exact absurd h2 h3
      · exact hy z hz2

theorem pySortLower_perm (l : Lines) : (pySortLower l).Perm l := by
  suffices h : ∀ acc : Lines, (l.foldl (fun acc x => insLow x acc) acc).Perm (l ++ acc) by
    simpa using h []
  induction l with
  | nil => intro acc; simp
  | cons x xs ih =>
    intro acc
    simp only [List.foldl_cons]
    refine (ih (insLow x acc)).trans ?_
    refine (List.Perm.append_left xs (insLow_perm x acc)).trans ?_
    simp only [List.cons_append]
    exact List.perm_middle

theorem pySortLower_sorted (l : Lines) :
    (pySortLower l).Pairwise (fun a b => lowLe a b) := by
  suffices h : ∀ acc : Lines, acc.Pairwise (fun a b => lowLe a b) →
      (l.foldl (fun acc x => insLow x acc) acc).Pairwise (fun a b => lowLe a b) by
    exact h [] (by simp)
  induction l with
  | nil => intro acc hacc; simpa using hacc
  | cons x xs ih =>
    intro acc hacc
    simp only [List.foldl_cons]
    exact ih (insLow x acc) (insLow_sorted x acc hacc)

theorem mem_pydedupAux (l seen : List Str) (x : Str) :
    x ∈ pydedupAux l seen ↔ x ∈ l ∧ ¬ x ∈ seen := by
  induction l generalizing seen with
  | nil => simp [pydedupAux]
  | cons y ys ih =>
    rw [pydedupAux]
    by_cases h : y ∈ seen
    · rw [if_pos h, ih]
      constructor
      · rintro ⟨h1, h2⟩
        exact ⟨List.mem_cons_of_mem y h1, h2⟩
      · rintro ⟨h1, h2⟩
        rcases List.mem_cons.1 h1 with rfl | h1
        · exact absurd h h2
        · exact ⟨h1, h2⟩
    · rw [if_neg h]
      simp only [List.mem_cons, ih, List.mem_cons]
      constructor
      · rintro (rfl | ⟨h1, h2⟩)
        · exact ⟨Or.inl rfl, h⟩
        · exact ⟨Or.inr h1, fun hx => h2 (Or.inr hx)⟩
      · rintro ⟨rfl | h1, h2⟩
        · exact Or.inl rfl
        · by_cases hxy : x = y
          · exact Or.inl hxy
          · refine Or.inr ⟨h1, fun hx => ?_⟩
            rcases hx with h3 | h3
            · exact hxy h3
            · exact h2 h3

theorem mem_pydedup (l : List Str) (x : Str) : x ∈ pydedup l ↔ x ∈ l := by
  rw [pydedup, mem_pydedupAux]
  simp

theorem pydedupAux_nodup (l : List Str) : ∀ seen, (pydedupAux l seen).Nodup := by
  induction l with
  | nil => intro seen; simp [pydedupAux]
  | cons y ys ih =>
    intro seen
    rw [pydedupAux]
    by_cases h : y ∈ seen
    · rw [if_pos h]; exact ih seen
    · rw [if_neg h]
      refine List.nodup_cons.2 ⟨?_, ih (y :: seen)⟩
      intro hy
      exact ((mem_pydedupAux ys (y :: seen) y).1 hy).2 (by simp)

theorem pydedup_nodup (l : List Str) : (pydedup l).Nodup := pydedupAux_nodup l []

theorem pydedup_eq_nil_iff (l : List Str) : pydedup l = [] ↔ l = [] := by
  cases l with
  | nil => simp [pydedup, pydedupAux]
  | cons x xs => simp [pydedup, pydedupAux]

/-!  insertion lemmas -/

theorem insertIdx_eq_take_drop (l : Lines) (x : Str) : ∀ p, p ≤ l.length →
    l.insertIdx p x = l.take p ++ x :: l.drop p := by
  induction l with
  | nil =>
    intro p hp
    have : p = 0 := Nat.le_zero.1 hp
    subst this
    simp [List.insertIdx]
  | cons y ys ih =>
    intro p hp
    cases p with
    | zero => simp [List.insertIdx]
    | succ q =>
      simp only [List.insertIdx_succ_cons, List.take_succ_cons, List.drop_succ_cons,
        List.cons_append]
      rw [ih q (by simpa using hp)]

theorem insertAllAt_eq (items : Lines) : ∀ (lines : Lines) (p : Nat), p ≤ lines.length →
    insertAllAt lines p items = lines.take p ++ items ++ lines.drop p := by
  induction items with
  | nil => intro lines p hp; simp [insertAllAt]
  | cons it rest ih =>
    intro lines p hp
    rw [insertAllAt, insertIdx_eq_take_drop lines it p hp]
    rw [ih (lines.take p ++ it :: lines.drop p) (p + 1)
      (by simp only [List.length_append, List.length_take, List.length_cons]; omega)]
    have htake : (lines.take p ++ it :: lines.drop p).take (p + 1) = lines.take p ++ [it] := by
      rw [List.take_append_eq_append_take]
      simp only [List.length_take]
      rw [min_eq_left hp, List.take_of_length_le (by simp [min_eq_left hp])]
      congr 1
      have : p + 1 - p = 1 := by omega
      simp [min_eq_left hp, this]
    have hdrop : (lines.take p ++ it :: lines.drop p).drop (p + 1) = lines.drop p := by
      rw [List.drop_append_eq_append_drop]
      simp only [List.length_take, min_eq_left hp]
      have : p + 1 - p = 1 := by omega
      simp [this]
    rw [htake, hdrop]
    simp

/-!  findFirst lemmas -/

theorem findFirst_nil (p : Str → Bool) : findFirst p [] = none := rfl

theorem findFirst_cons (p : Str → Bool) (l : Str) (ls : Lines) :
    findFirst p (l :: ls) = if p l then some 0 else (findFirst p ls).map (· + 1) := rfl

theorem findFirst_none_iff (p : Str → Bool) (ls : Lines) :
    findFirst p ls = none ↔ ∀ x ∈ ls, ¬ p x := by
  induction ls with
  | nil => simp [findFirst]
  | cons l ls ih =>
    rw [findFirst_cons]
    by_cases h : p l
    · simp [h]
    · rw [if_neg h]
      constructor
      · intro hmap x hx
        rcases List.mem_cons.1 hx with rfl | hx2
        · exact h
        · have hnone : findFirst p ls = none := by
            cases hf : findFirst p ls
            · rfl
            · rw [hf] at hmap; simp at hmap
          exact (ih.1 hnone) x hx2
      · intro hall
        have hnone : findFirst p ls = none := ih.2 (fun x hx => hall x (List.mem_cons_of_mem l hx))
        rw [hnone]
        rfl

theorem findFirst_append_of_none (p : Str → Bool) (A B : Lines) (h : findFirst p A = none) :
    findFirst p (A ++ B) = (findFirst p B).map (· + A.length) := by
  induction A with
  | nil => simp
  | cons l ls ih =>
    rw [findFirst_cons] at h
    by_cases hl : p l
    · simp [hl] at h
    · rw [if_neg hl] at h
      have h2 : findFirst p ls = none := by
        cases hf : findFirst p ls
        · rfl
        · rw [hf] at h; simp at h
      simp only [List.cons_append, findFirst_cons, if_neg hl, ih h2]
      cases findFirst p B with
      | none => rfl
      | some j =>
        simp only [Option.map_some', List.length_cons]
        congr 1
        try omega

theorem findFirst_append_of_some (p : Str → Bool) (A B : Lines) (i : Nat)
    (h : findFirst p A = some i) : findFirst p (A ++ B) = some i := by
  induction A generalizing i with
  | nil => simp [findFirst] at h
  | cons l ls ih =>
    rw [findFirst_cons] at h
    by_cases hl : p l
    · rw [if_pos hl] at h
      simp only [List.cons_append, findFirst_cons, if_pos hl]
      exact h
    · rw [if_neg hl] at h
      cases hf : findFirst p ls with
      | none => rw [hf] at h; simp at h
      | some j =>
        rw [hf] at h
        simp only [Option.map_some', Option.some.injEq] at h
        simp only [List.cons_append, findFirst_cons, if_neg hl, ih j hf]
        simp [h]

/-- Introduction form: the first hit of p sits right after a miss-free
prefix. -/
theorem findFirst_intro (p : Str → Bool) (pre : Lines) (x : Str) (post : Lines)
    (hpre : ∀ y ∈ pre, ¬ p y) (hx : p x) :
    findFirst p (pre ++ x :: post) = some pre.length := by
  induction pre with
  | nil => simp [findFirst_cons, hx]
  | cons l ls ih =>
    have hl : ¬ p l := hpre l (by simp)
    simp only [List.cons_append, findFirst_cons, if_neg hl]
    rw [ih (fun y hy => hpre y (by simp [hy]))]
    simp

/-- Elimination form: a find result splits the list at the hit. -/
theorem findFirst_elim (p : Str → Bool) (ls : Lines) (i : Nat)
    (h : findFirst p ls = some i) :
    i < ls.length ∧
    ∃ x, ls = ls.take i ++ x :: ls.drop (i + 1) ∧ p x ∧ (∀ y ∈ ls.take i, ¬ p y) ∧
      (ls.take i).length = i := by
  induction ls generalizing i with
  | nil => simp [findFirst] at h
  | cons l rest ih =>
    rw [findFirst_cons] at h
    by_cases hl : p l
    · rw [if_pos hl] at h
      simp only [Option.some.injEq] at h
      subst h
      exact ⟨by simp, l, rfl, hl, by simp, rfl⟩
    · rw [if_neg hl] at h
      cases hf : findFirst p rest with
      | none => rw [hf] at h; simp at h
      | some j =>
        rw [hf] at h
        simp only [Option.map_some', Option.some.injEq] at h
        subst h
        obtain ⟨hlen, x, hsplit, hx, hmiss, htk⟩ := ih j hf
        refine ⟨by simpa using hlen, x, ?_, hx, ?_, ?_⟩
        · simp only [List.take_succ_cons, List.drop_succ_cons, List.cons_append]
          exact congrArg (l :: ·) hsplit
        · intro y hy
          simp only [List.take_succ_cons, List.mem_cons] at hy
          rcases hy with rfl | hy
          · exact hl
          · exact hmiss y hy
        · simp [List.take_succ_cons, htk]

/-!  ## Section geometry: find_section_range -/

theorem pySlice_ABC (A B C : Lines) :
    pySlice (A ++ B ++ C) A.length (A.length + B.length) = B := by
  rw [pySlice]
  rw [show A.length + B.length = (A ++ B).length by simp]
  rw [List.take_left]
  rw [List.drop_left]

theorem pySlice_decomp (pre : Lines) (hd : Str) (mid rest2 : Lines) :
    pySlice (pre ++ hd :: mid ++ rest2) pre.length (pre.length + 1 + mid.length) = hd :: mid := by
  have h := pySlice_ABC pre (hd :: mid) rest2
  rw [show pre ++ (hd :: mid) ++ rest2 = pre ++ hd :: mid ++ rest2 by simp] at h
  rw [show pre.length + (hd :: mid).length = pre.length + 1 + mid.length by simp; omega] at h
  exact h

theorem pySlice_from_heading (pre : Lines) (hd : Str) (mid rest2 : Lines) :
    pySlice (pre ++ hd :: mid ++ rest2) (pre.length + 1) (pre.length + 1 + mid.length) = mid := by
  have h := pySlice_ABC (pre ++ [hd]) mid rest2
  rw [show (pre ++ [hd]) ++ mid ++ rest2 = pre ++ hd :: mid ++ rest2 by simp] at h
  rw [show (pre ++ [hd]).length = pre.length + 1 by simp] at h
  rw [show pre.length + 1 + mid.length = pre.length + 1 + mid.length from rfl] at h
  exact h

theorem drop_after_heading (pre : Lines) (hd : Str) (X : Lines) :
    (pre ++ hd :: X).drop (pre.length + 1) = X := by
  have : pre ++ hd :: X = (pre ++ [hd]) ++ X := by simp
  rw [this, show pre.length + 1 = (pre ++ [hd]).length by simp, List.drop_left]

theorem fsr_intro_noterm (pre : Lines) (hd : Str) (mid : Lines) (header : Str)
    (hpre : ∀ y ∈ pre, pyStrip y ≠ hline header)
    (hhd : pyStrip hd = hline header)
    (hmid : ∀ y ∈ mid, ¬ isHH y) :
    find_section_range (pre ++ hd :: mid) header =
      some (pre.length, pre.length + 1 + mid.length) := by
  rw [find_section_range]
  rw [findFirst_intro _ pre hd mid (fun y hy => by simpa using hpre y hy) (by simpa using hhd)]
  simp only
  rw [drop_after_heading]
  rw [(findFirst_none_iff _ _).2 (fun y hy => by simpa using hmid y hy)]
  simp only [List.length_append, List.length_cons]
  rw [show pre.length + 1 + mid.length = pre.length + (mid.length + 1) by omega]

theorem fsr_intro_term (pre : Lines) (hd : Str) (mid : Lines) (term : Str) (post : Lines)
    (header : Str)
    (hpre : ∀ y ∈ pre, pyStrip y ≠ hline header)
    (hhd : pyStrip hd = hline header)
    (hmid : ∀ y ∈ mid, ¬ isHH y)
    (hterm : isHH term) :
    find_section_range (pre ++ hd :: mid ++ term :: post) header =
      some (pre.length, pre.length + 1 + mid.length) := by
  rw [find_section_range]
  rw [show pre ++ hd :: mid ++ term :: post = pre ++ hd :: (mid ++ term :: post) by simp]
  rw [findFirst_intro _ pre hd (mid ++ term :: post)
    (fun y hy => by simpa using hpre y hy) (by simpa using hhd)]
  simp only
  rw [drop_after_heading]
  rw [findFirst_intro _ mid term post (fun y hy => by simpa using hmid y hy) hterm]

theorem fsr_none_iff (lines : Lines) (header : Str) :
    find_section_range lines header = none ↔ ∀ ln ∈ lines, pyStrip ln ≠ hline header := by
  rw [find_section_range]
  cases hf : findFirst (fun ln => pyStrip ln == hline header) lines with
  | none =>
    simp only [true_iff]
    have := (findFirst_none_iff _ _).1 hf
    intro ln hln
    simpa using this ln hln
  | some s =>
    simp only
    constructor
    · intro h
      exact absurd h (by simp)
    · intro hall
      obtain ⟨hlen, x, hsplit, hx, -, -⟩ := findFirst_elim _ _ _ hf
      have hmem : x ∈ lines := by
        rw [hsplit]
        exact List.mem_append_right _ (by simp)
      exact absurd (by simpa using hx) (hall x hmem)

theorem fsr_elim (lines : Lines) (header : Str) (s e : Nat)
    (h : find_section_range lines header = some (s, e)) :
    ∃ pre hd mid rest2,
      lines = pre ++ hd :: mid ++ rest2 ∧ pre.length = s ∧ s + 1 + mid.length = e ∧
      (∀ y ∈ pre, pyStrip y ≠ hline header) ∧ pyStrip hd = hline header ∧
      (∀ y ∈ mid, ¬ isHH y) ∧
      (rest2 = [] ∨ ∃ term post, rest2 = term :: post ∧ isHH term) := by
  rw [find_section_range] at h
  cases hf : findFirst (fun ln => pyStrip ln == hline header) lines with
  | none => rw [hf] at h; exact absurd h (by simp)
  | some s0 =>
    rw [hf] at h
    simp only [] at h
    obtain ⟨hlen, hd, hsplit, hhd, hmiss, htk⟩ := findFirst_elim _ _ _ hf
    cases hg : findFirst isHH (lines.drop (s0 + 1)) with
    | none =>
      rw [hg] at h
      simp only [Option.some.injEq, Prod.mk.injEq] at h
      obtain ⟨rfl, rfl⟩ := h
      refine ⟨lines.take s0, hd, lines.drop (s0 + 1), [], ?_, htk, ?_,
        (fun y hy => by simpa using hmiss y hy), (by simpa using hhd),
        (fun y hy => by simpa using (findFirst_none_iff _ _).1 hg y hy), Or.inl rfl⟩
      · rw [List.append_nil]
        exact hsplit
      · rw [List.length_drop]
        omega
    | some j =>
      rw [hg] at h
      simp only [Option.some.injEq, Prod.mk.injEq] at h
      obtain ⟨rfl, rfl⟩ := h
      obtain ⟨hlen2, term, hsplit2, hterm, hmiss2, htk2⟩ := findFirst_elim _ _ _ hg
      refine ⟨lines.take s0, hd, (lines.drop (s0 + 1)).take j,
        term :: (lines.drop (s0 + 1)).drop (j + 1), ?_, htk, ?_,
        (fun y hy => by simpa using hmiss y hy), (by simpa using hhd),
        (fun y hy => by simpa using hmiss2 y hy),
        Or.inr ⟨term, _, rfl, hterm⟩⟩
      · conv_lhs => rw [hsplit]
        conv_lhs => rw [hsplit2]
        simp
      · rw [htk2]

/-!  ## ensure_section and append characterizations -/

theorem ensure_section_found (lines : Lines) (header : Str) (s e : Nat)
    (h : find_section_range lines header = some (s, e)) :
    ensure_section lines header = (lines, s, e) := by
  rw [ensure_section, h]

theorem ensure_section_missing (lines : Lines) (header : Str)
    (h : find_section_range lines header = none) :
    ensure_section lines header =
      (lines ++ ensureSep lines ++ [hline header, ([] : Str)],
       (lines ++ ensureSep lines).length, (lines ++ ensureSep lines).length + 2) := by
  rw [ensure_section, h]
  simp only [ensureSep]
  cases hl : lines.getLast? with
  | none =>
    simp only []
    have : lines = [] := List.getLast?_eq_none_iff.1 hl
    subst this
    simp
  | some last =>
    simp only []
    by_cases hs : pyStrip last ≠ []
    · rw [if_pos hs, if_pos hs]
      refine Prod.ext ?_ (Prod.ext ?_ ?_) <;> simp
    · rw [if_neg hs, if_neg hs]
      refine Prod.ext ?_ (Prod.ext ?_ ?_) <;> simp

theorem take_at_section_end (pre : Lines) (hd : Str) (mid rest2 : Lines) :
    (pre ++ hd :: mid ++ rest2).take (pre.length + 1 + mid.length) = pre ++ hd :: mid := by
  rw [show pre.length + 1 + mid.length = (pre ++ hd :: mid).length by simp; omega]
  exact List.take_left _ _

theorem drop_at_section_end (pre : Lines) (hd : Str) (mid rest2 : Lines) :
    (pre ++ hd :: mid ++ rest2).drop (pre.length + 1 + mid.length) = rest2 := by
  rw [show pre.length + 1 + mid.length = (pre ++ hd :: mid).length by simp; omega]
  exact List.drop_left _ _

theorem aml_found (pre : Lines) (hd : Str) (mid rest2 : Lines) (header : Str) (links : List Str)
    (hpre : ∀ y ∈ pre, pyStrip y ≠ hline header)
    (hhd : pyStrip hd = hline header)
    (hmid : ∀ y ∈ mid, ¬ isHH y)
    (hrest : rest2 = [] ∨ ∃ term post, rest2 = term :: post ∧ isHH term) :
    append_missing_links (pre ++ hd :: mid ++ rest2) header links =
      pre ++ hd :: (mid ++ addedLinks links (hd :: mid)) ++ rest2 := by
  have hfsr : find_section_range (pre ++ hd :: mid ++ rest2) header =
      some (pre.length, pre.length + 1 + mid.length) := by
    rcases hrest with rfl | ⟨term, post, rfl, hterm⟩
    · simpa using fsr_intro_noterm pre hd mid header hpre hhd hmid
    · exact fsr_intro_term pre hd mid term post header hpre hhd hmid hterm
  rw [append_missing_links, ensure_section_found _ _ _ _ hfsr]
  simp only []
  have hex : extract_existing_wikilinks (pre ++ hd :: mid ++ rest2) pre.length
      (pre.length + 1 + mid.length) = wikiTargetsOf (hd :: mid) := by
    rw [extract_existing_wikilinks, pySlice_decomp]
    rfl
  rw [hex]
  by_cases hA : ((pySortLower (pydedup links)).filter (fun x => ¬ x ∈ wikiTargetsOf (hd :: mid))).isEmpty
  · rw [if_pos hA]
    have hz : addedLinks links (hd :: mid) = [] := by
      rw [addedLinks, addedTitles, List.isEmpty_iff.1 hA]
      rfl
    rw [hz]
    simp
  · rw [if_neg hA]
    have he : pre.length + 1 + mid.length ≤ (pre ++ hd :: mid ++ rest2).length := by
      simp only [List.length_append, List.length_cons]
      omega
    rw [insertAllAt_eq _ _ _ he, take_at_section_end, drop_at_section_end]
    rw [show ((pySortLower (pydedup links)).filter (fun x => ¬ x ∈ wikiTargetsOf (hd :: mid))).map linkLine = addedLinks links (hd :: mid) from rfl]
    simp

theorem aml_missing (lines : Lines) (header : Str) (links : List Str)
    (h : find_section_range lines header = none) :
    append_missing_links lines header links =
      (lines ++ ensureSep lines ++ [hline header, ([] : Str)]) ++
        addedLinks links [hline header, ([] : Str)] := by
  rw [append_missing_links, ensure_section_missing _ _ h]
  simp only []
  have hex : extract_existing_wikilinks (lines ++ ensureSep lines ++ [hline header, ([] : Str)])
      (lines ++ ensureSep lines).length ((lines ++ ensureSep lines).length + 2) =
      wikiTargetsOf [hline header, ([] : Str)] := by
    rw [extract_existing_wikilinks]
    have hsl : pySlice (lines ++ ensureSep lines ++ [hline header, ([] : Str)])
        (lines ++ ensureSep lines).length ((lines ++ ensureSep lines).length + 2) =
        [hline header, ([] : Str)] := by
      have := pySlice_ABC (lines ++ ensureSep lines) [hline header, ([] : Str)] []
      simpa using this
    rw [hsl]
    rfl
  rw [hex]
  by_cases hA : ((pySortLower (pydedup links)).filter (fun x => ¬ x ∈ wikiTargetsOf [hline header, ([] : Str)])).isEmpty
  · rw [if_pos hA]
    have hz : addedLinks links [hline header, ([] : Str)] = [] := by
      rw [addedLinks, addedTitles, List.isEmpty_iff.1 hA]
      rfl
    rw [hz]
    simp
  · rw [if_neg hA]
    have he : (lines ++ ensureSep lines).length + 2 ≤ (lines ++ ensureSep lines ++ [hline header, ([] : Str)]).length := by
      simp
      omega
    rw [insertAllAt_eq _ _ _ he]
    have htake : (lines ++ ensureSep lines ++ [hline header, ([] : Str)]).take ((lines ++ ensureSep lines).length + 2) =
        lines ++ ensureSep lines ++ [hline header, ([] : Str)] := by
      apply List.take_of_length_le
      simp
      omega
    have hdrop : (lines ++ ensureSep lines ++ [hline header, ([] : Str)]).drop ((lines ++ ensureSep lines).length + 2) = [] := by
      apply List.drop_eq_nil_of_le
      simp
      omega
    rw [htake, hdrop]
    rw [show ((pySortLower (pydedup links)).filter (fun x => ¬ x ∈ wikiTargetsOf [hline header, ([] : Str)])).map linkLine = addedLinks links [hline header, ([] : Str)] from rfl]
    simp

theorem amlb_found (pre : Lines) (hd : Str) (mid rest2 : Lines) (pairs : List (Str × Str))
    (hpre : ∀ y ∈ pre, pyStrip y ≠ hline (str "Description and source"))
    (hhd : pyStrip hd = hline (str "Description and source"))
    (hmid : ∀ y ∈ mid, ¬ isHH y)
    (hrest : rest2 = [] ∨ ∃ term post, rest2 = term :: post ∧ isHH term) :
    append_missing_leaf_blocks (pre ++ hd :: mid ++ rest2) pairs =
      pre ++ hd :: (mid ++ addedLeafBlocks pairs (hd :: mid)) ++ rest2 := by
  have hfsr : find_section_range (pre ++ hd :: mid ++ rest2) (str "Description and source") =
      some (pre.length, pre.length + 1 + mid.length) := by
    rcases hrest with rfl | ⟨term, post, rfl, hterm⟩
    · simpa using fsr_intro_noterm pre hd mid _ hpre hhd hmid
    · exact fsr_intro_term pre hd mid term post _ hpre hhd hmid hterm
  rw [append_missing_leaf_blocks, ensure_section_found _ _ _ _ hfsr]
  simp only []
  have hex : extract_existing_leaf_pairs (pre ++ hd :: mid ++ rest2) pre.length
      (pre.length + 1 + mid.length) = leafKeysOf (hd :: mid) := by
    rw [extract_existing_leaf_pairs, pySlice_decomp]
    rfl
  rw [hex]
  by_cases hA : (collectLeafBlocks pairs (leafKeysOf (hd :: mid))).isEmpty
  · rw [if_pos hA]
    have hz : addedLeafBlocks pairs (hd :: mid) = [] := by
      rw [addedLeafBlocks, List.isEmpty_iff.1 hA]
      rfl
    rw [hz]
    simp
  · rw [if_neg hA]
    have he : pre.length + 1 + mid.length ≤ (pre ++ hd :: mid ++ rest2).length := by
      simp only [List.length_append, List.length_cons]
      omega
    rw [insertAllAt_eq _ _ _ he, take_at_section_end, drop_at_section_end]
    rw [show (collectLeafBlocks pairs (leafKeysOf (hd :: mid))).flatten = addedLeafBlocks pairs (hd :: mid) from rfl]
    simp

theorem amlb_missing (lines : Lines) (pairs : List (Str × Str))
    (h : find_section_range lines (str "Description and source") = none) :
    append_missing_leaf_blocks lines pairs =
      (lines ++ ensureSep lines ++ [hline (str "Description and source"), ([] : Str)]) ++
        addedLeafBlocks pairs [hline (str "Description and source"), ([] : Str)] := by
  rw [append_missing_leaf_blocks, ensure_section_missing _ _ h]
  simp only []
  have hex : extract_existing_leaf_pairs (lines ++ ensureSep lines ++ [hline (str "Description and source"), ([] : Str)])
      (lines ++ ensureSep lines).length ((lines ++ ensureSep lines).length + 2) =
      leafKeysOf [hline (str "Description and source"), ([] : Str)] := by
    rw [extract_existing_leaf_pairs]
    have hsl : pySlice (lines ++ ensureSep lines ++ [hline (str "Description and source"), ([] : Str)])
        (lines ++ ensureSep lines).length ((lines ++ ensureSep lines).length + 2) =
        [hline (str "Description and source"), ([] : Str)] := by
      have := pySlice_ABC (lines ++ ensureSep lines) [hline (str "Description and source"), ([] : Str)] []
      simpa using this
    rw [hsl]
    rfl
  rw [hex]
  by_cases hA : (collectLeafBlocks pairs (leafKeysOf [hline (str "Description and source"), ([] : Str)])).isEmpty
  · rw [if_pos hA]
    have hz : addedLeafBlocks pairs [hline (str "Description and source"), ([] : Str)] = [] := by
      rw [addedLeafBlocks, List.isEmpty_iff.1 hA]
      rfl
    rw [hz]
    simp
  · rw [if_neg hA]
    have he : (lines ++ ensureSep lines).length + 2 ≤ (lines ++ ensureSep lines ++ [hline (str "Description and source"), ([] : Str)]).length := by
      simp
      omega
    rw [insertAllAt_eq _ _ _ he]
    have htake : (lines ++ ensureSep lines ++ [hline (str "Description and source"), ([] : Str)]).take ((lines ++ ensureSep lines).length + 2) =
        lines ++ ensureSep lines ++ [hline (str "Description and source"), ([] : Str)] := by
      apply List.take_of_length_le
      simp
      omega
    have hdrop : (lines ++ ensureSep lines ++ [hline (str "Description and source"), ([] : Str)]).drop ((lines ++ ensureSep lines).length + 2) = [] := by
      apply List.drop_eq_nil_of_le
      simp
      omega
    rw [htake, hdrop]
    rw [show (collectLeafBlocks pairs (leafKeysOf [hline (str "Description and source"), ([] : Str)])).flatten = addedLeafBlocks pairs [hline (str "Description and source"), ([] : Str)] from rfl]
    simp

/-!  ## Scanner lemmas -/

theorem tryMatchWikilink_shrink {s : Str} {t rem : Str}
    (h : tryMatchWikilink s = some (t, rem)) : rem.length < s.length := by
  match s with
  | [] => simp [tryMatchWikilink] at h
  | [c] =>
    unfold tryMatchWikilink at h
    split at h
    · next heq => cases heq
    · exact absurd h (by simp)
  | a :: b :: rest =>
    unfold tryMatchWikilink at h
    split at h
    · next _ rest2 heq =>
      cases heq
      split at h
      · next n hn =>
        simp only [Option.some.injEq, Prod.mk.injEq] at h
        obtain ⟨-, hrem⟩ := h
        have hlen : (List.drop n rest).length ≤ rest.length := by
          rw [List.length_drop]
          omega
        rw [hrem] at hlen
        simp only [List.length_cons]
        omega
      · exact absurd h (by simp)
    · exact absurd h (by simp)

theorem scanWikilinksAux_congr : ∀ (n1 : Nat) (n2 : Nat) (s : Str),
    s.length ≤ n1 → s.length ≤ n2 → scanWikilinksAux n1 s = scanWikilinksAux n2 s
  | 0, n2, s, h1, h2 => by
    have : s = [] := List.eq_nil_of_length_eq_zero (Nat.le_zero.1 h1)
    subst this
    cases n2 <;> rfl
  | Nat.succ m1, n2, s, h1, h2 => by
    cases s with
    | nil => cases n2 <;> rfl
    | cons c rest =>
      cases n2 with
      | zero => exact absurd h2 (by simp)
      | succ m2 =>
        rw [scanWikilinksAux, scanWikilinksAux]
        cases htm : tryMatchWikilink (c :: rest) with
        | some pr =>
          obtain ⟨t, rem⟩ := pr
          have hs := tryMatchWikilink_shrink htm
          simp only [List.length_cons] at h1 h2 hs
          show t :: scanWikilinksAux m1 rem = t :: scanWikilinksAux m2 rem
          rw [scanWikilinksAux_congr m1 m2 rem (by omega) (by omega)]
        | none =>
          simp only [List.length_cons] at h1 h2
          show scanWikilinksAux m1 rest = scanWikilinksAux m2 rest
          rw [scanWikilinksAux_congr m1 m2 rest (by omega) (by omega)]

theorem scanWikilinks_cons (c : Char) (rest : Str) :
    scanWikilinks (c :: rest) =
      match tryMatchWikilink (c :: rest) with
      | some (t, rem) => t :: scanWikilinks rem
      | none => scanWikilinks rest := by
  rw [scanWikilinks, show (c :: rest).length = rest.length + 1 from rfl, scanWikilinksAux]
  cases htm : tryMatchWikilink (c :: rest) with
  | some pr =>
    obtain ⟨t, rem⟩ := pr
    have hs := tryMatchWikilink_shrink htm
    simp only [List.length_cons] at hs
    show t :: scanWikilinksAux rest.length rem = t :: scanWikilinks rem
    rw [scanWikilinksAux_congr rest.length rem.length rem (by omega) (le_refl _)]
    rfl
  | none =>
    show scanWikilinksAux rest.length rest = scanWikilinks rest
    rfl

theorem tryMatchWikilink_no_lb (c : Char) (s : Str) (hc : ¬ c = '[') :
    tryMatchWikilink (c :: s) = none := by
  unfold tryMatchWikilink
  split
  · next heq =>
    injection heq with h1 h2
    exact absurd h1 hc
  · rfl

theorem tryMatchWikilink_single (c : Char) : tryMatchWikilink [c] = none := by
  unfold tryMatchWikilink
  split
  · next heq => cases heq
  · rfl

theorem tryMatchWikilink_second (c d : Char) (s : Str) (hd2 : ¬ d = '[') :
    tryMatchWikilink (c :: d :: s) = none := by
  unfold tryMatchWikilink
  split
  · next heq =>
    injection heq with h1 h2
    injection h2 with h3 h4
    exact absurd h3 hd2
  · rfl

theorem scanWikilinks_no_lb (s : Str) (h : ∀ c ∈ s, ¬ c = '[') :
    scanWikilinks s = [] := by
  induction s with
  | nil => rfl
  | cons c rest ih =>
    rw [scanWikilinks_cons, tryMatchWikilink_no_lb c rest (h c (by simp))]
    exact ih (fun d hd => h d (by simp [hd]))

/-- takeWhile over a run that wholly satisfies the predicate followed by a
failing head. -/
theorem takeWhile_run (p : Char → Bool) (t : Str) (x : Char) (r : Str)
    (ht : ∀ c ∈ t, p c) (hx : ¬ p x) :
    (t ++ x :: r).takeWhile p = t ∧ (t ++ x :: r).drop ((t ++ x :: r).takeWhile p).length = x :: r := by
  constructor
  · induction t with
    | nil => simp [List.takeWhile_cons, hx]
    | cons c cs ih =>
      rw [List.cons_append, List.takeWhile_cons, if_pos (ht c (by simp))]
      rw [ih (fun d hd => ht d (by simp [hd]))]
  · have h1 : (t ++ x :: r).takeWhile p = t := by
      induction t with
      | nil => simp [List.takeWhile_cons, hx]
      | cons c cs ih =>
        rw [List.cons_append, List.takeWhile_cons, if_pos (ht c (by simp))]
        rw [ih (fun d hd => ht d (by simp [hd]))]
    rw [h1]
    rw [show t.length = (t ++ x :: r).length - (x :: r).length by simp]
    rw [List.drop_left']
    simp

theorem tryMatchWikilink_link (t r : Str)
    (hne : t ≠ []) (hrb : ¬ ']' ∈ t) (hpipe : ¬ '|' ∈ t) :
    tryMatchWikilink ('[' :: '[' :: (t ++ ']' :: ']' :: r)) = some (t, r) := by
  have hg1 : ∀ c ∈ t, wlG1 c := by
    intro c hc
    simp only [wlG1, Bool.and_eq_true, Bool.not_eq_eq_eq_not, Bool.not_true, beq_eq_false_iff_ne]
    exact ⟨fun h => hrb (h ▸ hc), fun h => hpipe (h ▸ hc)⟩
  have hstop : ¬ wlG1 ']' := by simp [wlG1]
  obtain ⟨htw, hdr⟩ := takeWhile_run wlG1 t ']' (']' :: r) hg1 hstop
  rw [tryMatchWikilink]
  rw [wikiMatchLen]
  simp only [htw]
  rw [if_neg (by simpa [List.isEmpty_iff] using hne)]
  have hdrop : (t ++ ']' :: ']' :: r).drop t.length = ']' :: ']' :: r := by
    rw [show t.length = (t ++ ']' :: ']' :: r).length - (']' :: ']' :: r).length by simp]
    rw [List.drop_left']
    simp
  rw [hdrop]
  have hdrop2 : (t ++ ']' :: ']' :: r).drop (t.length + 2) = r := by
    rw [show t ++ ']' :: ']' :: r = (t ++ [']', ']']) ++ r by simp]
    rw [show t.length + 2 = (t ++ [']', ']']).length by simp]
    exact List.drop_left _ _
  show some (t, (t ++ ']' :: ']' :: r).drop (t.length + 2)) = some (t, r)
  rw [hdrop2]

theorem scanWikilinks_linkLine (t : Str) (hne : t ≠ []) (hrb : ¬ ']' ∈ t) (hpipe : ¬ '|' ∈ t) :
    scanWikilinks (linkLine t) = [t] := by
  have hshape : linkLine t = '-' :: ' ' :: '[' :: '[' :: (t ++ ']' :: ']' :: ([] : Str)) := by
    simp [linkLine, str]
  rw [hshape]
  rw [scanWikilinks_cons, tryMatchWikilink_no_lb '-' _ (by decide)]
  rw [scanWikilinks_cons, tryMatchWikilink_no_lb ' ' _ (by decide)]
  rw [scanWikilinks_cons, tryMatchWikilink_link t [] hne hrb hpipe]
  rfl

theorem pyStrip_decomp (s : Str) :
    ∃ lw tw, s = lw ++ pyStrip s ++ tw ∧ (∀ c ∈ lw, isPySpace c) ∧ (∀ c ∈ tw, isPySpace c) := by
  obtain ⟨tw, hs, htw⟩ := pyRstrip_spec s
  refine ⟨(pyRstrip s).takeWhile isPySpace, tw, ?_,
    fun c hc => List.mem_takeWhile_imp hc, htw⟩
  conv_lhs => rw [hs]
  congr 1
  rw [pyStrip, pyLstrip]
  conv_lhs => rw [← List.takeWhile_append_dropWhile (p := isPySpace) (l := pyRstrip s)]

theorem scanWikilinks_of_heading (hd : Str) (header : Str)
    (hhd : pyStrip hd = hline header) (hheader : ¬ '[' ∈ hline header) :
    scanWikilinks hd = [] := by
  apply scanWikilinks_no_lb
  intro c hc hceq
  subst hceq
  obtain ⟨lw, tw, hdec, hlw, htw⟩ := pyStrip_decomp hd
  rw [hdec] at hc
  rcases List.mem_append.1 hc with hc2 | hc2
  · rcases List.mem_append.1 hc2 with hc3 | hc3
    · exact absurd (hlw _ hc3) (by decide)
    · rw [hhd] at hc3
      exact hheader hc3
  · exact absurd (htw _ hc2) (by decide)

theorem linkLine_inj {t u : Str} (h : linkLine t = linkLine u) : t = u := by
  simp only [linkLine] at h
  have h1 := List.append_cancel_right h
  exact List.append_cancel_left h1

theorem mem_addedLinks (links : List Str) (sec : Lines) (t : Str) :
    linkLine t ∈ addedLinks links sec ↔ t ∈ pydedup links ∧ ¬ t ∈ wikiTargetsOf sec := by
  rw [addedLinks]
  constructor
  · intro h
    rcases List.mem_map.1 h with ⟨u, hu, hequ⟩
    have : u = t := linkLine_inj hequ
    subst this
    rcases List.mem_filter.1 hu with ⟨hu1, hu2⟩
    exact ⟨(pySortLower_perm _).mem_iff.1 hu1, by simpa using hu2⟩
  · rintro ⟨h1, h2⟩
    refine List.mem_map.2 ⟨t, ?_, rfl⟩
    exact List.mem_filter.2 ⟨(pySortLower_perm _).mem_iff.2 h1, by simpa using h2⟩

theorem addedLinks_decomp (links : List Str) (sec : Lines) :
    ∃ ts : List Str, addedLinks links sec = ts.map linkLine ∧
      ts.Pairwise (fun a b => lowLe a b) ∧
      (∀ t, t ∈ ts ↔ t ∈ pydedup links ∧ ¬ t ∈ wikiTargetsOf sec) := by
  refine ⟨(pySortLower (pydedup links)).filter (fun x => ¬ x ∈ wikiTargetsOf sec), rfl, ?_, ?_⟩
  · exact (pySortLower_sorted _).filter _
  · intro t
    rw [List.mem_filter]
    constructor
    · rintro ⟨h1, h2⟩
      exact ⟨(pySortLower_perm _).mem_iff.1 h1, by simpa using h2⟩
    · rintro ⟨h1, h2⟩
      exact ⟨(pySortLower_perm _).mem_iff.2 h1, by simpa using h2⟩

/-- Claim C7: when merging links into an existing Parents or Children
section, a candidate is skipped exactly when it equals, verbatim and
case-sensitively, the stripped captured target of some wikilink token in
that section; every remaining candidate is appended at the end of the
section body as a "- [[Title]]" line, the appended lines sorted among
themselves case-insensitively while all existing lines keep their
positions. -/
theorem claim_C7 (pre : Lines) (hd : Str) (mid rest2 : Lines) (header : Str) (links : List Str)
    (hheader : header = str "Parents" ∨ header = str "Children")
    (hpre : ∀ y ∈ pre, pyStrip y ≠ hline header)
    (hhd : pyStrip hd = hline header)
    (hmid : ∀ y ∈ mid, ¬ isHH y)
    (hrest : rest2 = [] ∨ ∃ term post, rest2 = term :: post ∧ isHH term) :
    append_missing_links (pre ++ hd :: mid ++ rest2) header links =
      pre ++ hd :: (mid ++ (addedTitles links mid).map linkLine) ++ rest2 ∧
    (addedTitles links mid).Pairwise (fun a b => lowLe a b) ∧
    (∀ t, t ∈ addedTitles links mid ↔ t ∈ pydedup links ∧ ¬ t ∈ wikiTargetsOf mid) := by
  have hhd0 : scanWikilinks hd = [] :=
    scanWikilinks_of_heading hd header hhd
      (by rcases hheader with rfl | rfl <;> decide)
  have htg : wikiTargetsOf (hd :: mid) = wikiTargetsOf mid := by
    rw [wikiTargetsOf, wikiTargetsOf, List.flatMap_cons, hhd0]
    rfl
  have hts : addedTitles links (hd :: mid) = addedTitles links mid := by
    rw [addedTitles, addedTitles, htg]
  refine ⟨?_, (pySortLower_sorted _).filter _, ?_⟩
  · have h1 := aml_found pre hd mid rest2 header links hpre hhd hmid hrest
    rw [h1, addedLinks, hts]
  · intro t
    rw [addedTitles, List.mem_filter]
    constructor
    · rintro ⟨h1, h2⟩
      exact ⟨(pySortLower_perm _).mem_iff.1 h1, by simpa using h2⟩
    · rintro ⟨h1, h2⟩
      exact ⟨(pySortLower_perm _).mem_iff.2 h1, by simpa using h2⟩

/-- Claim C7 witness at a concrete section and candidate set. -/
theorem claim_C7_witness :
    (append_missing_links [str "## Parents", str "- [[Apple]]"] (str "Parents")
        [str "banana", str "Apple"] =
      [] ++ (str "## Parents") :: ([str "- [[Apple]]"] ++
        (addedTitles [str "banana", str "Apple"] [str "- [[Apple]]"]).map linkLine) ++ []) ∧
    ((str "banana") ∈ addedTitles [str "banana", str "Apple"] [str "- [[Apple]]"] ↔
      (str "banana") ∈ pydedup [str "banana", str "Apple"] ∧
      ¬ (str "banana") ∈ wikiTargetsOf [str "- [[Apple]]"]) :=
  ⟨(claim_C7 [] (str "## Parents") [str "- [[Apple]]"] [] (str "Parents")
      [str "banana", str "Apple"] (Or.inl rfl) (by simp) (by decide) (by decide)
      (Or.inl rfl)).1,
   (claim_C7 [] (str "## Parents") [str "- [[Apple]]"] [] (str "Parents")
      [str "banana", str "Apple"] (Or.inl rfl) (by simp) (by decide) (by decide)
      (Or.inl rfl)).2.2 (str "banana")⟩

/-- The block-collection loop keeps a subsequence of the incoming pairs:
exactly those whose normalized key is non-empty, absent from the existing
set, and distinct from every earlier kept key; each kept pair contributes
its two-line block, in input order. -/
theorem collectLeafBlocks_spec : ∀ (pairs : List (Str × Str)) (existing : List Str),
    ∃ kept : List (Str × Str), kept.Sublist pairs ∧
      collectLeafBlocks pairs existing =
        kept.map (fun pr => [pyRstrip (str "- **Description:** " ++ pr.1),
                             pyRstrip (str "  **Source:** " ++ pr.2)]) ∧
      (∀ pr ∈ kept, normalize_leaf_pair pr.1 pr.2 ≠ [] ∧
        ¬ normalize_leaf_pair pr.1 pr.2 ∈ existing) ∧
      kept.Pairwise (fun a b => normalize_leaf_pair a.1 a.2 ≠ normalize_leaf_pair b.1 b.2)
  | [], existing => ⟨[], by simp, by simp [collectLeafBlocks], by simp, by simp⟩
  | (d, s) :: rest, existing => by
    rw [collectLeafBlocks]
    by_cases hc : normalize_leaf_pair d s ≠ [] ∧ ¬ normalize_leaf_pair d s ∈ existing
    · rw [if_pos hc]
      obtain ⟨kept, hsub, heq, hcond, hpw⟩ :=
        collectLeafBlocks_spec rest (normalize_leaf_pair d s :: existing)
      refine ⟨(d, s) :: kept, hsub.cons₂ _, ?_, ?_, ?_⟩
      · rw [List.map_cons, ← heq]
        rfl
      · intro pr hpr
        rcases List.mem_cons.1 hpr with rfl | hpr
        · exact hc
        · obtain ⟨h1, h2⟩ := hcond pr hpr
          exact ⟨h1, fun hmem => h2 (List.mem_cons_of_mem _ hmem)⟩
      · refine List.pairwise_cons.2 ⟨?_, hpw⟩
        intro pr hpr
        obtain ⟨-, h2⟩ := hcond pr hpr
        intro hkey
        exact h2 (hkey ▸ List.mem_cons_self _ _)
    · rw [if_neg hc]
      obtain ⟨kept, hsub, heq, hcond, hpw⟩ := collectLeafBlocks_spec rest existing
      exact ⟨kept, hsub.cons _, heq, hcond, hpw⟩

/-- Claim C8: leaf-pair dedup keys are formed by trimming, whitespace
collapsing and case folding, so ("Foo", "Bar") and (" foo ", "bar") share
one key and merge to a single block; a pair is appended only if its key is
absent from the section and from the keys appended earlier in the same
batch; appended pairs keep input order, each contributing exactly the
trailing-trimmed Description and Source lines. -/
theorem claim_C8 :
    (normalize_leaf_pair (str "Foo") (str "Bar") =
      normalize_leaf_pair (str " foo ") (str "bar")) ∧
    (append_missing_leaf_blocks [str "## Description and source"]
        [(str "Foo", str "Bar"), (str " foo ", str "bar")] =
      [str "## Description and source", str "- **Description:** Foo", str "  **Source:** Bar"]) ∧
    (∀ (pairs : List (Str × Str)) (existing : List Str),
      ∃ kept : List (Str × Str), kept.Sublist pairs ∧
        collectLeafBlocks pairs existing =
          kept.map (fun pr => [pyRstrip (str "- **Description:** " ++ pr.1),
                               pyRstrip (str "  **Source:** " ++ pr.2)]) ∧
        (∀ pr ∈ kept, normalize_leaf_pair pr.1 pr.2 ≠ [] ∧
          ¬ normalize_leaf_pair pr.1 pr.2 ∈ existing) ∧
        kept.Pairwise (fun a b => normalize_leaf_pair a.1 a.2 ≠ normalize_leaf_pair b.1 b.2)) :=
  ⟨by decide, by decide, collectLeafBlocks_spec⟩

/-- Claim C8 witness at a concrete batch. -/
theorem claim_C8_witness :
    ∃ kept : List (Str × Str),
      kept.Sublist [(str "a", str "b"), (str " A ", str "b"), (str "c", str "d")] ∧
      collectLeafBlocks [(str "a", str "b"), (str " A ", str "b"), (str "c", str "d")] [] =
        kept.map (fun pr => [pyRstrip (str "- **Description:** " ++ pr.1),
                             pyRstrip (str "  **Source:** " ++ pr.2)]) ∧
      (∀ pr ∈ kept, normalize_leaf_pair pr.1 pr.2 ≠ [] ∧
        ¬ normalize_leaf_pair pr.1 pr.2 ∈ ([] : List Str)) ∧
      kept.Pairwise (fun a b => normalize_leaf_pair a.1 a.2 ≠ normalize_leaf_pair b.1 b.2) :=
  claim_C8.2.2 [(str "a", str "b"), (str " A ", str "b"), (str "c", str "d")] []

/-!  ## Words and whitespace collapsing -/

theorem pyLstrip_cons_ws (c : Char) (x : Str) (hc : isPySpace c) :
    pyLstrip (c :: x) = pyLstrip x := by
  simp [pyLstrip, List.dropWhile_cons, hc]

theorem pyLstrip_cons_not_ws (c : Char) (x : Str) (hc : ¬ isPySpace c) :
    pyLstrip (c :: x) = c :: x := by
  simp [pyLstrip, List.dropWhile_cons, hc]

theorem pyRstrip_cons (c : Char) (x : Str) :
    pyRstrip (c :: x) = if pyRstrip x = [] then pyRstrip [c] else c :: pyRstrip x := by
  simp only [pyRstrip, List.reverse_cons]
  rw [List.dropWhile_append]
  by_cases h : (x.reverse.dropWhile isPySpace).isEmpty
  · rw [if_pos h]
    rw [show (List.dropWhile isPySpace x.reverse).reverse = ([] : Str) by
      simp [List.isEmpty_iff.1 h]]
    simp only [if_pos rfl]
    rfl
  · rw [if_neg h]
    have hne : (x.reverse.dropWhile isPySpace).reverse ≠ [] := by
      intro hh
      exact absurd (by simpa using congrArg List.reverse hh) (by simpa [List.isEmpty_iff] using h)
    rw [if_neg hne]
    simp

theorem pyStrip_cons_ws (c : Char) (x : Str) (hc : isPySpace c) :
    pyStrip (c :: x) = pyStrip x := by
  rw [pyStrip, pyRstrip_cons]
  by_cases h : pyRstrip x = []
  · rw [if_pos h]
    rw [show pyRstrip [c] = ([] : Str) by simp [pyRstrip, List.dropWhile_cons, hc]]
    rw [pyStrip, h]
  · rw [if_neg h, pyLstrip_cons_ws c _ hc, pyStrip]

theorem pyWordsAux_all_nonempty : ∀ (u : Str) (acc : Str) (w : Str),
    w ∈ pyWordsAux u acc → w ≠ []
  | [], acc, w => by
    rw [pyWordsAux]
    by_cases h : acc.isEmpty
    · rw [if_pos h]
      intro hw
      exact absurd hw (by simp)
    · rw [if_neg h]
      intro hw hwe
      rcases List.mem_singleton.1 hw with rfl
      exact absurd (by simpa using congrArg List.reverse hwe) (by simpa [List.isEmpty_iff] using h)
  | c :: u, acc, w => by
    rw [pyWordsAux]
    by_cases hc : isPySpace c
    · rw [if_pos hc]
      by_cases h : acc.isEmpty
      · rw [if_pos h]
        exact pyWordsAux_all_nonempty u [] w
      · rw [if_neg h]
        intro hw
        rcases List.mem_cons.1 hw with rfl | hw
        · intro hwe
          exact absurd (by simpa using congrArg List.reverse hwe) (by simpa [List.isEmpty_iff] using h)
        · exact pyWordsAux_all_nonempty u [] w hw
    · rw [if_neg hc]
      exact pyWordsAux_all_nonempty u (c :: acc) w

theorem pyWordsAux_all_not_ws : ∀ (u : Str) (acc : Str),
    (∀ ch ∈ acc, ¬ isPySpace ch) →
    ∀ w ∈ pyWordsAux u acc, ∀ ch ∈ w, ¬ isPySpace ch
  | [], acc, hacc, w => by
    rw [pyWordsAux]
    by_cases h : acc.isEmpty
    · rw [if_pos h]
      intro hw
      exact absurd hw (by simp)
    · rw [if_neg h]
      intro hw ch hch
      rcases List.mem_singleton.1 hw with rfl
      exact hacc ch (by simpa using hch)
  | c :: u, acc, hacc, w => by
    rw [pyWordsAux]
    by_cases hc : isPySpace c
    · rw [if_pos hc]
      by_cases h : acc.isEmpty
      · rw [if_pos h]
        exact pyWordsAux_all_not_ws u [] (by simp) w
      · rw [if_neg h]
        intro hw
        rcases List.mem_cons.1 hw with rfl | hw
        · intro ch hch
          exact hacc ch (by simpa using hch)
        · exact pyWordsAux_all_not_ws u [] (by simp) w hw
    · rw [if_neg hc]
      exact pyWordsAux_all_not_ws u (c :: acc)
        (fun ch hch => by
          rcases List.mem_cons.1 hch with rfl | hch
          · exact hc
          · exact hacc ch hch) w

theorem joinWords_cons (w : Str) (W : List Str) :
    joinWords (w :: W) = match W with | [] => w | _ :: _ => w ++ ' ' :: joinWords W := by
  cases W <;> rfl

/-- The collapsed text and the word list agree: in true mode the
right-stripped collapse is the space-joined words; in false mode with a
pending (reversed) word the same holds with that word prepended. -/
theorem words_collapse : ∀ u : Str,
    (joinWords (pyWordsAux u []) = pyRstrip (collapseWsAux true u)) ∧
    (∀ w : Str, w ≠ [] → (∀ ch ∈ w, ¬ isPySpace ch) →
      joinWords (pyWordsAux u w) = w.reverse ++ pyRstrip (collapseWsAux false u))
  | [] => by
    constructor
    · rfl
    · intro w hw hnws
      rw [pyWordsAux, if_neg (by simpa [List.isEmpty_iff] using hw)]
      rw [collapseWsAux]
      simp [joinWords, pyRstrip]
  | c :: u => by
    obtain ⟨ih4, ih3⟩ := words_collapse u
    by_cases hc : isPySpace c
    · constructor
      · rw [pyWordsAux, if_pos hc, if_pos (by simp)]
        rw [collapseWsAux, if_pos hc, if_pos rfl]
        exact ih4
      · intro w hw hnws
        rw [pyWordsAux, if_pos hc, if_neg (by simpa [List.isEmpty_iff] using hw)]
        rw [collapseWsAux, if_pos hc, if_neg (by simp)]
        rw [pyRstrip_cons]
        cases hW : pyWordsAux u ([] : Str) with
        | nil =>
          have hz : pyRstrip (collapseWsAux true u) = [] := by
            rw [← ih4, hW]
            rfl
          rw [if_pos hz]
          rw [show pyRstrip [' '] = ([] : Str) by decide]
          rw [joinWords_cons]
          simp
        | cons W0 Ws =>
          have hW0 : W0 ≠ [] := pyWordsAux_all_nonempty u [] W0 (by rw [hW]; simp)
          have hz : pyRstrip (collapseWsAux true u) ≠ [] := by
            rw [← ih4, hW, joinWords_cons]
            cases Ws with
            | nil => simpa using hW0
            | cons W1 Ws2 =>
              simp only []
              intro hcontra
              exact hW0 (List.append_eq_nil.1 hcontra).1
          rw [if_neg hz, joinWords_cons]
          rw [← ih4, hW, joinWords_cons]
    · constructor
      · rw [pyWordsAux, if_neg hc]
        rw [collapseWsAux, if_neg hc]
        rw [ih3 [c] (by simp)
          (fun ch hch => by rcases List.mem_singleton.1 hch with rfl; exact hc)]
        rw [pyRstrip_cons]
        by_cases hz : pyRstrip (collapseWsAux false u) = []
        · rw [if_pos hz, hz]
          rw [show pyRstrip [c] = [c] by
            simp [pyRstrip, List.dropWhile_cons, hc]]
          simp
        · rw [if_neg hz]
          simp
      · intro w hw hnws
        rw [pyWordsAux, if_neg hc]
        rw [collapseWsAux, if_neg hc]
        rw [ih3 (c :: w) (by simp)
          (fun ch hch => by
            rcases List.mem_cons.1 hch with rfl | hch
            · exact hc
            · exact hnws ch hch)]
        rw [pyRstrip_cons]
        by_cases hz : pyRstrip (collapseWsAux false u) = []
        · rw [if_pos hz, hz]
          rw [show pyRstrip [c] = [c] by
            simp [pyRstrip, List.dropWhile_cons, hc]]
          simp
        · rw [if_neg hz]
          simp

theorem pyStrip_collapse_true (u : Str) :
    pyStrip (collapseWsAux true u) = joinWords (pyWordsAux u []) := by
  have h4 := (words_collapse u).1
  rw [pyStrip, ← h4]
  cases hW : pyWordsAux u ([] : Str) with
  | nil => rfl
  | cons W0 Ws =>
    have hW0ne : W0 ≠ [] := pyWordsAux_all_nonempty u [] W0 (by rw [hW]; simp)
    have hW0nws : ∀ ch ∈ W0, ¬ isPySpace ch :=
      fun ch hch => pyWordsAux_all_not_ws u [] (by simp) W0 (by rw [hW]; simp) ch hch
    rw [joinWords_cons]
    cases hW0 : W0 with
    | nil => exact absurd hW0 hW0ne
    | cons ch W0t =>
      cases Ws with
      | nil =>
        exact pyLstrip_cons_not_ws ch W0t (hW0nws ch (by rw [hW0]; simp))
      | cons W1 Ws2 =>
        simp only [List.cons_append]
        exact pyLstrip_cons_not_ws ch _ (hW0nws ch (by rw [hW0]; simp))

theorem pyStrip_collapseWs (u : Str) :
    pyStrip (collapseWs u) = joinWords (pyWords u) := by
  rw [collapseWs, pyWords]
  cases u with
  | nil => rfl
  | cons c u2 =>
    by_cases hc : isPySpace c
    · rw [collapseWsAux, if_pos hc]
      simp only [Bool.false_eq_true, if_false]
      rw [pyStrip_cons_ws ' ' _ (by decide)]
      rw [pyWordsAux, if_pos hc, if_pos (by simp)]
      exact pyStrip_collapse_true u2
    · rw [collapseWsAux, if_neg hc]
      rw [pyWordsAux, if_neg hc]
      rw [(words_collapse u2).2 [c] (by simp)
        (fun ch hch => by rcases List.mem_singleton.1 hch with rfl; exact hc)]
      rw [pyStrip, pyRstrip_cons]
      by_cases hz : pyRstrip (collapseWsAux false u2) = []
      · rw [if_pos hz, hz]
        rw [show pyRstrip [c] = [c] by simp [pyRstrip, List.dropWhile_cons, hc]]
        rw [pyLstrip_cons_not_ws c [] hc]
        simp
      · rw [if_neg hz]
        rw [pyLstrip_cons_not_ws c _ hc]
        simp

theorem pyWordsAux_sep (c : Char) (hc : isPySpace c) (b : Str) : ∀ (a : Str) (acc : Str),
    pyWordsAux (a ++ c :: b) acc = pyWordsAux a acc ++ pyWordsAux b []
  | [], acc => by
    rw [List.nil_append]
    rw [show pyWordsAux (c :: b) acc =
      if isPySpace c then
        (if acc.isEmpty then pyWordsAux b [] else acc.reverse :: pyWordsAux b [])
      else pyWordsAux b (c :: acc) from rfl]
    rw [if_pos hc]
    rw [show pyWordsAux ([] : Str) acc = if acc.isEmpty then [] else [acc.reverse] from rfl]
    by_cases h : acc.isEmpty
    · rw [if_pos h, if_pos h]
      rfl
    · rw [if_neg h, if_neg h]
      rfl
  | x :: a, acc => by
    rw [List.cons_append, pyWordsAux,
      show pyWordsAux (x :: a) acc =
        if isPySpace x then
          (if acc.isEmpty then pyWordsAux a [] else acc.reverse :: pyWordsAux a [])
        else pyWordsAux a (x :: acc) from rfl]
    by_cases hx : isPySpace x
    · rw [if_pos hx, if_pos hx]
      by_cases h : acc.isEmpty
      · rw [if_pos h, if_pos h]
        exact pyWordsAux_sep c hc b a []
      · rw [if_neg h, if_neg h]
        rw [pyWordsAux_sep c hc b a []]
        rfl
    · rw [if_neg hx, if_neg hx]
      exact pyWordsAux_sep c hc b a (x :: acc)

theorem pyWordsAux_all_ws_nil : ∀ (u : Str), (∀ ch ∈ u, isPySpace ch) →
    pyWordsAux u [] = []
  | [], _ => rfl
  | c :: u, h => by
    rw [pyWordsAux, if_pos (h c (by simp)), if_pos (by simp)]
    exact pyWordsAux_all_ws_nil u (fun ch hch => h ch (by simp [hch]))

theorem pyWordsAux_ws_tail : ∀ (y : Str) (acc : Str) (tw : Str), (∀ ch ∈ tw, isPySpace ch) →
    pyWordsAux (y ++ tw) acc = pyWordsAux y acc
  | [], acc, tw, h => by
    rw [List.nil_append]
    cases tw with
    | nil => rfl
    | cons c tw2 =>
      rw [show pyWordsAux (c :: tw2) acc =
        if isPySpace c then
          (if acc.isEmpty then pyWordsAux tw2 [] else acc.reverse :: pyWordsAux tw2 [])
        else pyWordsAux tw2 (c :: acc) from rfl]
      rw [if_pos (h c (by simp))]
      rw [pyWordsAux_all_ws_nil tw2 (fun ch hch => h ch (by simp [hch]))]
      by_cases ha : acc.isEmpty
      · rw [if_pos ha]
        rw [show pyWordsAux ([] : Str) acc = if acc.isEmpty then [] else [acc.reverse] from rfl,
          if_pos ha]
      · rw [if_neg ha]
        rw [show pyWordsAux ([] : Str) acc = if acc.isEmpty then [] else [acc.reverse] from rfl,
          if_neg ha]
  | x :: y, acc, tw, h => by
    rw [List.cons_append, pyWordsAux,
      show pyWordsAux (x :: y) acc =
        if isPySpace x then
          (if acc.isEmpty then pyWordsAux y [] else acc.reverse :: pyWordsAux y [])
        else pyWordsAux y (x :: acc) from rfl]
    by_cases hx : isPySpace x
    · rw [if_pos hx, if_pos hx]
      by_cases ha : acc.isEmpty
      · rw [if_pos ha, if_pos ha]
        exact pyWordsAux_ws_tail y [] tw h
      · rw [if_neg ha, if_neg ha]
        rw [pyWordsAux_ws_tail y [] tw h]
    · rw [if_neg hx, if_neg hx]
      exact pyWordsAux_ws_tail y (x :: acc) tw h

theorem pyWordsAux_ws_head : ∀ (lw : Str), (∀ ch ∈ lw, isPySpace ch) → ∀ (y : Str),
    pyWordsAux (lw ++ y) [] = pyWordsAux y []
  | [], _, y => rfl
  | c :: lw, h, y => by
    rw [List.cons_append, pyWordsAux, if_pos (h c (by simp)), if_pos (by simp)]
    exact pyWordsAux_ws_head lw (fun ch hch => h ch (by simp [hch])) y

theorem pyWords_strip (x : Str) : pyWords (pyStrip x) = pyWords x := by
  obtain ⟨lw, tw, hdec, hlw, htw⟩ := pyStrip_decomp x
  conv_rhs => rw [hdec]
  rw [pyWords, pyWords]
  rw [pyWordsAux_ws_tail (lw ++ pyStrip x) [] tw htw]
  rw [pyWordsAux_ws_head lw hlw (pyStrip x)]

theorem normalize_leaf_pair_words (d s : Str) :
    normalize_leaf_pair d s = lowerStr (joinWords (pyWords d ++ pyWords s)) := by
  rw [normalize_leaf_pair, pyStrip_collapseWs]
  rw [show pyWords (pyStrip d ++ '\n' :: pyStrip s) =
      pyWordsAux (pyStrip d ++ '\n' :: pyStrip s) [] from rfl]
  rw [pyWordsAux_sep '\n' (by decide) (pyStrip s) (pyStrip d) []]
  rw [show pyWordsAux (pyStrip d) [] = pyWords (pyStrip d) from rfl]
  rw [show pyWordsAux (pyStrip s) [] = pyWords (pyStrip s) from rfl]
  rw [pyWords_strip, pyWords_strip]

/-- Claim C10: normalize_leaf_pair joins the two fields with a newline and
collapses every whitespace run, erasing the field boundary: any two pairs
carrying the same word sequence produce the same dedup key — in particular
("a b", "c") and ("a", "b c") — and merging both appends a single block. -/
theorem claim_C10 :
    (∀ d1 s1 d2 s2 : Str, pyWords d1 ++ pyWords s1 = pyWords d2 ++ pyWords s2 →
      normalize_leaf_pair d1 s1 = normalize_leaf_pair d2 s2) ∧
    (normalize_leaf_pair (str "a b") (str "c") = normalize_leaf_pair (str "a") (str "b c")) ∧
    (append_missing_leaf_blocks [str "## Description and source"]
        [(str "a b", str "c"), (str "a", str "b c")] =
      [str "## Description and source", str "- **Description:** a b", str "  **Source:** c"]) := by
  refine ⟨?_, by decide, by decide⟩
  intro d1 s1 d2 s2 h
  rw [normalize_leaf_pair_words, normalize_leaf_pair_words, h]

/-- Claim C10 witness at a concrete word-split. -/
theorem claim_C10_witness :
    normalize_leaf_pair (str "x y") (str "z") = normalize_leaf_pair (str "x") (str "y z") :=
  claim_C10.1 (str "x y") (str "z") (str "x") (str "y z") (by decide)

/-!  ## Serialization: join, rstrip, splitlines -/

theorem pyJoin_append_singleton (L : Lines) (x : Str) :
    pyJoin (L ++ [x]) = if L = [] then x else pyJoin L ++ '\n' :: x := by
  induction L with
  | nil => simp [pyJoin]
  | cons l L ih =>
    cases L with
    | nil => simp [pyJoin]
    | cons l2 L2 =>
      have h1 : pyJoin ((l :: l2 :: L2) ++ [x]) = l ++ '\n' :: pyJoin ((l2 :: L2) ++ [x]) := rfl
      rw [h1, ih]
      rw [if_neg (by simp), if_neg (by simp)]
      have h2 : pyJoin (l :: l2 :: L2) = l ++ '\n' :: pyJoin (l2 :: L2) := rfl
      rw [h2]
      simp

theorem isWsLine_iff_rstrip_nil (l : Str) : isWsLine l ↔ pyRstrip l = [] := by
  simp [isWsLine, pyRstrip_eq_nil_iff, List.all_eq_true]

theorem breakFree_rstrip (l : Str) (h : breakFree l) : breakFree (pyRstrip l) := by
  rw [breakFree, List.all_eq_true] at h ⊢
  intro c hc
  have hpre := List.rdropWhile_prefix isPySpace l
  rw [← pyRstrip_eq_rdropWhile] at hpre
  exact h c (hpre.subset hc)

theorem pyRstrip_append_of_ne (A x : Str) (hx : pyRstrip x ≠ []) :
    pyRstrip (A ++ x) = A ++ pyRstrip x := by
  obtain ⟨w, hxdec, hw⟩ := pyRstrip_spec x
  conv_lhs => rw [hxdec]
  rw [← List.append_assoc, pyRstrip_append_ws _ w hw]
  rcases List.eq_nil_or_concat (pyRstrip x) with hnil | ⟨ini, c, hic⟩
  · exact absurd hnil hx
  have hc : ¬ isPySpace c := by
    have h5 := pyRstrip_last_not_ws x hx
    have h6 : (pyRstrip x).getLast hx = c := by
      simp [List.getLast_congr _ _ hic, List.concat_eq_append, List.getLast_append]
    rw [h6] at h5
    exact h5
  rw [hic, List.concat_eq_append, ← List.append_assoc]
  exact pyRstrip_concat_not_ws _ c hc

/-- The join of a line list, right-stripped: whitespace-only lines fall
off the end and the last surviving line is right-stripped. -/
theorem pyRstrip_pyJoin (L : Lines) :
    pyRstrip (pyJoin L) =
      (match ((L.reverse.dropWhile isWsLine).reverse).getLast? with
       | none => []
       | some last => pyJoin (((L.reverse.dropWhile isWsLine).reverse).dropLast ++ [pyRstrip last])) := by
  induction L using List.reverseRecOn with
  | nil => rfl
  | append_singleton L x ih =>
    rw [pyJoin_append_singleton]
    by_cases hx : isWsLine x
    · have hdrop : ((L ++ [x]).reverse.dropWhile isWsLine).reverse = (L.reverse.dropWhile isWsLine).reverse := by
        rw [List.reverse_append, List.reverse_singleton, List.singleton_append,
          List.dropWhile_cons, if_pos hx]
      rw [hdrop, ← ih]
      by_cases hL : L = []
      · subst hL
        rw [if_pos rfl]
        rw [show pyJoin ([] : Lines) = [] from rfl]
        rw [show pyRstrip ([] : Str) = [] from rfl]
        exact (isWsLine_iff_rstrip_nil x).1 hx
      · rw [if_neg hL]
        have hws : ∀ c ∈ '\n' :: x, isPySpace c := by
          intro c hc
          rcases List.mem_cons.1 hc with rfl | hc
          · decide
          · rw [isWsLine, List.all_eq_true] at hx
            exact hx c hc
        exact pyRstrip_append_ws _ _ hws
    · have hdrop : ((L ++ [x]).reverse.dropWhile isWsLine).reverse = L ++ [x] := by
        rw [List.reverse_append, List.reverse_singleton, List.singleton_append,
          List.dropWhile_cons, if_neg hx]
        simp
      rw [hdrop]
      have hxr : pyRstrip x ≠ [] := fun hh => hx ((isWsLine_iff_rstrip_nil x).2 hh)
      rw [List.getLast?_concat]
      simp only [List.dropLast_concat]
      by_cases hL : L = []
      · subst hL
        rw [if_pos rfl]
        rfl
      · rw [if_neg hL]
        rw [show pyJoin L ++ '\n' :: x = (pyJoin L ++ ['\n']) ++ x by simp]
        rw [pyRstrip_append_of_ne _ x hxr]
        rw [pyJoin_append_singleton, if_neg hL]
        simp

theorem pySplitlinesAux_newline (r acc : Str) :
    pySplitlinesAux ('\n' :: r) acc false = acc.reverse :: pySplitlinesAux r [] false := rfl

theorem pySplitlinesAux_nonbreak (c : Char) (hc : ¬ isPyBreak c) (r acc : Str) :
    pySplitlinesAux (c :: r) acc false = pySplitlinesAux r (c :: acc) false := by
  rw [pySplitlinesAux]
  rw [if_neg (by simp), if_neg hc]

theorem pySplitlinesAux_break_append (l : Str) (hl : breakFree l) (r acc : Str) :
    pySplitlinesAux (l ++ '\n' :: r) acc false = (acc.reverse ++ l) :: pySplitlinesAux r [] false := by
  induction l generalizing acc with
  | nil => simp [pySplitlinesAux_newline]
  | cons c l ih =>
    rw [breakFree, List.all_cons] at hl
    have hc : ¬ isPyBreak c := by
      simp only [Bool.and_eq_true, Bool.not_eq_true'] at hl
      simp [hl.1]
    have hl' : breakFree l := by
      simp only [Bool.and_eq_true] at hl
      exact hl.2
    rw [List.cons_append, pySplitlinesAux_nonbreak c hc, ih hl']
    simp

theorem pySplitlines_pyJoin (L : Lines) (hne : L ≠ []) (hbf : ∀ l ∈ L, breakFree l) :
    pySplitlines (pyJoin L ++ ['\n']) = L := by
  induction L with
  | nil => exact absurd rfl hne
  | cons x L ih =>
    cases L with
    | nil =>
      rw [show pyJoin [x] = x from rfl, pySplitlines,
        show x ++ ['\n'] = x ++ '\n' :: [] from rfl,
        pySplitlinesAux_break_append x (hbf x (by simp)) [] []]
      simp [pySplitlinesAux]
    | cons y L2 =>
      rw [show pyJoin (x :: y :: L2) = x ++ '\n' :: pyJoin (y :: L2) from rfl, pySplitlines]
      rw [show (x ++ '\n' :: pyJoin (y :: L2)) ++ ['\n'] = x ++ '\n' :: (pyJoin (y :: L2) ++ ['\n']) by simp]
      rw [pySplitlinesAux_break_append x (hbf x (by simp)) _ []]
      have ih2 := ih (by simp) (fun l hl => hbf l (List.mem_cons_of_mem _ hl))
      rw [pySplitlines] at ih2
      rw [ih2]
      simp

/-- Break-free lines survive serialization as `endTrimLines`: joining with
newlines, right-stripping and re-splitting keeps every line except that
trailing whitespace-only lines vanish and the last surviving line is
right-stripped. -/
theorem serialize_splitlines (L : Lines) (hbf : ∀ l ∈ L, breakFree l) :
    pySplitlines (pyRstrip (pyJoin L) ++ ['\n']) = endTrimLines L := by
  rw [pyRstrip_pyJoin, endTrimLines]
  have hmem : ∀ l ∈ (L.reverse.dropWhile isWsLine).reverse, breakFree l := by
    intro l hl
    apply hbf
    have := (List.dropWhile_sublist isWsLine (l := L.reverse)).subset (List.mem_reverse.1 hl)
    exact List.mem_reverse.1 this
  cases hML : ((L.reverse.dropWhile isWsLine).reverse).getLast? with
  | none => rfl
  | some last =>
    rw [pySplitlines_pyJoin]
    · simp
    · intro l hl
      rcases List.mem_append.1 hl with hl | hl
      · exact hmem l ((List.dropLast_sublist _).subset hl)
      · rw [List.mem_singleton.1 hl]
        exact breakFree_rstrip last (hmem last (List.mem_of_getLast?_eq_some hML))

/-!  ## Scaffold facts (claim C9 support) -/

theorem title_line_not_heading (title h : Str) :
    pyStrip ('#' :: ' ' :: title) ≠ hline h := by
  intro heq
  rw [pyStrip, pyRstrip_cons] at heq
  by_cases hr : pyRstrip (' ' :: title) = []
  · rw [if_pos hr] at heq
    rw [show pyRstrip ['#'] = ['#'] from by decide] at heq
    rw [pyLstrip_cons_not_ws '#' [] (by decide)] at heq
    rw [show hline h = '#' :: '#' :: ' ' :: h from rfl] at heq
    simp at heq
  · rw [if_neg hr] at heq
    rw [pyLstrip_cons_not_ws '#' _ (by decide)] at heq
    rw [show hline h = '#' :: '#' :: ' ' :: h from rfl] at heq
    have h2 : pyRstrip (' ' :: title) = '#' :: ' ' :: h := List.tail_eq_of_cons_eq heq
    rw [pyRstrip_cons ' ' title] at h2
    by_cases ht : pyRstrip title = []
    · rw [if_pos ht] at h2
      rw [show pyRstrip [' '] = ([] : Str) from by decide] at h2
      exact absurd h2 (by simp)
    · rw [if_neg ht] at h2
      have := List.head_eq_of_cons_eq h2
      exact absurd this (by decide)

theorem scaffold_merge_parents (title : Str) :
    merge_note_lines (create_new_note_lines title) [str "Animal"] [] [] =
      [str "# " ++ title, [], str "## Parents", [], str "- [[Animal]]",
       str "## Children", [], str "## Description and source", []] := by
  rw [merge_note_lines]
  simp only [List.isEmpty_cons, List.isEmpty_nil, Bool.false_eq_true, if_false, if_true]
  rw [show create_new_note_lines title =
    [str "# " ++ title, []] ++ (str "## Parents") :: [([] : Str)] ++
      [str "## Children", [], str "## Description and source", []] from rfl]
  rw [aml_found _ _ _ _ _ _
    (by
      intro y hy
      rcases List.mem_cons.1 hy with rfl | hy
      · exact title_line_not_heading title _
      · rw [List.mem_singleton.1 hy]
        decide)
    (by decide)
    (by decide)
    (Or.inr ⟨str "## Children", _, rfl, by decide⟩)]
  rw [show addedLinks [str "Animal"] ((str "## Parents") :: [([] : Str)]) =
    [str "- [[Animal]]"] from by decide]
  rfl

theorem c9_out_lines (title : Str) (hbf : breakFree title) :
    pySplitlines (update_note_file_append_only none title [str "Animal"] [] []) =
      [str "# " ++ title, [], str "## Parents", [], str "- [[Animal]]",
       str "## Children", [], str "## Description and source"] := by
  rw [update_note_file_append_only]
  simp only [load_note_lines]
  rw [scaffold_merge_parents]
  rw [serialize_splitlines _ (by
    intro l hl
    simp only [List.mem_cons, List.not_mem_nil, or_false] at hl
    rcases hl with rfl | rfl | rfl | rfl | rfl | rfl | rfl | rfl | rfl
    · rw [show str "# " ++ title = '#' :: ' ' :: title from rfl, breakFree, List.all_cons, List.all_cons]
      rw [breakFree] at hbf
      rw [hbf]
      decide
    all_goals decide)]
  rfl

/-- C9: an absent existing text, or one that splits into zero lines, makes
the merger start from the fixed four-section template; and merging an
absent note with add_parents = {"Animal"} and nothing else yields a
"## Parents" body whose only non-blank line is "- [[Animal]]" while the
"## Children" and "## Description and source" bodies have no non-blank
line. -/
theorem claim_C9 (title : Str) (hbf : breakFree title) :
    (load_note_lines none title = create_new_note_lines title ∧
     ∀ raw, pySplitlines raw = [] →
       load_note_lines (some raw) title = create_new_note_lines title) ∧
    ((∃ b, sectionBody (pySplitlines (update_note_file_append_only none title
          [str "Animal"] [] [])) (str "Parents") = some b ∧
        nonBlankLines b = [str "- [[Animal]]"]) ∧
     (∃ b, sectionBody (pySplitlines (update_note_file_append_only none title
          [str "Animal"] [] [])) (str "Children") = some b ∧
        nonBlankLines b = []) ∧
     (∃ b, sectionBody (pySplitlines (update_note_file_append_only none title
          [str "Animal"] [] [])) (str "Description and source") = some b ∧
        nonBlankLines b = [])) := by
  refine ⟨⟨rfl, ?_⟩, ?_, ?_, ?_⟩
  · intro raw hraw
    rw [load_note_lines, hraw]
    rfl
  · rw [c9_out_lines title hbf]
    have hfsr : find_section_range
        [str "# " ++ title, [], str "## Parents", [], str "- [[Animal]]",
         str "## Children", [], str "## Description and source"] (str "Parents") =
        some (2, 5) := by
      rw [show ([str "# " ++ title, [], str "## Parents", [], str "- [[Animal]]",
          str "## Children", [], str "## Description and source"] : Lines) =
        [str "# " ++ title, []] ++ (str "## Parents") :: [([] : Str), str "- [[Animal]]"] ++
          (str "## Children") :: [[], str "## Description and source"] from rfl]
      rw [fsr_intro_term _ _ _ _ _ _
        (by
          intro y hy
          rcases List.mem_cons.1 hy with rfl | hy
          · exact title_line_not_heading title _
          · rw [List.mem_singleton.1 hy]
            decide)
        (by decide) (by decide) (by decide)]
      rfl
    refine ⟨[([] : Str), str "- [[Animal]]"], ?_, by decide⟩
    rw [sectionBody, hfsr]
    rfl
  · rw [c9_out_lines title hbf]
    have hfsr : find_section_range
        [str "# " ++ title, [], str "## Parents", [], str "- [[Animal]]",
         str "## Children", [], str "## Description and source"] (str "Children") =
        some (5, 7) := by
      rw [show ([str "# " ++ title, [], str "## Parents", [], str "- [[Animal]]",
          str "## Children", [], str "## Description and source"] : Lines) =
        [str "# " ++ title, [], str "## Parents", [], str "- [[Animal]]"] ++
          (str "## Children") :: [([] : Str)] ++
          (str "## Description and source") :: [] from rfl]
      rw [fsr_intro_term _ _ _ _ _ _
        (by
          intro y hy
          rcases List.mem_cons.1 hy with rfl | hy
          · exact title_line_not_heading title _
          · fin_cases hy <;> decide)
        (by decide) (by decide) (by decide)]
      rfl
    refine ⟨[([] : Str)], ?_, by decide⟩
    rw [sectionBody, hfsr]
    rfl
  · rw [c9_out_lines title hbf]
    have hfsr : find_section_range
        [str "# " ++ title, [], str "## Parents", [], str "- [[Animal]]",
         str "## Children", [], str "## Description and source"]
        (str "Description and source") = some (7, 8) := by
      rw [show ([str "# " ++ title, [], str "## Parents", [], str "- [[Animal]]",
          str "## Children", [], str "## Description and source"] : Lines) =
        [str "# " ++ title, [], str "## Parents", [], str "- [[Animal]]",
          str "## Children", []] ++ (str "## Description and source") :: [] from rfl]
      rw [fsr_intro_noterm _ _ _ _
        (by
          intro y hy
          rcases List.mem_cons.1 hy with rfl | hy
          · exact title_line_not_heading title _
          · fin_cases hy <;> decide)
        (by decide) (by decide)]
      rfl
    refine ⟨[], ?_, by decide⟩
    rw [sectionBody, hfsr]
    rfl

theorem claim_C9_witness :
    breakFree (str "Animal") = true ∧
    load_note_lines none (str "Animal") = create_new_note_lines (str "Animal") :=
  ⟨by decide, (claim_C9 (str "Animal") (by decide)).1.1⟩

/-!  ## Preservation: merge only inserts lines -/

theorem sublist_insertIdx (l : Lines) (x : Str) : ∀ p, l.Sublist (l.insertIdx p x) := by
  induction l with
  | nil =>
    intro p
    cases p with
    | zero => simp [List.insertIdx]
    | succ q => simp [List.insertIdx]
  | cons y ys ih =>
    intro p
    cases p with
    | zero =>
      rw [List.insertIdx_zero]
      exact List.sublist_cons_self _ _
    | succ q =>
      rw [List.insertIdx_succ_cons]
      exact (ih q).cons₂ y

theorem sublist_insertAllAt (items : Lines) : ∀ (l : Lines) (p : Nat),
    l.Sublist (insertAllAt l p items) := by
  induction items with
  | nil =>
    intro l p
    rw [insertAllAt]
  | cons it rest ih =>
    intro l p
    rw [insertAllAt]
    exact (sublist_insertIdx l it p).trans (ih _ _)

theorem aml_sublist (lines : Lines) (header : Str) (links : List Str) :
    lines.Sublist (append_missing_links lines header links) := by
  rw [append_missing_links]
  cases hf : find_section_range lines header with
  | some se =>
    rw [ensure_section_found _ _ se.1 se.2 (by rw [hf])]
    simp only []
    by_cases hA : ((pySortLower (pydedup links)).filter
        (fun x => ¬ x ∈ extract_existing_wikilinks lines se.1 se.2)).isEmpty
    · rw [if_pos hA]
    · rw [if_neg hA]
      exact sublist_insertAllAt _ _ _
  | none =>
    rw [ensure_section_missing _ _ hf]
    simp only []
    have hbase : lines.Sublist (lines ++ ensureSep lines ++ [hline header, ([] : Str)]) := by
      rw [List.append_assoc]
      exact List.sublist_append_left _ _
    by_cases hA : ((pySortLower (pydedup links)).filter
        (fun x => ¬ x ∈ extract_existing_wikilinks
          (lines ++ ensureSep lines ++ [hline header, ([] : Str)])
          (lines ++ ensureSep lines).length ((lines ++ ensureSep lines).length + 2))).isEmpty
    · rw [if_pos hA]
      exact hbase
    · rw [if_neg hA]
      exact hbase.trans (sublist_insertAllAt _ _ _)

theorem amlb_sublist (lines : Lines) (pairs : List (Str × Str)) :
    lines.Sublist (append_missing_leaf_blocks lines pairs) := by
  rw [append_missing_leaf_blocks]
  cases hf : find_section_range lines (str "Description and source") with
  | some se =>
    rw [ensure_section_found _ _ se.1 se.2 (by rw [hf])]
    simp only []
    by_cases hA : (collectLeafBlocks pairs (extract_existing_leaf_pairs lines se.1 se.2)).isEmpty
    · rw [if_pos hA]
    · rw [if_neg hA]
      exact sublist_insertAllAt _ _ _
  | none =>
    rw [ensure_section_missing _ _ hf]
    simp only []
    have hbase : lines.Sublist (lines ++ ensureSep lines ++
        [hline (str "Description and source"), ([] : Str)]) := by
      rw [List.append_assoc]
      exact List.sublist_append_left _ _
    by_cases hA : (collectLeafBlocks pairs (extract_existing_leaf_pairs
        (lines ++ ensureSep lines ++ [hline (str "Description and source"), ([] : Str)])
        (lines ++ ensureSep lines).length ((lines ++ ensureSep lines).length + 2))).isEmpty
    · rw [if_pos hA]
      exact hbase
    · rw [if_neg hA]
      exact hbase.trans (sublist_insertAllAt _ _ _)

theorem merge_sublist (lines : Lines) (ps cs : List Str) (prs : List (Str × Str)) :
    lines.Sublist (merge_note_lines lines ps cs prs) := by
  rw [merge_note_lines]
  have h1 : lines.Sublist (if ps.isEmpty then lines
      else append_missing_links lines (str "Parents") ps) := by
    by_cases hp : ps.isEmpty
    · rw [if_pos hp]
    · rw [if_neg hp]
      exact aml_sublist _ _ _
  have h2 : lines.Sublist (if cs.isEmpty then
        (if ps.isEmpty then lines else append_missing_links lines (str "Parents") ps)
      else append_missing_links
        (if ps.isEmpty then lines else append_missing_links lines (str "Parents") ps)
        (str "Children") cs) := by
    by_cases hc : cs.isEmpty
    · rw [if_pos hc]
      exact h1
    · rw [if_neg hc]
      exact h1.trans (aml_sublist _ _ _)
  by_cases hl : prs.isEmpty
  · rw [if_pos hl]
    exact h2
  · rw [if_neg hl]
    exact h2.trans (amlb_sublist _ _)

/-!  ## Break-free propagation through the merge -/

theorem breakFree_append (a b : Str) :
    breakFree (a ++ b) = (breakFree a && breakFree b) := by
  simp [breakFree, List.all_append]

theorem pySplitlinesAux_breakFree (s : Str) : ∀ (acc : Str) (flag : Bool),
    (∀ c ∈ acc, ¬ isPyBreak c) → ∀ l ∈ pySplitlinesAux s acc flag, breakFree l := by
  induction s with
  | nil =>
    intro acc flag hacc l hl
    rw [pySplitlinesAux] at hl
    by_cases he : acc.isEmpty
    · rw [if_pos he] at hl
      exact absurd hl (List.not_mem_nil l)
    · rw [if_neg he] at hl
      rw [List.mem_singleton.1 hl, breakFree, List.all_eq_true]
      intro c hc
      simpa using hacc c (List.mem_reverse.1 hc)
  | cons c rest ih =>
    intro acc flag hacc l hl
    rw [pySplitlinesAux] at hl
    by_cases h1 : (c == '\n' && flag) = true
    · rw [if_pos h1] at hl
      exact ih acc false hacc l hl
    · rw [if_neg h1] at hl
      by_cases h2 : isPyBreak c
      · rw [if_pos h2] at hl
        rcases List.mem_cons.1 hl with rfl | hl
        · rw [breakFree, List.all_eq_true]
          intro d hd
          simpa using hacc d (List.mem_reverse.1 hd)
        · exact ih [] _ (by simp) l hl
      · rw [if_neg h2] at hl
        refine ih (c :: acc) false ?_ l hl
        intro d hd
        rcases List.mem_cons.1 hd with rfl | hd
        · exact h2
        · exact hacc d hd

theorem pySplitlines_breakFree (s : Str) : ∀ l ∈ pySplitlines s, breakFree l :=
  pySplitlinesAux_breakFree s [] false (by simp)

theorem pydedupAux_subset (l : List Str) : ∀ seen, ∀ x ∈ pydedupAux l seen, x ∈ l := by
  induction l with
  | nil =>
    intro seen x hx
    rw [pydedupAux] at hx
    exact absurd hx (List.not_mem_nil x)
  | cons y ys ih =>
    intro seen x hx
    rw [pydedupAux] at hx
    by_cases hy : y ∈ seen
    · rw [if_pos hy] at hx
      exact List.mem_cons_of_mem _ (ih _ x hx)
    · rw [if_neg hy] at hx
      rcases List.mem_cons.1 hx with rfl | hx
      · exact List.mem_cons_self _ _
      · exact List.mem_cons_of_mem _ (ih _ x hx)

theorem pydedup_subset (l : List Str) : ∀ x ∈ pydedup l, x ∈ l :=
  pydedupAux_subset l []

theorem linkLine_breakFree (t : Str) (ht : breakFree t) : breakFree (linkLine t) := by
  rw [linkLine, breakFree_append, breakFree_append, ht]
  decide

theorem addedLinks_breakFree (links : List Str) (sec : Lines)
    (hl : ∀ t ∈ links, breakFree t) : ∀ l ∈ addedLinks links sec, breakFree l := by
  intro l hml
  obtain ⟨ts, heq, -, hmem⟩ := addedLinks_decomp links sec
  rw [heq] at hml
  obtain ⟨t, ht, rfl⟩ := List.mem_map.1 hml
  exact linkLine_breakFree t (hl t (pydedup_subset links t ((hmem t).1 ht).1))

theorem addedLeafBlocks_breakFree (pairs : List (Str × Str)) (sec : Lines)
    (hp : ∀ p ∈ pairs, breakFree p.1 ∧ breakFree p.2) :
    ∀ l ∈ addedLeafBlocks pairs sec, breakFree l := by
  intro l hml
  rw [addedLeafBlocks] at hml
  obtain ⟨kept, hsub, heq, -, -⟩ := collectLeafBlocks_spec pairs (leafKeysOf sec)
  rw [heq] at hml
  obtain ⟨blk, hblk, hlblk⟩ := List.mem_flatten.1 hml
  obtain ⟨pr, hpr, rfl⟩ := List.mem_map.1 hblk
  have hpr2 := hp pr (hsub.subset hpr)
  rcases List.mem_cons.1 hlblk with rfl | h2
  · exact breakFree_rstrip _ (by rw [breakFree_append, hpr2.1]; decide)
  · rw [List.mem_singleton.1 h2]
    exact breakFree_rstrip _ (by rw [breakFree_append, hpr2.2]; decide)

theorem aml_breakFree (lines : Lines) (header : Str) (links : List Str)
    (hbh : breakFree (hline header))
    (hlines : ∀ l ∈ lines, breakFree l) (hlinks : ∀ t ∈ links, breakFree t) :
    ∀ l ∈ append_missing_links lines header links, breakFree l := by
  intro l hml
  cases hf : find_section_range lines header with
  | some se =>
    obtain ⟨pre, hd, mid, rest2, hdec, -, -, hpre, hhd, hmid, hrest⟩ :=
      fsr_elim lines header se.1 se.2 (by rw [hf])
    rw [hdec, aml_found pre hd mid rest2 header links hpre hhd hmid hrest] at hml
    rcases List.mem_append.1 hml with h | h
    · rcases List.mem_append.1 h with h2 | h2
      · exact hlines l (by rw [hdec]; simp [h2])
      · rcases List.mem_cons.1 h2 with rfl | h3
        · exact hlines l (by rw [hdec]; simp)
        · rcases List.mem_append.1 h3 with h4 | h4
          · exact hlines l (by rw [hdec]; simp [h4])
          · exact addedLinks_breakFree links (hd :: mid) hlinks l h4
    · exact hlines l (by rw [hdec]; simp [h])
  | none =>
    rw [aml_missing lines header links hf] at hml
    have hsep : ∀ y ∈ ensureSep lines, y = ([] : Str) := by
      intro y hy
      rw [ensureSep] at hy
      cases hl2 : lines.getLast? with
      | none =>
        rw [hl2] at hy
        exact absurd hy (List.not_mem_nil y)
      | some last =>
        rw [hl2] at hy
        simp only [] at hy
        by_cases hst : pyStrip last ≠ []
        · rw [if_pos hst] at hy
          exact List.mem_singleton.1 hy
        · rw [if_neg hst] at hy
          exact absurd hy (List.not_mem_nil y)
    rcases List.mem_append.1 hml with h | h
    · rcases List.mem_append.1 h with h2 | h2
      · rcases List.mem_append.1 h2 with h3 | h3
        · exact hlines l h3
        · rw [hsep l h3]
          decide
      · rcases List.mem_cons.1 h2 with rfl | h3
        · exact hbh
        · rw [List.mem_singleton.1 h3]
          decide
    · exact addedLinks_breakFree links _ hlinks l h

theorem amlb_breakFree (lines : Lines) (pairs : List (Str × Str))
    (hlines : ∀ l ∈ lines, breakFree l)
    (hpairs : ∀ p ∈ pairs, breakFree p.1 ∧ breakFree p.2) :
    ∀ l ∈ append_missing_leaf_blocks lines pairs, breakFree l := by
  intro l hml
  cases hf : find_section_range lines (str "Description and source") with
  | some se =>
    obtain ⟨pre, hd, mid, rest2, hdec, -, -, hpre, hhd, hmid, hrest⟩ :=
      fsr_elim lines (str "Description and source") se.1 se.2 (by rw [hf])
    rw [hdec, amlb_found pre hd mid rest2 pairs hpre hhd hmid hrest] at hml
    rcases List.mem_append.1 hml with h | h
    · rcases List.mem_append.1 h with h2 | h2
      · exact hlines l (by rw [hdec]; simp [h2])
      · rcases List.mem_cons.1 h2 with rfl | h3
        · exact hlines l (by rw [hdec]; simp)
        · rcases List.mem_append.1 h3 with h4 | h4
          · exact hlines l (by rw [hdec]; simp [h4])
          · exact addedLeafBlocks_breakFree pairs (hd :: mid) hpairs l h4
    · exact hlines l (by rw [hdec]; simp [h])
  | none =>
    rw [amlb_missing lines pairs hf] at hml
    have hsep : ∀ y ∈ ensureSep lines, y = ([] : Str) := by
      intro y hy
      rw [ensureSep] at hy
      cases hl2 : lines.getLast? with
      | none =>
        rw [hl2] at hy
        exact absurd hy (List.not_mem_nil y)
      | some last =>
        rw [hl2] at hy
        simp only [] at hy
        by_cases hst : pyStrip last ≠ []
        · rw [if_pos hst] at hy
          exact List.mem_singleton.1 hy
        · rw [if_neg hst] at hy
          exact absurd hy (List.not_mem_nil y)
    rcases List.mem_append.1 hml with h | h
    · rcases List.mem_append.1 h with h2 | h2
      · rcases List.mem_append.1 h2 with h3 | h3
        · exact hlines l h3
        · rw [hsep l h3]
          decide
      · rcases List.mem_cons.1 h2 with rfl | h3
        · decide
        · rw [List.mem_singleton.1 h3]
          decide
    · exact addedLeafBlocks_breakFree pairs _ hpairs l h

theorem merge_breakFree (lines : Lines) (ps cs : List Str) (prs : List (Str × Str))
    (hlines : ∀ l ∈ lines, breakFree l)
    (hps : ∀ t ∈ ps, breakFree t) (hcs : ∀ t ∈ cs, breakFree t)
    (hprs : ∀ p ∈ prs, breakFree p.1 ∧ breakFree p.2) :
    ∀ l ∈ merge_note_lines lines ps cs prs, breakFree l := by
  rw [merge_note_lines]
  have h1 : ∀ l ∈ (if ps.isEmpty then lines
      else append_missing_links lines (str "Parents") ps), breakFree l := by
    by_cases hp : ps.isEmpty
    · rw [if_pos hp]
      exact hlines
    · rw [if_neg hp]
      exact aml_breakFree lines _ ps (by decide) hlines hps
  have h2 : ∀ l ∈ (if cs.isEmpty then
        (if ps.isEmpty then lines else append_missing_links lines (str "Parents") ps)
      else append_missing_links
        (if ps.isEmpty then lines else append_missing_links lines (str "Parents") ps)
        (str "Children") cs), breakFree l := by
    by_cases hc : cs.isEmpty
    · rw [if_pos hc]
      exact h1
    · rw [if_neg hc]
      exact aml_breakFree _ _ cs (by decide) h1 hcs
  by_cases hl : prs.isEmpty
  · rw [if_pos hl]
    exact h2
  · rw [if_neg hl]
    exact amlb_breakFree _ prs h2 hprs

theorem load_breakFree (existing : Option Str) (title : Str) (hbt : breakFree title) :
    ∀ l ∈ load_note_lines existing title, breakFree l := by
  have hscaf : ∀ l ∈ create_new_note_lines title, breakFree l := by
    intro l hl
    rw [create_new_note_lines] at hl
    rcases List.mem_cons.1 hl with rfl | hl
    · rw [show str "# " ++ title = '#' :: ' ' :: title from rfl, breakFree, List.all_cons,
        List.all_cons]
      rw [breakFree] at hbt
      rw [hbt]
      decide
    · fin_cases hl <;> decide
  cases existing with
  | none => exact hscaf
  | some raw =>
    rw [load_note_lines]
    by_cases he : (pySplitlines raw).isEmpty
    · rw [if_pos he]
      exact hscaf
    · rw [if_neg he]
      exact pySplitlines_breakFree raw

/-- Counterexample to claim C2 as stated: the input line "x " (with its
trailing space) does not appear in the output text of a merge that adds
nothing, because serialization right-strips the joined text. -/
theorem claim_C2_counterexample :
    (str "x ") ∈ pySplitlines (str "x \n") ∧
    ¬ (str "x ") ∈ pySplitlines (update_note_file_append_only (some (str "x \n"))
      (str "T") [] [] []) := by
  decide

/-- Claim C2, amended: the merge pass itself only inserts lines — the
input lines stay unmodified, in order, as a sublist of the merged lines —
but the serialized output differs from the merged lines exactly by the
end trimming: trailing whitespace-only lines are dropped and the last
remaining line loses its trailing whitespace. -/
theorem claim_C2 (lines : Lines) (raw title : Str) (ps cs : List Str)
    (prs : List (Str × Str)) (hbt : breakFree title)
    (hps : ∀ t ∈ ps, breakFree t) (hcs : ∀ t ∈ cs, breakFree t)
    (hprs : ∀ p ∈ prs, breakFree p.1 ∧ breakFree p.2) :
    lines.Sublist (merge_note_lines lines ps cs prs) ∧
    pySplitlines (update_note_file_append_only (some raw) title ps cs prs) =
      endTrimLines (merge_note_lines (load_note_lines (some raw) title) ps cs prs) := by
  refine ⟨merge_sublist lines ps cs prs, ?_⟩
  rw [update_note_file_append_only]
  exact serialize_splitlines _
    (merge_breakFree _ ps cs prs (load_breakFree (some raw) title hbt) hps hcs hprs)

/-- Claim C2 witness at a concrete document and request. -/
theorem claim_C2_witness :
    [str "a"].Sublist (merge_note_lines [str "a"] [str "B"] [] []) ∧
    pySplitlines (update_note_file_append_only (some (str "x \n")) (str "T")
        [str "B"] [] []) =
      endTrimLines (merge_note_lines (load_note_lines (some (str "x \n")) (str "T"))
        [str "B"] [] []) :=
  ⟨(claim_C2 [str "a"] (str "x \n") (str "T") [str "B"] [] [] (by decide)
      (by decide) (by decide) (by decide)).1,
   (claim_C2 [] (str "x \n") (str "T") [str "B"] [] [] (by decide)
      (by decide) (by decide) (by decide)).2⟩

/-!  ## Link lines are inert for the section scans (claim C4 support) -/

theorem linkLine_cons (t : Str) : linkLine t = '-' :: (str " [[" ++ t ++ str "]]") := rfl

theorem linkLine_rstrip (t : Str) : pyRstrip (linkLine t) = linkLine t := by
  rw [show linkLine t = ((str "- [[" ++ t) ++ [']']) ++ [']'] by
    simp [linkLine, str, List.append_assoc]]
  rw [pyRstrip_concat_not_ws _ _ (by decide)]

theorem linkLine_strip (t : Str) : pyStrip (linkLine t) = linkLine t := by
  rw [pyStrip, linkLine_rstrip, linkLine_cons]
  exact pyLstrip_cons_not_ws _ _ (by decide)

theorem linkLine_not_heading (t h : Str) : pyStrip (linkLine t) ≠ hline h := by
  rw [linkLine_strip]
  intro he
  have h2 := congrArg List.head? he
  rw [linkLine_cons, show hline h = '#' :: '#' :: ' ' :: h from rfl] at h2
  simp at h2

theorem linkLine_not_isHH (t : Str) : ¬ isHH (linkLine t) := by
  rw [isHH, linkLine_cons]
  simp [str, List.isPrefixOf]

theorem addedLinks_nil (sec : Lines) : addedLinks [] sec = [] := rfl

theorem addedTitles_subset (links : List Str) (sec : Lines) :
    ∀ t ∈ addedTitles links sec, t ∈ links := by
  intro t ht
  rw [addedTitles] at ht
  exact pydedup_subset links t
    ((pySortLower_perm _).mem_iff.1 (List.mem_of_mem_filter ht))

theorem mem_addedLinks_mem (t : Str) (links : List Str) (sec : Lines)
    (h : linkLine t ∈ addedLinks links sec) : t ∈ links :=
  pydedup_subset links t ((mem_addedLinks links sec t).1 h).1

theorem addedLinks_form (links : List Str) (sec : Lines) :
    ∀ y ∈ addedLinks links sec, ∃ t, y = linkLine t := by
  intro y hy
  obtain ⟨t, -, rfl⟩ := List.mem_map.1 hy
  exact ⟨t, rfl⟩

/-- The two link passes of a merge on a document holding a well-formed
Parents section followed by a well-formed Children section: each pass
appends its own sorted missing links at its own section end. -/
theorem merge_two_sections (A : Lines) (hdP : Str) (mP : Lines) (hdC : Str)
    (mC rest : Lines) (ps cs : List Str)
    (hA : ∀ y ∈ A, pyStrip y ≠ hline (str "Parents") ∧ pyStrip y ≠ hline (str "Children"))
    (hhdP : pyStrip hdP = hline (str "Parents"))
    (hmP : ∀ y ∈ mP, ¬ isHH y ∧ pyStrip y ≠ hline (str "Children"))
    (hhdC : isHH hdC) (hhdC2 : pyStrip hdC = hline (str "Children"))
    (hmC : ∀ y ∈ mC, ¬ isHH y)
    (hrest : rest = [] ∨ ∃ term post, rest = term :: post ∧ isHH term) :
    merge_note_lines (A ++ hdP :: (mP ++ hdC :: (mC ++ rest))) ps cs [] =
      A ++ hdP :: (mP ++ (addedLinks ps (hdP :: mP) ++
        hdC :: (mC ++ (addedLinks cs (hdC :: mC) ++ rest)))) := by
  have hP : pyStrip hdP ≠ hline (str "Children") := by
    rw [hhdP]
    decide
  rw [merge_note_lines]
  simp only [List.isEmpty_nil, if_true]
  have h1 : (if ps.isEmpty then A ++ hdP :: (mP ++ hdC :: (mC ++ rest))
      else append_missing_links (A ++ hdP :: (mP ++ hdC :: (mC ++ rest))) (str "Parents") ps) =
      A ++ hdP :: (mP ++ (addedLinks ps (hdP :: mP) ++ hdC :: (mC ++ rest))) := by
    by_cases hp : ps.isEmpty
    · rw [if_pos hp, List.isEmpty_iff.1 hp, addedLinks_nil]
      simp
    · rw [if_neg hp]
      rw [show A ++ hdP :: (mP ++ hdC :: (mC ++ rest)) =
        A ++ hdP :: mP ++ ((hdC :: mC) ++ rest) by simp]
      rw [aml_found A hdP mP ((hdC :: mC) ++ rest) (str "Parents") ps
        (fun y hy => (hA y hy).1) hhdP (fun y hy => (hmP y hy).1)
        (Or.inr ⟨hdC, mC ++ rest, by simp, hhdC⟩)]
      simp
  rw [h1]
  have hpre2 : ∀ y ∈ A ++ hdP :: (mP ++ addedLinks ps (hdP :: mP)),
      pyStrip y ≠ hline (str "Children") := by
    intro y hy
    rcases List.mem_append.1 hy with h | h
    · exact (hA y h).2
    · rcases List.mem_cons.1 h with rfl | h2
      · exact hP
      · rcases List.mem_append.1 h2 with h3 | h3
        · exact (hmP y h3).2
        · obtain ⟨t, rfl⟩ := addedLinks_form _ _ y h3
          exact linkLine_not_heading t _
  by_cases hc : cs.isEmpty
  · rw [if_pos hc, List.isEmpty_iff.1 hc, addedLinks_nil]
    simp
  · rw [if_neg hc]
    rw [show A ++ hdP :: (mP ++ (addedLinks ps (hdP :: mP) ++ hdC :: (mC ++ rest))) =
      (A ++ hdP :: (mP ++ addedLinks ps (hdP :: mP))) ++ hdC :: mC ++ rest by simp]
    rw [aml_found (A ++ hdP :: (mP ++ addedLinks ps (hdP :: mP))) hdC mC rest
      (str "Children") cs hpre2 hhdC2 hmC hrest]
    simp

/-- Counterexample to claim C4 as stated: with indented heading lines the
strip-equality heading test and the startswith("## ") terminator test
disagree, so the link added for "Parents" ends up inside the body of the
"Children" section of the result. -/
theorem claim_C4_counterexample :
    linkLine (str "t") ∈ addedLinks [str "t"] [str "  ## Parents"] ∧
    ¬ linkLine (str "t") ∈ [str "  ## Children", str "  ## Parents"] ∧
    merge_note_lines [str "  ## Children", str "  ## Parents"] [str "t"] [] [] =
      [str "  ## Children", str "  ## Parents", str "- [[t]]"] ∧
    sectionBody [str "  ## Children", str "  ## Parents", str "- [[t]]"] (str "Children") =
      some [str "  ## Parents", str "- [[t]]"] ∧
    linkLine (str "t") ∈ [str "  ## Parents", str "- [[t]]"] := by
  decide

/-!  ## Dedup membership and the leaf-pass state -/

/-- The in-memory existing set after the block-collection loop ran over a
pair list. -/
def leafState : List (Str × Str) → List Str → List Str
  | [], existing => existing
  | (d, s) :: rest, existing =>
    let key := normalize_leaf_pair d s
    if key ≠ [] ∧ ¬ key ∈ existing then leafState rest (key :: existing)
    else leafState rest existing

theorem collectLeafBlocks_append (xs ys : List (Str × Str)) : ∀ existing,
    collectLeafBlocks (xs ++ ys) existing =
      collectLeafBlocks xs existing ++ collectLeafBlocks ys (leafState xs existing) := by
  induction xs with
  | nil =>
    intro existing
    rw [List.nil_append, show leafState [] existing = existing from rfl]
    rw [show collectLeafBlocks [] existing = [] from rfl, List.nil_append]
  | cons p rest ih =>
    intro existing
    obtain ⟨d, s⟩ := p
    rw [List.cons_append, collectLeafBlocks, collectLeafBlocks, leafState]
    by_cases hc : normalize_leaf_pair d s ≠ [] ∧ ¬ normalize_leaf_pair d s ∈ existing
    · rw [if_pos hc, if_pos hc, if_pos hc, ih]
      rfl
    · rw [if_neg hc, if_neg hc, if_neg hc, ih]

theorem addedLeafBlocks_nil (sec : Lines) : addedLeafBlocks [] sec = [] := rfl

/-- The full merge on a document holding well-formed Parents, Children and
Description-and-source sections in scaffold order: each pass appends its
additions at its own section end. -/
theorem merge_three_sections (A : Lines) (hdP : Str) (mP : Lines) (hdC : Str) (mC : Lines)
    (hdD : Str) (mD rest : Lines) (ps cs : List Str) (prs : List (Str × Str))
    (hA : ∀ y ∈ A, pyStrip y ≠ hline (str "Parents") ∧ pyStrip y ≠ hline (str "Children") ∧
      pyStrip y ≠ hline (str "Description and source"))
    (hhdP : pyStrip hdP = hline (str "Parents"))
    (hmP : ∀ y ∈ mP, ¬ isHH y ∧ pyStrip y ≠ hline (str "Children") ∧
      pyStrip y ≠ hline (str "Description and source"))
    (hhdC : isHH hdC) (hhdC2 : pyStrip hdC = hline (str "Children"))
    (hmC : ∀ y ∈ mC, ¬ isHH y ∧ pyStrip y ≠ hline (str "Description and source"))
    (hhdD : isHH hdD) (hhdD2 : pyStrip hdD = hline (str "Description and source"))
    (hmD : ∀ y ∈ mD, ¬ isHH y)
    (hrest : rest = [] ∨ ∃ term post, rest = term :: post ∧ isHH term) :
    merge_note_lines (A ++ hdP :: (mP ++ hdC :: (mC ++ hdD :: (mD ++ rest)))) ps cs prs =
      A ++ hdP :: (mP ++ (addedLinks ps (hdP :: mP) ++
        hdC :: (mC ++ (addedLinks cs (hdC :: mC) ++
        hdD :: (mD ++ (addedLeafBlocks prs (hdD :: mD) ++ rest)))))) := by
  have hsplit : merge_note_lines (A ++ hdP :: (mP ++ hdC :: (mC ++ hdD :: (mD ++ rest)))) ps cs prs =
      if prs.isEmpty then
        merge_note_lines (A ++ hdP :: (mP ++ hdC :: (mC ++ hdD :: (mD ++ rest)))) ps cs []
      else append_missing_leaf_blocks
        (merge_note_lines (A ++ hdP :: (mP ++ hdC :: (mC ++ hdD :: (mD ++ rest)))) ps cs []) prs := by
    rw [merge_note_lines, merge_note_lines]
    simp only [List.isEmpty_nil, if_true]
  have hL2 := merge_two_sections A hdP mP hdC mC (hdD :: (mD ++ rest)) ps cs
    (fun y hy => ⟨(hA y hy).1, (hA y hy).2.1⟩) hhdP
    (fun y hy => ⟨(hmP y hy).1, (hmP y hy).2.1⟩) hhdC hhdC2
    (fun y hy => (hmC y hy).1)
    (Or.inr ⟨hdD, mD ++ rest, rfl, hhdD⟩)
  rw [hsplit]
  by_cases hp : prs.isEmpty
  · rw [if_pos hp, List.isEmpty_iff.1 hp, addedLeafBlocks_nil, hL2]
    simp
  · rw [if_neg hp, hL2]
    have hpre3 : ∀ y ∈ A ++ hdP :: (mP ++ (addedLinks ps (hdP :: mP) ++
        hdC :: (mC ++ addedLinks cs (hdC :: mC)))),
        pyStrip y ≠ hline (str "Description and source") := by
      intro y hy
      rcases List.mem_append.1 hy with h | h
      · exact (hA y h).2.2
      · rcases List.mem_cons.1 h with rfl | h2
        · rw [hhdP]
          decide
        · rcases List.mem_append.1 h2 with h3 | h3
          · exact (hmP y h3).2.2
          · rcases List.mem_append.1 h3 with h4 | h4
            · obtain ⟨u, rfl⟩ := addedLinks_form _ _ y h4
              exact linkLine_not_heading u _
            · rcases List.mem_cons.1 h4 with rfl | h5
              · rw [hhdC2]
                decide
              · rcases List.mem_append.1 h5 with h6 | h6
                · exact (hmC y h6).2
                · obtain ⟨u, rfl⟩ := addedLinks_form _ _ y h6
                  exact linkLine_not_heading u _
    rw [show A ++ hdP :: (mP ++ (addedLinks ps (hdP :: mP) ++
        hdC :: (mC ++ (addedLinks cs (hdC :: mC) ++ hdD :: (mD ++ rest))))) =
      (A ++ hdP :: (mP ++ (addedLinks ps (hdP :: mP) ++
        hdC :: (mC ++ addedLinks cs (hdC :: mC))))) ++ hdD :: mD ++ rest by simp]
    rw [amlb_found _ hdD mD rest prs hpre3 hhdD2 hmD hrest]
    simp

/-- Counterexample to claim C3 as stated: the request with the extra pair
("a b", "c") placed first wins the normalized key "a b c", so the block
for ("a", "b c") — present in the smaller request's output — is dropped,
and the larger request's line set is not a superset. -/
theorem claim_C3_counterexample :
    (str "a", str "b c") ∈ [(str "a b", str "c"), (str "a", str "b c")] ∧
    (str "- **Description:** a") ∈ pySplitlines (update_note_file_append_only
      (some (str "## Description and source\n")) (str "T") [] []
      [(str "a", str "b c")]) ∧
    ¬ (str "- **Description:** a") ∈ pySplitlines (update_note_file_append_only
      (some (str "## Description and source\n")) (str "T") [] []
      [(str "a b", str "c"), (str "a", str "b c")]) := by
  decide

/-- Claim C3, amended: on a well-formed scaffold-ordered document,
enlarging the parent and child sets and extending the leaf-pair list at
its end makes the merged line list grow as a set — the normalized-key
collision of reordered or interleaved pairs is what the original claim
missed. -/
theorem claim_C3 (A : Lines) (hdP : Str) (mP : Lines) (hdC : Str) (mC : Lines)
    (hdD : Str) (mD rest : Lines) (ps1 ps2 cs1 cs2 : List Str)
    (prs1 ext : List (Str × Str))
    (hA : ∀ y ∈ A, pyStrip y ≠ hline (str "Parents") ∧ pyStrip y ≠ hline (str "Children") ∧
      pyStrip y ≠ hline (str "Description and source"))
    (hhdP : pyStrip hdP = hline (str "Parents"))
    (hmP : ∀ y ∈ mP, ¬ isHH y ∧ pyStrip y ≠ hline (str "Children") ∧
      pyStrip y ≠ hline (str "Description and source"))
    (hhdC : isHH hdC) (hhdC2 : pyStrip hdC = hline (str "Children"))
    (hmC : ∀ y ∈ mC, ¬ isHH y ∧ pyStrip y ≠ hline (str "Description and source"))
    (hhdD : isHH hdD) (hhdD2 : pyStrip hdD = hline (str "Description and source"))
    (hmD : ∀ y ∈ mD, ¬ isHH y)
    (hrest : rest = [] ∨ ∃ term post, rest = term :: post ∧ isHH term)
    (hps : ∀ t ∈ ps1, t ∈ ps2) (hcs : ∀ t ∈ cs1, t ∈ cs2) :
    ∀ l, l ∈ merge_note_lines (A ++ hdP :: (mP ++ hdC :: (mC ++ hdD :: (mD ++ rest))))
        ps1 cs1 prs1 →
      l ∈ merge_note_lines (A ++ hdP :: (mP ++ hdC :: (mC ++ hdD :: (mD ++ rest))))
        ps2 cs2 (prs1 ++ ext) := by
  have haddP : ∀ l ∈ addedLinks ps1 (hdP :: mP), l ∈ addedLinks ps2 (hdP :: mP) := by
    intro l hl
    obtain ⟨u, rfl⟩ := addedLinks_form _ _ l hl
    obtain ⟨h1, h2⟩ := (mem_addedLinks ps1 _ u).1 hl
    exact (mem_addedLinks ps2 _ u).2
      ⟨(mem_pydedup _ _).2 (hps u ((mem_pydedup _ _).1 h1)), h2⟩
  have haddC : ∀ l ∈ addedLinks cs1 (hdC :: mC), l ∈ addedLinks cs2 (hdC :: mC) := by
    intro l hl
    obtain ⟨u, rfl⟩ := addedLinks_form _ _ l hl
    obtain ⟨h1, h2⟩ := (mem_addedLinks cs1 _ u).1 hl
    exact (mem_addedLinks cs2 _ u).2
      ⟨(mem_pydedup _ _).2 (hcs u ((mem_pydedup _ _).1 h1)), h2⟩
  have haddL : ∀ l ∈ addedLeafBlocks prs1 (hdD :: mD),
      l ∈ addedLeafBlocks (prs1 ++ ext) (hdD :: mD) := by
    intro l hl
    rw [addedLeafBlocks] at hl ⊢
    rw [collectLeafBlocks_append, List.flatten_append]
    exact List.mem_append_left _ hl
  intro l hl
  rw [merge_three_sections A hdP mP hdC mC hdD mD rest ps1 cs1 prs1
    hA hhdP hmP hhdC hhdC2 hmC hhdD hhdD2 hmD hrest] at hl
  rw [merge_three_sections A hdP mP hdC mC hdD mD rest ps2 cs2 (prs1 ++ ext)
    hA hhdP hmP hhdC hhdC2 hmC hhdD hhdD2 hmD hrest]
  simp only [List.mem_append, List.mem_cons] at hl ⊢
  rcases hl with h|h|h|h|h|h|h|h|h|h|h
  · tauto
  · tauto
  · tauto
  · have h2 := haddP l h
    tauto
  · tauto
  · tauto
  · have h2 := haddC l h
    tauto
  · tauto
  · tauto
  · have h2 := haddL l h
    tauto
  · tauto

/-- Claim C3 witness on the scaffold sections with a grown parent set. -/
theorem claim_C3_witness :
    (str "## Parents") ∈ merge_note_lines
      [str "## Parents", str "## Children", str "## Description and source"]
      [str "x"] [] [] :=
  claim_C3 [] (str "## Parents") [] (str "## Children") [] (str "## Description and source")
    [] [] [] [str "x"] [] [] [] [] (by simp) (by decide) (by simp) (by decide) (by decide)
    (by simp) (by decide) (by decide) (by simp) (Or.inl rfl)
    (by simp) (by simp) (str "## Parents") (by decide)

/-!  ## Saturation of the link pass (claim C1 support) -/

theorem wikiTargetsOf_append (X Y : Lines) :
    wikiTargetsOf (X ++ Y) = wikiTargetsOf X ++ wikiTargetsOf Y := by
  rw [wikiTargetsOf, wikiTargetsOf, wikiTargetsOf, List.flatMap_append]

theorem cleanTitle_spec (t : Str) (h : cleanTitle t) :
    t ≠ [] ∧ pyStrip t = t ∧ ¬ ']' ∈ t ∧ ¬ '|' ∈ t := by
  rw [cleanTitle] at h
  simp only [Bool.and_eq_true, Bool.not_eq_true', beq_iff_eq] at h
  refine ⟨fun hn => by simp [hn] at h, h.1.1.1.2, ?_, ?_⟩
  · intro hmem
    have := h.1.2
    rw [List.contains, List.elem_eq_true_of_mem hmem] at this
    exact absurd this (by simp)
  · intro hmem
    have := h.2
    rw [List.contains, List.elem_eq_true_of_mem hmem] at this
    exact absurd this (by simp)

theorem target_of_linkLine (t : Str) (h : cleanTitle t) :
    t ∈ wikiTargetsOf [linkLine t] := by
  obtain ⟨h1, h2, h3, h4⟩ := cleanTitle_spec t h
  rw [wikiTargetsOf]
  simp only [List.flatMap_cons, List.flatMap_nil, List.append_nil]
  rw [scanWikilinks_linkLine t h1 h3 h4]
  simp [h2]

theorem addedTitles_saturated (links : List Str) (sec : Lines)
    (hclean : ∀ t ∈ links, cleanTitle t) :
    addedTitles links (sec ++ addedLinks links sec) = [] := by
  rw [addedTitles]
  rw [List.filter_eq_nil_iff]
  intro t ht
  have htl : t ∈ pydedup links := (pySortLower_perm _).mem_iff.1 ht
  simp only [decide_eq_true_eq, Decidable.not_not]
  rw [wikiTargetsOf_append]
  by_cases hin : t ∈ wikiTargetsOf sec
  · exact List.mem_append_left _ hin
  · apply List.mem_append_right
    have hll : linkLine t ∈ addedLinks links sec := (mem_addedLinks links sec t).2 ⟨htl, hin⟩
    rw [wikiTargetsOf, List.mem_flatMap]
    have h5 := target_of_linkLine t (hclean t (pydedup_subset links t htl))
    rw [wikiTargetsOf] at h5
    simp only [List.flatMap_cons, List.flatMap_nil, List.append_nil] at h5
    exact ⟨linkLine t, hll, h5⟩

theorem addedLinks_saturated (links : List Str) (sec : Lines)
    (hclean : ∀ t ∈ links, cleanTitle t) :
    addedLinks links (sec ++ addedLinks links sec) = [] := by
  rw [addedLinks, addedTitles_saturated links sec hclean]
  rfl

/-!  ## Saturation of the leaf pass (claim C1 support) -/

theorem isPrefixOf_append_self (l x : List Char) : l.isPrefixOf (l ++ x) = true := by
  induction l with
  | nil => simp [List.isPrefixOf]
  | cons a as ih => simp [List.isPrefixOf, ih]

theorem leafScan_cons (st : Option Str) (ln : Str) (rest : Lines) :
    leafScan st (ln :: rest) =
      (if descMarker.isPrefixOf (pyStrip ln) then
         leafScan (some (pyStrip ((pyStrip ln).drop descMarker.length))) rest
       else
         match st with
         | some d =>
           if srcMarker.isPrefixOf (pyStrip ln) then
             normalize_leaf_pair d (pyStrip ((pyStrip ln).drop srcMarker.length)) ::
               leafScan none rest
           else leafScan (some d) rest
         | none => leafScan none rest) := rfl

theorem strip_desc_line (d : Str) :
    pyStrip (pyRstrip (str "- **Description:** " ++ d)) =
      descMarker ++ (if pyRstrip d = [] then [] else ' ' :: pyRstrip d) := by
  rw [pyStrip_rstrip]
  by_cases hd : pyRstrip d = []
  · rw [if_pos hd]
    have hws : ∀ c ∈ d, isPySpace c := (pyRstrip_eq_nil_iff d).1 hd
    rw [pyStrip, pyRstrip_append_ws _ d hws]
    decide
  · rw [if_neg hd]
    rw [pyStrip, pyRstrip_append_of_ne _ d hd]
    rw [show str "- **Description:** " ++ pyRstrip d =
      '-' :: (str " **Description:** " ++ pyRstrip d) from rfl]
    rw [pyLstrip_cons_not_ws _ _ (by decide)]
    rfl

theorem strip_src_line (s : Str) :
    pyStrip (pyRstrip (str "  **Source:** " ++ s)) =
      srcMarker ++ (if pyRstrip s = [] then [] else ' ' :: pyRstrip s) := by
  rw [pyStrip_rstrip]
  by_cases hs : pyRstrip s = []
  · rw [if_pos hs]
    have hws : ∀ c ∈ s, isPySpace c := (pyRstrip_eq_nil_iff s).1 hs
    rw [pyStrip, pyRstrip_append_ws _ s hws]
    decide
  · rw [if_neg hs]
    rw [pyStrip, pyRstrip_append_of_ne _ s hs]
    rw [show str "  **Source:** " ++ pyRstrip s =
      ' ' :: (' ' :: (str "**Source:** " ++ pyRstrip s)) from rfl]
    rw [pyLstrip_cons_ws _ _ (by decide), pyLstrip_cons_ws _ _ (by decide)]
    rw [show str "**Source:** " ++ pyRstrip s =
      '*' :: (str "*Source:** " ++ pyRstrip s) from rfl]
    rw [pyLstrip_cons_not_ws _ _ (by decide)]
    rfl

theorem pyStrip_of_rstrip_nil (d : Str) (hd : pyRstrip d = []) : pyStrip d = [] := by
  rw [pyStrip, hd]
  rfl

theorem leafScan_desc_step (st : Option Str) (d : Str) (rest : Lines) :
    leafScan st (pyRstrip (str "- **Description:** " ++ d) :: rest) =
      leafScan (some (pyStrip d)) rest := by
  rw [leafScan_cons]
  rw [strip_desc_line]
  by_cases hd : pyRstrip d = []
  · rw [if_pos hd]
    rw [show (descMarker ++ [] : Str) = descMarker by simp]
    rw [show descMarker.isPrefixOf descMarker = true from by decide]
    rw [if_pos rfl]
    rw [show (descMarker.drop descMarker.length : Str) = [] from by decide]
    rw [show pyStrip ([] : Str) = [] from rfl, pyStrip_of_rstrip_nil d hd]
  · rw [if_neg hd]
    rw [isPrefixOf_append_self]
    rw [if_pos rfl]
    rw [List.drop_left]
    rw [pyStrip_cons_ws _ _ (by decide), pyStrip_rstrip]

theorem leafScan_src_step (d s : Str) (rest : Lines) :
    leafScan (some d) (pyRstrip (str "  **Source:** " ++ s) :: rest) =
      normalize_leaf_pair d (pyStrip s) :: leafScan none rest := by
  rw [leafScan_cons]
  rw [strip_src_line]
  have hdm : ∀ X : Str, descMarker.isPrefixOf (srcMarker ++ X) = false := by
    intro X
    rfl
  by_cases hs : pyRstrip s = []
  · rw [if_pos hs]
    rw [show (srcMarker ++ [] : Str) = srcMarker by simp]
    rw [show descMarker.isPrefixOf srcMarker = false from by decide]
    rw [if_neg (by simp)]
    rw [show srcMarker.isPrefixOf srcMarker = true from by decide]
    show normalize_leaf_pair d (pyStrip (srcMarker.drop srcMarker.length)) ::
      leafScan none rest = _
    rw [show (srcMarker.drop srcMarker.length : Str) = [] from by decide]
    rw [show pyStrip ([] : Str) = [] from rfl, pyStrip_of_rstrip_nil s hs]
  · rw [if_neg hs]
    rw [hdm]
    rw [if_neg (by simp)]
    rw [isPrefixOf_append_self]
    show normalize_leaf_pair d (pyStrip ((srcMarker ++ ' ' :: pyRstrip s).drop srcMarker.length)) ::
      leafScan none rest = _
    rw [List.drop_left]
    rw [pyStrip_cons_ws _ _ (by decide), pyStrip_rstrip]

theorem normalize_strip_right (d s : Str) :
    normalize_leaf_pair d (pyStrip s) = normalize_leaf_pair d s := by
  rw [normalize_leaf_pair_words, normalize_leaf_pair_words, pyWords_strip]

theorem leafScan_block (st : Option Str) (d s : Str) (Z : Lines) :
    leafScan st (leafBlock d s ++ Z) = normalize_leaf_pair d s :: leafScan none Z := by
  rw [leafBlock, List.cons_append, List.cons_append, List.nil_append]
  rw [leafScan_desc_step, leafScan_src_step, normalize_strip_right]
  rw [show normalize_leaf_pair (pyStrip d) s = normalize_leaf_pair d s from by
    rw [normalize_leaf_pair_words, normalize_leaf_pair_words, pyWords_strip]]

/-- The pending-description state after leafScan ran over a line block. -/
def leafPend : Option Str → Lines → Option Str
  | st, [] => st
  | st, ln :: rest =>
    if descMarker.isPrefixOf (pyStrip ln) then
      leafPend (some (pyStrip ((pyStrip ln).drop descMarker.length))) rest
    else
      match st with
      | some d =>
        if srcMarker.isPrefixOf (pyStrip ln) then leafPend none rest
        else leafPend (some d) rest
      | none => leafPend none rest

theorem leafScan_append (X : Lines) : ∀ (Y : Lines) (st : Option Str),
    leafScan st (X ++ Y) = leafScan st X ++ leafScan (leafPend st X) Y := by
  induction X with
  | nil =>
    intro Y st
    rw [List.nil_append, show leafScan st [] = [] from rfl,
      show leafPend st [] = st from rfl, List.nil_append]
  | cons ln rest ih =>
    intro Y st
    rw [List.cons_append, leafScan_cons, leafScan_cons,
      show leafPend st (ln :: rest) =
        (if descMarker.isPrefixOf (pyStrip ln) then
          leafPend (some (pyStrip ((pyStrip ln).drop descMarker.length))) rest
        else
          match st with
          | some d =>
            if srcMarker.isPrefixOf (pyStrip ln) then leafPend none rest
            else leafPend (some d) rest
          | none => leafPend none rest) from rfl]
    by_cases h1 : descMarker.isPrefixOf (pyStrip ln)
    · rw [if_pos h1, if_pos h1, if_pos h1, ih]
    · rw [if_neg h1, if_neg h1, if_neg h1]
      cases st with
      | none => rw [ih]
      | some d =>
        simp only []
        by_cases h2 : srcMarker.isPrefixOf (pyStrip ln)
        · rw [if_pos h2, if_pos h2, if_pos h2, ih]
          rfl
        · rw [if_neg h2, if_neg h2, if_neg h2, ih]

theorem leafState_mono (pairs : List (Str × Str)) : ∀ (E : List Str) (x : Str),
    x ∈ E → x ∈ leafState pairs E := by
  induction pairs with
  | nil =>
    intro E x hx
    exact hx
  | cons p rest ih =>
    intro E x hx
    obtain ⟨d, s⟩ := p
    rw [leafState]
    by_cases hc : normalize_leaf_pair d s ≠ [] ∧ ¬ normalize_leaf_pair d s ∈ E
    · rw [if_pos hc]
      exact ih _ x (List.mem_cons_of_mem _ hx)
    · rw [if_neg hc]
      exact ih _ x hx

theorem mem_leafState (pairs : List (Str × Str)) : ∀ (E : List Str) (p : Str × Str),
    p ∈ pairs → normalize_leaf_pair p.1 p.2 ≠ [] →
    normalize_leaf_pair p.1 p.2 ∈ leafState pairs E := by
  induction pairs with
  | nil =>
    intro E p hp
    exact absurd hp (List.not_mem_nil p)
  | cons q rest ih =>
    intro E p hp hk
    obtain ⟨d, s⟩ := q
    rw [leafState]
    by_cases hc : normalize_leaf_pair d s ≠ [] ∧ ¬ normalize_leaf_pair d s ∈ E
    · rw [if_pos hc]
      rcases List.mem_cons.1 hp with rfl | hp2
      · exact leafState_mono rest _ _ (List.mem_cons_self _ _)
      · exact ih _ p hp2 hk
    · rw [if_neg hc]
      rcases List.mem_cons.1 hp with rfl | hp2
      · push_neg at hc
        exact leafState_mono rest _ _ (hc hk)
      · exact ih _ p hp2 hk

theorem scan_of_collect (pairs : List (Str × Str)) :
    ∀ (E : List Str) (st : Option Str) (x : Str), x ∈ leafState pairs E →
      x ∈ E ∨ x ∈ leafScan st (collectLeafBlocks pairs E).flatten := by
  induction pairs with
  | nil =>
    intro E st x hx
    exact Or.inl hx
  | cons q rest ih =>
    intro E st x hx
    obtain ⟨d, s⟩ := q
    rw [leafState] at hx
    rw [collectLeafBlocks]
    by_cases hc : normalize_leaf_pair d s ≠ [] ∧ ¬ normalize_leaf_pair d s ∈ E
    · rw [if_pos hc] at hx ⊢
      rw [List.flatten_cons, leafScan_block]
      rcases ih _ none x hx with h | h
      · rcases List.mem_cons.1 h with rfl | h2
        · exact Or.inr (List.mem_cons_self _ _)
        · exact Or.inl h2
      · exact Or.inr (List.mem_cons_of_mem _ h)
    · rw [if_neg hc] at hx ⊢
      exact ih _ st x hx

theorem collect_nil_of_covered (pairs : List (Str × Str)) : ∀ (K : List Str),
    (∀ p ∈ pairs, normalize_leaf_pair p.1 p.2 = [] ∨ normalize_leaf_pair p.1 p.2 ∈ K) →
    collectLeafBlocks pairs K = [] := by
  induction pairs with
  | nil =>
    intro K h
    rfl
  | cons q rest ih =>
    intro K h
    obtain ⟨d, s⟩ := q
    rw [collectLeafBlocks]
    rw [if_neg (by
      rcases h (d, s) (List.mem_cons_self _ _) with h2 | h2
      · intro hc
        exact hc.1 h2
      · intro hc
        exact hc.2 h2)]
    exact ih K (fun p hp => h p (List.mem_cons_of_mem _ hp))

theorem leafScan_heading_step (hd : Str) (rest : Lines)
    (hhd : pyStrip hd = hline (str "Description and source")) :
    leafScan none (hd :: rest) = leafScan none rest := by
  rw [leafScan_cons, hhd]
  rw [show descMarker.isPrefixOf (hline (str "Description and source")) = false from by decide]
  rw [if_neg (by simp)]

theorem addedLeafBlocks_saturated (prs : List (Str × Str)) (hdD : Str) (mD : Lines)
    (hhdD2 : pyStrip hdD = hline (str "Description and source")) :
    addedLeafBlocks prs (hdD :: (mD ++ addedLeafBlocks prs (hdD :: mD))) = [] := by
  rw [addedLeafBlocks, collect_nil_of_covered]
  · rfl
  · intro p hp
    by_cases hk : normalize_leaf_pair p.1 p.2 = []
    · exact Or.inl hk
    · right
      rw [leafKeysOf, leafScan_heading_step _ _ hhdD2, leafScan_append]
      have hE1 : leafKeysOf (hdD :: mD) = leafScan none mD := by
        rw [leafKeysOf, leafScan_heading_step _ _ hhdD2]
      have h1 := mem_leafState prs (leafKeysOf (hdD :: mD)) p hp hk
      rcases scan_of_collect prs _ (leafPend none mD) _ h1 with h | h
      · rw [hE1] at h
        exact List.mem_append_left _ h
      · refine List.mem_append_right _ ?_
        rw [addedLeafBlocks]
        exact h

theorem addedLeafBlocks_form (prs : List (Str × Str)) (sec : Lines) :
    ∀ y ∈ addedLeafBlocks prs sec,
      (∃ d, y = pyRstrip (str "- **Description:** " ++ d)) ∨
      (∃ s, y = pyRstrip (str "  **Source:** " ++ s)) := by
  intro y hy
  rw [addedLeafBlocks] at hy
  obtain ⟨kept, -, heq, -, -⟩ := collectLeafBlocks_spec prs (leafKeysOf sec)
  rw [heq] at hy
  obtain ⟨blk, hblk, hyblk⟩ := List.mem_flatten.1 hy
  obtain ⟨pr, -, rfl⟩ := List.mem_map.1 hblk
  rcases List.mem_cons.1 hyblk with rfl | h2
  · exact Or.inl ⟨pr.1, rfl⟩
  · rw [List.mem_singleton.1 h2]
    exact Or.inr ⟨pr.2, rfl⟩

theorem not_isHH_head (c : Char) (hc : c ≠ '#') (z : Str) : ¬ isHH (c :: z) := by
  rw [isHH, show (str "## " : Str) = '#' :: '#' :: [' '] from rfl]
  simp only [List.isPrefixOf, Bool.and_eq_true, beq_iff_eq]
  intro h
  exact hc h.1.symm

theorem desc_line_head (d : Str) :
    ∃ z, pyRstrip (str "- **Description:** " ++ d) = '-' :: z := by
  rw [show str "- **Description:** " ++ d = '-' :: (str " **Description:** " ++ d) from rfl]
  rw [pyRstrip_cons]
  have hne : pyRstrip (str " **Description:** " ++ d) ≠ [] := by
    rw [Ne, pyRstrip_eq_nil_iff]
    intro h
    exact absurd (h '*' (List.mem_append_left _ (by decide))) (by decide)
  rw [if_neg hne]
  exact ⟨_, rfl⟩

theorem src_line_head (s : Str) :
    ∃ z, pyRstrip (str "  **Source:** " ++ s) = ' ' :: z := by
  rw [show str "  **Source:** " ++ s = ' ' :: (str " **Source:** " ++ s) from rfl]
  rw [pyRstrip_cons]
  have hne : pyRstrip (str " **Source:** " ++ s) ≠ [] := by
    rw [Ne, pyRstrip_eq_nil_iff]
    intro h
    exact absurd (h '*' (List.mem_append_left _ (by decide))) (by decide)
  rw [if_neg hne]
  exact ⟨_, rfl⟩

theorem addedLeafBlocks_not_isHH (prs : List (Str × Str)) (sec : Lines) :
    ∀ y ∈ addedLeafBlocks prs sec, ¬ isHH y := by
  intro y hy
  rcases addedLeafBlocks_form prs sec y hy with ⟨d, rfl⟩ | ⟨s, rfl⟩
  · obtain ⟨z, hz⟩ := desc_line_head d
    rw [hz]
    exact not_isHH_head '-' (by decide) z
  · obtain ⟨z, hz⟩ := src_line_head s
    rw [hz]
    exact not_isHH_head ' ' (by decide) z

/-- The merge passes add nothing on a second run over their own output:
the line-level idempotence at the heart of claim C1. -/
theorem merge_idempotent (A : Lines) (hdP : Str) (mP : Lines) (hdC : Str) (mC : Lines)
    (hdD : Str) (mD rest : Lines) (ps cs : List Str) (prs : List (Str × Str))
    (hA : ∀ y ∈ A, pyStrip y ≠ hline (str "Parents") ∧ pyStrip y ≠ hline (str "Children") ∧
      pyStrip y ≠ hline (str "Description and source"))
    (hhdP : pyStrip hdP = hline (str "Parents"))
    (hmP : ∀ y ∈ mP, ¬ isHH y ∧ pyStrip y ≠ hline (str "Children") ∧
      pyStrip y ≠ hline (str "Description and source"))
    (hhdC : isHH hdC) (hhdC2 : pyStrip hdC = hline (str "Children"))
    (hmC : ∀ y ∈ mC, ¬ isHH y ∧ pyStrip y ≠ hline (str "Description and source"))
    (hhdD : isHH hdD) (hhdD2 : pyStrip hdD = hline (str "Description and source"))
    (hmD : ∀ y ∈ mD, ¬ isHH y)
    (hrest : rest = [] ∨ ∃ term post, rest = term :: post ∧ isHH term)
    (hcps : ∀ t ∈ ps, cleanTitle t) (hccs : ∀ t ∈ cs, cleanTitle t) :
    merge_note_lines (merge_note_lines (A ++ hdP :: (mP ++ hdC :: (mC ++ hdD :: (mD ++ rest))))
        ps cs prs) ps cs prs =
      merge_note_lines (A ++ hdP :: (mP ++ hdC :: (mC ++ hdD :: (mD ++ rest)))) ps cs prs := by
  have h1 := merge_three_sections A hdP mP hdC mC hdD mD rest ps cs prs
    hA hhdP hmP hhdC hhdC2 hmC hhdD hhdD2 hmD hrest
  rw [h1]
  rw [show A ++ hdP :: (mP ++ (addedLinks ps (hdP :: mP) ++
      hdC :: (mC ++ (addedLinks cs (hdC :: mC) ++
      hdD :: (mD ++ (addedLeafBlocks prs (hdD :: mD) ++ rest)))))) =
    A ++ hdP :: ((mP ++ addedLinks ps (hdP :: mP)) ++
      hdC :: ((mC ++ addedLinks cs (hdC :: mC)) ++
      hdD :: ((mD ++ addedLeafBlocks prs (hdD :: mD)) ++ rest))) by simp]
  rw [merge_three_sections A hdP (mP ++ addedLinks ps (hdP :: mP)) hdC
    (mC ++ addedLinks cs (hdC :: mC)) hdD (mD ++ addedLeafBlocks prs (hdD :: mD)) rest ps cs prs
    hA hhdP
    (by
      intro y hy
      rcases List.mem_append.1 hy with h | h
      · exact hmP y h
      · obtain ⟨u, rfl⟩ := addedLinks_form _ _ y h
        exact ⟨linkLine_not_isHH u, linkLine_not_heading u _, linkLine_not_heading u _⟩)
    hhdC hhdC2
    (by
      intro y hy
      rcases List.mem_append.1 hy with h | h
      · exact hmC y h
      · obtain ⟨u, rfl⟩ := addedLinks_form _ _ y h
        exact ⟨linkLine_not_isHH u, linkLine_not_heading u _⟩)
    hhdD hhdD2
    (by
      intro y hy
      rcases List.mem_append.1 hy with h | h
      · exact hmD y h
      · exact addedLeafBlocks_not_isHH prs _ y h)
    hrest]
  rw [show (hdP :: (mP ++ addedLinks ps (hdP :: mP)) : Lines) =
    (hdP :: mP) ++ addedLinks ps (hdP :: mP) by simp]
  rw [addedLinks_saturated ps (hdP :: mP) hcps]
  rw [show (hdC :: (mC ++ addedLinks cs (hdC :: mC)) : Lines) =
    (hdC :: mC) ++ addedLinks cs (hdC :: mC) by simp]
  rw [addedLinks_saturated cs (hdC :: mC) hccs]
  rw [addedLeafBlocks_saturated prs hdD mD hhdD2]
  simp

theorem cleanTitle_breakFree (t : Str) (h : cleanTitle t) : breakFree t := by
  rw [cleanTitle] at h
  simp only [Bool.and_eq_true] at h
  exact h.1.1.2

theorem endTrim_fixed_concat (L' : Lines) (x : Str) (hws : ¬ isWsLine x)
    (hfix : pyRstrip x = x) : endTrimLines (L' ++ [x]) = L' ++ [x] := by
  rw [endTrimLines]
  have hM : ((L' ++ [x]).reverse.dropWhile isWsLine).reverse = L' ++ [x] := by
    rw [List.reverse_append, List.reverse_singleton, List.singleton_append,
      List.dropWhile_cons, if_neg hws]
    simp
  rw [hM, List.getLast?_concat]
  simp only [List.dropLast_concat]
  rw [hfix]

theorem endTrim_fixed (L : Lines) (x : Str) (hlast : L.getLast? = some x)
    (hws : ¬ isWsLine x) (hfix : pyRstrip x = x) : endTrimLines L = L := by
  have hne : L ≠ [] := by
    intro h
    rw [h] at hlast
    exact absurd hlast (by simp)
  have hdec : L.dropLast ++ [x] = L := by
    have h1 := List.dropLast_append_getLast hne
    rw [List.getLast?_eq_getLast _ hne, Option.some.injEq] at hlast
    rw [hlast] at h1
    exact h1
  rw [← hdec]
  exact endTrim_fixed_concat _ x hws hfix

theorem srcline_ne_nil (s : Str) : pyRstrip (str "  **Source:** " ++ s) ≠ [] := by
  rw [Ne, pyRstrip_eq_nil_iff]
  intro h
  exact absurd (h '*' (List.mem_append_left _ (by decide))) (by decide)

theorem srcline_not_ws (s : Str) : ¬ isWsLine (pyRstrip (str "  **Source:** " ++ s)) := by
  rw [isWsLine_iff_rstrip_nil, pyRstrip_idem]
  exact srcline_ne_nil s

theorem addedLeafBlocks_last (prs : List (Str × Str)) (sec : Lines)
    (hne : addedLeafBlocks prs sec ≠ []) :
    ∃ W s, addedLeafBlocks prs sec = W ++ [pyRstrip (str "  **Source:** " ++ s)] := by
  obtain ⟨kept, -, heq, -, -⟩ := collectLeafBlocks_spec prs (leafKeysOf sec)
  rw [addedLeafBlocks, heq] at hne ⊢
  induction kept using List.reverseRecOn with
  | nil => exact absurd rfl hne
  | append_singleton kept' pr _ =>
    refine ⟨((kept'.map (fun pr => [pyRstrip (str "- **Description:** " ++ pr.1),
        pyRstrip (str "  **Source:** " ++ pr.2)])).flatten ++
      [pyRstrip (str "- **Description:** " ++ pr.1)]), pr.2, ?_⟩
    rw [List.map_append, List.flatten_append]
    simp

/-- Counterexample to claim C1 as stated: the title "A|B" round-trips
badly — its link line "- [[A|B]]" is re-captured by the wikilink pattern
as target "A", so a second run appends the line again. -/
theorem claim_C1_counterexample :
    update_note_file_append_only (some (update_note_file_append_only none (str "T")
      [str "A|B"] [] [])) (str "T") [str "A|B"] [] [] ≠
    update_note_file_append_only none (str "T") [str "A|B"] [] [] := by
  decide

/-- Claim C1, amended: the merger is idempotent on a well-formed
scaffold-ordered document with a tidy tail, for requests whose titles
round-trip through the link pattern (non-empty, stripped, no ']' or '|',
single-line) and whose leaf fields are single-line. -/
theorem claim_C1 (raw title : Str) (A : Lines) (hdP : Str) (mP : Lines) (hdC : Str)
    (mC : Lines) (hdD : Str) (mD : Lines) (ps cs : List Str) (prs : List (Str × Str))
    (hdoc : pySplitlines raw = A ++ hdP :: (mP ++ hdC :: (mC ++ hdD :: mD)))
    (hA : ∀ y ∈ A, pyStrip y ≠ hline (str "Parents") ∧ pyStrip y ≠ hline (str "Children") ∧
      pyStrip y ≠ hline (str "Description and source"))
    (hhdP : pyStrip hdP = hline (str "Parents"))
    (hmP : ∀ y ∈ mP, ¬ isHH y ∧ pyStrip y ≠ hline (str "Children") ∧
      pyStrip y ≠ hline (str "Description and source"))
    (hhdC : isHH hdC) (hhdC2 : pyStrip hdC = hline (str "Children"))
    (hmC : ∀ y ∈ mC, ¬ isHH y ∧ pyStrip y ≠ hline (str "Description and source"))
    (hhdD : isHH hdD) (hhdD2 : pyStrip hdD = hline (str "Description and source"))
    (hmD : ∀ y ∈ mD, ¬ isHH y)
    (hhdDfix : pyRstrip hdD = hdD)
    (hmDtail : mD = [] ∨ ∃ m' x, mD = m' ++ [x] ∧ ¬ isWsLine x ∧ pyRstrip x = x)
    (hcps : ∀ t ∈ ps, cleanTitle t) (hccs : ∀ t ∈ cs, cleanTitle t)
    (hcprs : ∀ p ∈ prs, cleanPair p) :
    update_note_file_append_only (some (update_note_file_append_only (some raw) title ps cs prs))
      title ps cs prs =
    update_note_file_append_only (some raw) title ps cs prs := by
  have hdocne : pySplitlines raw ≠ [] := by
    rw [hdoc]
    simp
  have hload : load_note_lines (some raw) title = pySplitlines raw := by
    rw [load_note_lines]
    rw [if_neg (by rw [List.isEmpty_iff]; exact hdocne)]
  have hmerged : merge_note_lines (pySplitlines raw) ps cs prs =
      A ++ hdP :: (mP ++ (addedLinks ps (hdP :: mP) ++ hdC :: (mC ++
        (addedLinks cs (hdC :: mC) ++ hdD :: (mD ++
        (addedLeafBlocks prs (hdD :: mD) ++ [])))))) := by
    rw [hdoc]
    have h3 := merge_three_sections A hdP mP hdC mC hdD mD [] ps cs prs
      hA hhdP hmP hhdC hhdC2 hmC hhdD hhdD2 hmD (Or.inl rfl)
    rw [show A ++ hdP :: (mP ++ hdC :: (mC ++ hdD :: (mD ++ []))) =
      A ++ hdP :: (mP ++ hdC :: (mC ++ hdD :: mD)) by simp] at h3
    exact h3
  have hbf : ∀ l ∈ merge_note_lines (pySplitlines raw) ps cs prs, breakFree l :=
    merge_breakFree _ ps cs prs (pySplitlines_breakFree raw)
      (fun t ht => cleanTitle_breakFree t (hcps t ht))
      (fun t ht => cleanTitle_breakFree t (hccs t ht))
      (fun p hp => by
        have h4 := hcprs p hp
        rw [cleanPair] at h4
        simp only [Bool.and_eq_true] at h4
        exact h4)
  have hDws : ¬ isWsLine hdD := by
    rw [isWsLine_iff_rstrip_nil, hhdDfix]
    intro h
    rw [h] at hhdD2
    exact absurd hhdD2 (by decide)
  have hET : endTrimLines (merge_note_lines (pySplitlines raw) ps cs prs) =
      merge_note_lines (pySplitlines raw) ps cs prs := by
    rw [hmerged]
    by_cases haL : addedLeafBlocks prs (hdD :: mD) = []
    · rw [haL]
      rcases hmDtail with rfl | ⟨m', x, rfl, hxw, hxf⟩
      · rw [show A ++ hdP :: (mP ++ (addedLinks ps (hdP :: mP) ++ hdC :: (mC ++
          (addedLinks cs (hdC :: mC) ++ hdD :: (([] : Lines) ++ (([] : Lines) ++ [])))))) =
          (A ++ hdP :: (mP ++ (addedLinks ps (hdP :: mP) ++ hdC :: (mC ++
            addedLinks cs (hdC :: mC))))) ++ [hdD] by simp]
        exact endTrim_fixed_concat _ hdD hDws hhdDfix
      · rw [show A ++ hdP :: (mP ++ (addedLinks ps (hdP :: mP) ++ hdC :: (mC ++
          (addedLinks cs (hdC :: mC) ++ hdD :: ((m' ++ [x]) ++ (([] : Lines) ++ [])))))) =
          (A ++ hdP :: (mP ++ (addedLinks ps (hdP :: mP) ++ hdC :: (mC ++
            (addedLinks cs (hdC :: mC) ++ hdD :: m'))))) ++ [x] by simp]
        exact endTrim_fixed_concat _ x hxw hxf
    · obtain ⟨W, s, hWs⟩ := addedLeafBlocks_last prs (hdD :: mD) haL
      rw [hWs]
      rw [show A ++ hdP :: (mP ++ (addedLinks ps (hdP :: mP) ++ hdC :: (mC ++
        (addedLinks cs (hdC :: mC) ++ hdD :: (mD ++
        ((W ++ [pyRstrip (str "  **Source:** " ++ s)]) ++ [])))))) =
        (A ++ hdP :: (mP ++ (addedLinks ps (hdP :: mP) ++ hdC :: (mC ++
          (addedLinks cs (hdC :: mC) ++ hdD :: (mD ++ W)))))) ++
          [pyRstrip (str "  **Source:** " ++ s)] by simp]
      exact endTrim_fixed_concat _ _ (srcline_not_ws s) (pyRstrip_idem _)
  have hsplit1 : pySplitlines (update_note_file_append_only (some raw) title ps cs prs) =
      merge_note_lines (pySplitlines raw) ps cs prs := by
    rw [update_note_file_append_only, hload]
    rw [serialize_splitlines _ hbf, hET]
  have hmne : merge_note_lines (pySplitlines raw) ps cs prs ≠ [] := by
    rw [hmerged]
    simp
  have hload2 : load_note_lines (some (update_note_file_append_only (some raw) title ps cs prs))
      title = merge_note_lines (pySplitlines raw) ps cs prs := by
    rw [load_note_lines]
    rw [hsplit1]
    rw [if_neg (by rw [List.isEmpty_iff]; exact hmne)]
  have hidem : merge_note_lines (merge_note_lines (pySplitlines raw) ps cs prs) ps cs prs =
      merge_note_lines (pySplitlines raw) ps cs prs := by
    rw [hdoc]
    rw [show A ++ hdP :: (mP ++ hdC :: (mC ++ hdD :: mD)) =
      A ++ hdP :: (mP ++ hdC :: (mC ++ hdD :: (mD ++ []))) by simp]
    exact merge_idempotent A hdP mP hdC mC hdD mD [] ps cs prs
      hA hhdP hmP hhdC hhdC2 hmC hhdD hhdD2 hmD (Or.inl rfl) hcps hccs
  conv_lhs => rw [update_note_file_append_only]
  rw [hload2, hidem]
  conv_rhs => rw [update_note_file_append_only, hload]

/-- Claim C1 witness on a concrete scaffold document and clean request. -/
theorem claim_C1_witness :
    update_note_file_append_only (some (update_note_file_append_only
        (some (str "# T\n\n## Parents\n\n## Children\n\n## Description and source\n"))
        (str "T") [str "Animal"] [] [(str "d", str "s")]))
      (str "T") [str "Animal"] [] [(str "d", str "s")] =
    update_note_file_append_only
      (some (str "# T\n\n## Parents\n\n## Children\n\n## Description and source\n"))
      (str "T") [str "Animal"] [] [(str "d", str "s")] :=
  claim_C1 (str "# T\n\n## Parents\n\n## Children\n\n## Description and source\n") (str "T")
    [str "# T", []] (str "## Parents") [[]] (str "## Children") [[]]
    (str "## Description and source") [] [str "Animal"] [] [(str "d", str "s")]
    (by decide) (by decide) (by decide) (by decide) (by decide) (by decide) (by decide)
    (by decide) (by decide) (by decide) (by decide) (Or.inl rfl)
    (by decide) (by decide) (by decide)

/-!  ## Section locality (claim C4 support)

With genuine "## " headings the strip-equality heading test and the
startswith terminator test agree, so a section's body is determined by
the part of the document around its heading and an insertion into one
section never reaches into another section's body. -/

theorem hline_ne_nil (h : Str) : hline h ≠ [] := by
  rw [show hline h = '#' :: '#' :: ' ' :: h from rfl]
  simp

theorem isHH_hline (h : Str) : isHH (hline h) := by
  rw [isHH, hline]
  exact isPrefixOf_append_self _ _

theorem blank_not_isHH : ¬ isHH ([] : Str) := by decide

theorem linkLine_ne_nil (t : Str) : linkLine t ≠ [] := by
  rw [linkLine_cons]
  simp

theorem ensureSep_cases (lines : Lines) :
    ensureSep lines = [] ∨ ensureSep lines = [([] : Str)] := by
  rw [ensureSep]
  cases lines.getLast? with
  | none => exact Or.inl rfl
  | some last =>
    simp only []
    by_cases hs : pyStrip last ≠ []
    · rw [if_pos hs]
      exact Or.inr rfl
    · rw [if_neg hs]
      exact Or.inl rfl

theorem desc_line_not_heading (d h : Str) :
    pyStrip (pyRstrip (str "- **Description:** " ++ d)) ≠ hline h := by
  rw [strip_desc_line]
  intro he
  have h2 := congrArg List.head? he
  rw [show hline h = '#' :: '#' :: ' ' :: h from rfl,
    show descMarker ++ (if pyRstrip d = [] then [] else ' ' :: pyRstrip d) =
      '-' :: (str " **Description:**" ++ (if pyRstrip d = [] then [] else ' ' :: pyRstrip d))
      from rfl] at h2
  simp at h2

theorem src_line_not_heading (s h : Str) :
    pyStrip (pyRstrip (str "  **Source:** " ++ s)) ≠ hline h := by
  rw [strip_src_line]
  intro he
  have h2 := congrArg List.head? he
  rw [show hline h = '#' :: '#' :: ' ' :: h from rfl,
    show srcMarker ++ (if pyRstrip s = [] then [] else ' ' :: pyRstrip s) =
      '*' :: (str "*Source:**" ++ (if pyRstrip s = [] then [] else ' ' :: pyRstrip s))
      from rfl] at h2
  simp at h2

theorem pySlice_shift (X R : Lines) (a b : Nat) :
    pySlice (X ++ R) (X.length + a) (X.length + b) = pySlice R a b := by
  rw [pySlice, pySlice, List.take_append, List.drop_append]

theorem sectionBody_subset (lines : Lines) (h : Str) (b : Lines)
    (hb : sectionBody lines h = some b) : ∀ l ∈ b, l ∈ lines := by
  rw [sectionBody] at hb
  cases hf : find_section_range lines h with
  | none =>
    rw [hf] at hb
    exact absurd hb (by simp)
  | some se =>
    rw [hf] at hb
    simp only [Option.some.injEq] at hb
    intro l hl
    rw [← hb, pySlice] at hl
    exact List.take_subset _ _ (List.drop_subset _ _ hl)

/-- A prefix without a heading match is transparent to sectionBody. -/
theorem sectionBody_prefix_skip (X R : Lines) (h : Str)
    (hX : ∀ y ∈ X, pyStrip y ≠ hline h) :
    sectionBody (X ++ R) h = sectionBody R h := by
  have hfX : findFirst (fun ln => pyStrip ln == hline h) X = none :=
    (findFirst_none_iff _ _).2 (fun y hy => by simpa using hX y hy)
  rw [sectionBody, sectionBody, find_section_range, find_section_range]
  rw [findFirst_append_of_none _ X R hfX]
  cases hf : findFirst (fun ln => pyStrip ln == hline h) R with
  | none => rfl
  | some j =>
    simp only [Option.map_some']
    have hdrop : (X ++ R).drop (j + X.length + 1) = R.drop (j + 1) := by
      rw [show j + X.length + 1 = X.length + (j + 1) by omega, List.drop_append]
    rw [hdrop]
    cases hg : findFirst isHH (R.drop (j + 1)) with
    | some k =>
      simp only [Option.some.injEq]
      rw [show j + X.length + 1 + k = X.length + (j + 1 + k) by omega,
        show j + X.length + 1 = X.length + (j + 1) by omega,
        pySlice_shift]
    | none =>
      simp only [Option.some.injEq]
      rw [List.length_append,
        show j + X.length + 1 = X.length + (j + 1) by omega,
        show X.length + R.length = X.length + R.length from rfl,
        pySlice_shift]

theorem sectionBody_noterm (pre : Lines) (hd : Str) (mid : Lines) (header : Str)
    (hpre : ∀ y ∈ pre, pyStrip y ≠ hline header)
    (hhd : pyStrip hd = hline header)
    (hmid : ∀ y ∈ mid, ¬ isHH y) :
    sectionBody (pre ++ hd :: mid) header = some mid := by
  rw [sectionBody, fsr_intro_noterm pre hd mid header hpre hhd hmid]
  simp only [Option.some.injEq]
  rw [show pre ++ hd :: mid = pre ++ hd :: mid ++ ([] : Lines) by simp]
  exact pySlice_from_heading pre hd mid []

theorem sectionBody_term (pre : Lines) (hd : Str) (mid : Lines) (term : Str) (post : Lines)
    (header : Str)
    (hpre : ∀ y ∈ pre, pyStrip y ≠ hline header)
    (hhd : pyStrip hd = hline header)
    (hmid : ∀ y ∈ mid, ¬ isHH y)
    (hterm : isHH term) :
    sectionBody (pre ++ hd :: mid ++ term :: post) header = some mid := by
  rw [sectionBody, fsr_intro_term pre hd mid term post header hpre hhd hmid hterm]
  simp only [Option.some.injEq]
  exact pySlice_from_heading pre hd mid (term :: post)

/-- Once a heading and a genuine terminator are fixed, everything after
the terminator is irrelevant to the section body. -/
theorem sectionBody_pre_det (a : Lines) (hd0 : Str) (b : Lines) (hdT : Str)
    (T T' : Lines) (header : Str)
    (ha : ∀ y ∈ a, pyStrip y ≠ hline header)
    (hhd0 : pyStrip hd0 = hline header)
    (hhdT : isHH hdT) :
    sectionBody (a ++ hd0 :: b ++ hdT :: T) header =
      sectionBody (a ++ hd0 :: b ++ hdT :: T') header := by
  cases hfb : findFirst isHH b with
  | none =>
    have hb : ∀ y ∈ b, ¬ isHH y := (findFirst_none_iff _ _).1 hfb
    rw [sectionBody_term a hd0 b hdT T header ha hhd0 hb hhdT,
      sectionBody_term a hd0 b hdT T' header ha hhd0 hb hhdT]
  | some k =>
    obtain ⟨hk, term2, hsplit, hterm2, hmiss, -⟩ := findFirst_elim _ _ _ hfb
    have hshape : ∀ (S : Lines), a ++ hd0 :: b ++ hdT :: S =
        a ++ hd0 :: (b.take k) ++ term2 :: ((b.drop (k + 1)) ++ hdT :: S) := by
      intro S
      conv_lhs => rw [hsplit]
      simp
    rw [hshape T, hshape T']
    rw [sectionBody_term a hd0 (b.take k) term2 _ header ha hhd0
      (fun y hy => by simpa using hmiss y hy) hterm2]
    rw [sectionBody_term a hd0 (b.take k) term2 _ header ha hhd0
      (fun y hy => by simpa using hmiss y hy) hterm2]

/-- Inserting inert lines at the end of one found section's body leaves
every other section's body unchanged. -/
theorem body_stable_insert (pre : Lines) (hd : Str) (mid rest2 added : Lines)
    (h header : Str)
    (hhd : pyStrip hd = hline h) (hhdHH : isHH hd)
    (hne : hline h ≠ hline header)
    (hmid : ∀ y ∈ mid, pyStrip y ≠ hline header)
    (hadded : ∀ y ∈ added, pyStrip y ≠ hline header) :
    sectionBody (pre ++ hd :: (mid ++ added) ++ rest2) header =
      sectionBody (pre ++ hd :: mid ++ rest2) header := by
  by_cases hp : ∃ y ∈ pre, pyStrip y = hline header
  · cases hfp : findFirst (fun y => pyStrip y == hline header) pre with
    | none =>
      obtain ⟨y, hy, hy2⟩ := hp
      exact absurd (by simpa using (findFirst_none_iff _ _).1 hfp y hy) (by simp [hy2])
    | some i =>
      obtain ⟨hi, hd0, hsplit, hhd0, hmiss, -⟩ := findFirst_elim _ _ _ hfp
      have hshape : ∀ (S : Lines), pre ++ hd :: S =
          (pre.take i) ++ hd0 :: (pre.drop (i + 1)) ++ hd :: S := by
        intro S
        rw [← hsplit]
      rw [show pre ++ hd :: (mid ++ added) ++ rest2 =
        pre ++ hd :: ((mid ++ added) ++ rest2) by simp]
      rw [show pre ++ hd :: mid ++ rest2 = pre ++ hd :: (mid ++ rest2) by simp]
      rw [hshape ((mid ++ added) ++ rest2), hshape (mid ++ rest2)]
      exact sectionBody_pre_det (pre.take i) hd0 (pre.drop (i + 1)) hd _ _ header
        (fun y hy => by simpa using hmiss y hy) (by simpa using hhd0) hhdHH
  · push_neg at hp
    rw [show pre ++ hd :: (mid ++ added) ++ rest2 =
      (pre ++ hd :: (mid ++ added)) ++ rest2 from rfl]
    rw [show pre ++ hd :: mid ++ rest2 = (pre ++ hd :: mid) ++ rest2 from rfl]
    rw [sectionBody_prefix_skip _ rest2 header (by
      intro y hy
      rcases List.mem_append.1 hy with h1 | h1
      · exact hp y h1
      · rcases List.mem_cons.1 h1 with rfl | h2
        · rw [hhd]
          exact hne
        · rcases List.mem_append.1 h2 with h3 | h3
          · exact hmid y h3
          · exact hadded y h3)]
    rw [sectionBody_prefix_skip _ rest2 header (by
      intro y hy
      rcases List.mem_append.1 hy with h1 | h1
      · exact hp y h1
      · rcases List.mem_cons.1 h1 with rfl | h2
        · rw [hhd]
          exact hne
        · exact hmid y h2)]

/-- Appending a fresh section scaffold and its content at the end of the
document grows another section's body by at most the blank separator. -/
theorem body_stable_append (lines sep added : Lines) (h header : Str)
    (hsh : pyStrip (hline h) ≠ hline header)
    (hsep : sep = [] ∨ sep = [([] : Str)])
    (hadded : ∀ y ∈ added, ¬ isHH y ∧ pyStrip y ≠ hline header) :
    ∀ b2, sectionBody (lines ++ sep ++ [hline h, ([] : Str)] ++ added) header = some b2 →
      ∃ b1, sectionBody lines header = some b1 ∧
        (b2 = b1 ∨ b2 = b1 ++ [([] : Str)]) := by
  intro b2 hb2
  cases hf : find_section_range lines header with
  | none =>
    have hnone : find_section_range (lines ++ sep ++ [hline h, ([] : Str)] ++ added)
        header = none := by
      rw [fsr_none_iff]
      intro ln hln
      rcases List.mem_append.1 hln with h1 | h1
      · rcases List.mem_append.1 h1 with h2 | h2
        · rcases List.mem_append.1 h2 with h3 | h3
          · exact (fsr_none_iff lines header).1 hf ln h3
          · rcases hsep with rfl | rfl
            · exact absurd h3 (List.not_mem_nil ln)
            · rw [List.mem_singleton.1 h3]
              exact fun he => hline_ne_nil header he.symm
        · rcases List.mem_cons.1 h2 with rfl | h3
          · exact hsh
          · rw [List.mem_singleton.1 h3]
            exact fun he => hline_ne_nil header he.symm
      · exact (hadded ln h1).2
    rw [sectionBody, hnone] at hb2
    exact absurd hb2 (by simp)
  | some se =>
    obtain ⟨pre, hd, mid, rest2, hdec, -, -, hpre, hhd, hmid, hrest⟩ :=
      fsr_elim lines header se.1 se.2 (by rw [hf])
    rcases hrest with rfl | ⟨term, post, rfl, hterm⟩
    · have hb1 : sectionBody lines header = some mid := by
        rw [hdec, show pre ++ hd :: mid ++ ([] : Lines) = pre ++ hd :: mid by simp]
        exact sectionBody_noterm pre hd mid header hpre hhd hmid
      have hsepHH : ∀ y ∈ sep, ¬ isHH y := by
        intro y hy
        rcases hsep with rfl | rfl
        · exact absurd hy (List.not_mem_nil y)
        · rw [List.mem_singleton.1 hy]
          exact blank_not_isHH
      have hshape : lines ++ sep ++ [hline h, ([] : Str)] ++ added =
          pre ++ hd :: (mid ++ sep) ++ (hline h) :: (([] : Str) :: added) := by
        rw [hdec]
        simp
      rw [hshape] at hb2
      rw [sectionBody_term pre hd (mid ++ sep) (hline h) _ header hpre hhd
        (by
          intro y hy
          rcases List.mem_append.1 hy with h1 | h1
          · exact hmid y h1
          · exact hsepHH y h1)
        (isHH_hline h)] at hb2
      simp only [Option.some.injEq] at hb2
      refine ⟨mid, hb1, ?_⟩
      rcases hsep with rfl | rfl
      · left
        rw [← hb2]
        simp
      · right
        rw [← hb2]
    · have hb1 : sectionBody lines header = some mid := by
        rw [hdec]
        exact sectionBody_term pre hd mid term post header hpre hhd hmid hterm
      have hshape : lines ++ sep ++ [hline h, ([] : Str)] ++ added =
          pre ++ hd :: mid ++ term :: (post ++ sep ++ [hline h, ([] : Str)] ++ added) := by
        rw [hdec]
        simp
      rw [hshape] at hb2
      rw [sectionBody_term pre hd mid term _ header hpre hhd hmid hterm] at hb2
      simp only [Option.some.injEq] at hb2
      exact ⟨mid, hb1, Or.inl hb2.symm⟩

theorem aml_members (lines : Lines) (h : Str) (links : List Str) :
    ∀ l ∈ append_missing_links lines h links,
      l ∈ lines ∨ l = hline h ∨ l = ([] : Str) ∨ ∃ u ∈ links, l = linkLine u := by
  intro l hml
  cases hf : find_section_range lines h with
  | some se =>
    obtain ⟨pre, hd, mid, rest2, hdec, -, -, hpre, hhd, hmid, hrest⟩ :=
      fsr_elim lines h se.1 se.2 (by rw [hf])
    rw [hdec, aml_found pre hd mid rest2 h links hpre hhd hmid hrest] at hml
    rcases List.mem_append.1 hml with h1 | h1
    · rcases List.mem_append.1 h1 with h2 | h2
      · exact Or.inl (by rw [hdec]; simp [h2])
      · rcases List.mem_cons.1 h2 with rfl | h3
        · exact Or.inl (by rw [hdec]; simp)
        · rcases List.mem_append.1 h3 with h4 | h4
          · exact Or.inl (by rw [hdec]; simp [h4])
          · obtain ⟨u, rfl⟩ := addedLinks_form _ _ l h4
            exact Or.inr (Or.inr (Or.inr ⟨u, mem_addedLinks_mem u links _ h4, rfl⟩))
    · exact Or.inl (by rw [hdec]; simp [h1])
  | none =>
    rw [aml_missing lines h links hf] at hml
    rcases List.mem_append.1 hml with h1 | h1
    · rcases List.mem_append.1 h1 with h2 | h2
      · rcases List.mem_append.1 h2 with h3 | h3
        · exact Or.inl h3
        · rcases ensureSep_cases lines with hsep | hsep
          · rw [hsep] at h3
            exact absurd h3 (List.not_mem_nil l)
          · rw [hsep] at h3
            exact Or.inr (Or.inr (Or.inl (List.mem_singleton.1 h3)))
      · rcases List.mem_cons.1 h2 with rfl | h3
        · exact Or.inr (Or.inl rfl)
        · exact Or.inr (Or.inr (Or.inl (List.mem_singleton.1 h3)))
    · obtain ⟨u, rfl⟩ := addedLinks_form _ _ l h1
      exact Or.inr (Or.inr (Or.inr ⟨u, mem_addedLinks_mem u links _ h1, rfl⟩))

theorem amlb_members (lines : Lines) (prs : List (Str × Str)) :
    ∀ l ∈ append_missing_leaf_blocks lines prs,
      l ∈ lines ∨ l = hline (str "Description and source") ∨ l = ([] : Str) ∨
      (∃ d, l = pyRstrip (str "- **Description:** " ++ d)) ∨
      (∃ s, l = pyRstrip (str "  **Source:** " ++ s)) := by
  intro l hml
  cases hf : find_section_range lines (str "Description and source") with
  | some se =>
    obtain ⟨pre, hd, mid, rest2, hdec, -, -, hpre, hhd, hmid, hrest⟩ :=
      fsr_elim lines _ se.1 se.2 (by rw [hf])
    rw [hdec, amlb_found pre hd mid rest2 prs hpre hhd hmid hrest] at hml
    rcases List.mem_append.1 hml with h1 | h1
    · rcases List.mem_append.1 h1 with h2 | h2
      · exact Or.inl (by rw [hdec]; simp [h2])
      · rcases List.mem_cons.1 h2 with rfl | h3
        · exact Or.inl (by rw [hdec]; simp)
        · rcases List.mem_append.1 h3 with h4 | h4
          · exact Or.inl (by rw [hdec]; simp [h4])
          · rcases addedLeafBlocks_form prs _ l h4 with ⟨d, rfl⟩ | ⟨s, rfl⟩
            · exact Or.inr (Or.inr (Or.inr (Or.inl ⟨d, rfl⟩)))
            · exact Or.inr (Or.inr (Or.inr (Or.inr ⟨s, rfl⟩)))
    · exact Or.inl (by rw [hdec]; simp [h1])
  | none =>
    rw [amlb_missing lines prs hf] at hml
    rcases List.mem_append.1 hml with h1 | h1
    · rcases List.mem_append.1 h1 with h2 | h2
      · rcases List.mem_append.1 h2 with h3 | h3
        · exact Or.inl h3
        · rcases ensureSep_cases lines with hsep | hsep
          · rw [hsep] at h3
            exact absurd h3 (List.not_mem_nil l)
          · rw [hsep] at h3
            exact Or.inr (Or.inr (Or.inl (List.mem_singleton.1 h3)))
      · rcases List.mem_cons.1 h2 with rfl | h3
        · exact Or.inr (Or.inl rfl)
        · exact Or.inr (Or.inr (Or.inl (List.mem_singleton.1 h3)))
    · rcases addedLeafBlocks_form prs _ l h1 with ⟨d, rfl⟩ | ⟨s, rfl⟩
      · exact Or.inr (Or.inr (Or.inr (Or.inl ⟨d, rfl⟩)))
      · exact Or.inr (Or.inr (Or.inr (Or.inr ⟨s, rfl⟩)))

theorem aml_noIndent (lines : Lines) (h h0 : Str) (links : List Str)
    (hni : ∀ y ∈ lines, pyStrip y = hline h0 → isHH y) :
    ∀ y ∈ append_missing_links lines h links, pyStrip y = hline h0 → isHH y := by
  intro y hy hst
  rcases aml_members lines h links y hy with h1 | rfl | rfl | ⟨u, -, rfl⟩
  · exact hni y h1 hst
  · exact isHH_hline h
  · exact absurd hst.symm (hline_ne_nil h0)
  · exact absurd hst (linkLine_not_heading u h0)

theorem amlb_noIndent (lines : Lines) (h0 : Str) (prs : List (Str × Str))
    (hni : ∀ y ∈ lines, pyStrip y = hline h0 → isHH y) :
    ∀ y ∈ append_missing_leaf_blocks lines prs, pyStrip y = hline h0 → isHH y := by
  intro y hy hst
  rcases amlb_members lines prs y hy with h1 | rfl | rfl | ⟨d, rfl⟩ | ⟨s, rfl⟩
  · exact hni y h1 hst
  · exact isHH_hline _
  · exact absurd hst.symm (hline_ne_nil h0)
  · exact absurd hst (desc_line_not_heading d h0)
  · exact absurd hst (src_line_not_heading s h0)

/-- A link pass into one section leaves another section's body intact, up
to the blank separator of a freshly created section, provided heading
lines are genuine "## " lines. -/
theorem aml_body_stable (lines : Lines) (h header : Str) (links : List Str)
    (hne : hline h ≠ hline header)
    (hsh : pyStrip (hline h) ≠ hline header)
    (hni : ∀ y ∈ lines, pyStrip y = hline h → isHH y)
    (hni' : ∀ y ∈ lines, pyStrip y = hline header → isHH y) :
    ∀ b2, sectionBody (append_missing_links lines h links) header = some b2 →
      ∃ b1, sectionBody lines header = some b1 ∧
        (b2 = b1 ∨ b2 = b1 ++ [([] : Str)]) := by
  intro b2 hb2
  cases hf : find_section_range lines h with
  | some se =>
    obtain ⟨pre, hd, mid, rest2, hdec, -, -, hpre, hhd, hmid, hrest⟩ :=
      fsr_elim lines h se.1 se.2 (by rw [hf])
    rw [hdec, aml_found pre hd mid rest2 h links hpre hhd hmid hrest] at hb2
    rw [body_stable_insert pre hd mid rest2 _ h header hhd
      (hni hd (by rw [hdec]; simp) hhd)
      hne
      (fun y hy => fun hst => (hmid y hy) (hni' y (by rw [hdec]; simp [hy]) hst))
      (fun y hy => by
        obtain ⟨u, rfl⟩ := addedLinks_form _ _ y hy
        exact linkLine_not_heading u header)] at hb2
    rw [← hdec] at hb2
    exact ⟨b2, hb2, Or.inl rfl⟩
  | none =>
    rw [aml_missing lines h links hf] at hb2
    exact body_stable_append lines (ensureSep lines) _ h header hsh
      (ensureSep_cases lines)
      (fun y hy => by
        obtain ⟨u, rfl⟩ := addedLinks_form _ _ y hy
        exact ⟨linkLine_not_isHH u, linkLine_not_heading u header⟩) b2 hb2

/-- The leaf pass leaves the Parents and Children bodies intact, up to
the blank separator of a freshly created section. -/
theorem amlb_body_stable (lines : Lines) (header : Str) (prs : List (Str × Str))
    (hne : hline (str "Description and source") ≠ hline header)
    (hsh : pyStrip (hline (str "Description and source")) ≠ hline header)
    (hni : ∀ y ∈ lines, pyStrip y = hline (str "Description and source") → isHH y)
    (hni' : ∀ y ∈ lines, pyStrip y = hline header → isHH y) :
    ∀ b2, sectionBody (append_missing_leaf_blocks lines prs) header = some b2 →
      ∃ b1, sectionBody lines header = some b1 ∧
        (b2 = b1 ∨ b2 = b1 ++ [([] : Str)]) := by
  intro b2 hb2
  cases hf : find_section_range lines (str "Description and source") with
  | some se =>
    obtain ⟨pre, hd, mid, rest2, hdec, -, -, hpre, hhd, hmid, hrest⟩ :=
      fsr_elim lines _ se.1 se.2 (by rw [hf])
    rw [hdec, amlb_found pre hd mid rest2 prs hpre hhd hmid hrest] at hb2
    rw [body_stable_insert pre hd mid rest2 _ _ header hhd
      (hni hd (by rw [hdec]; simp) hhd)
      hne
      (fun y hy => fun hst => (hmid y hy) (hni' y (by rw [hdec]; simp [hy]) hst))
      (fun y hy => by
        rcases addedLeafBlocks_form prs _ y hy with ⟨d, rfl⟩ | ⟨s, rfl⟩
        · exact desc_line_not_heading d header
        · exact src_line_not_heading s header)] at hb2
    rw [← hdec] at hb2
    exact ⟨b2, hb2, Or.inl rfl⟩
  | none =>
    rw [amlb_missing lines prs hf] at hb2
    exact body_stable_append lines (ensureSep lines) _ _ header hsh
      (ensureSep_cases lines)
      (fun y hy => by
        rcases addedLeafBlocks_form prs _ y hy with ⟨d, rfl⟩ | ⟨s, rfl⟩
        · exact ⟨addedLeafBlocks_not_isHH prs _ _ hy, desc_line_not_heading d header⟩
        · exact ⟨addedLeafBlocks_not_isHH prs _ _ hy, src_line_not_heading s header⟩) b2 hb2

/-- The link pass on its own section: every line of the resulting body is
an old body line, the blank of a freshly created section, or the link
line of a requested title. -/
theorem aml_body_self (lines : Lines) (header : Str) (links : List Str)
    (hsh : pyStrip (hline header) = hline header) :
    ∀ b2, sectionBody (append_missing_links lines header links) header = some b2 →
      ∀ l ∈ b2, (∃ b1, sectionBody lines header = some b1 ∧ l ∈ b1) ∨
        l = ([] : Str) ∨ ∃ u ∈ links, l = linkLine u := by
  intro b2 hb2 l hl
  cases hf : find_section_range lines header with
  | some se =>
    obtain ⟨pre, hd, mid, rest2, hdec, -, -, hpre, hhd, hmid, hrest⟩ :=
      fsr_elim lines header se.1 se.2 (by rw [hf])
    rw [hdec, aml_found pre hd mid rest2 header links hpre hhd hmid hrest] at hb2
    have hmidadd : ∀ y ∈ mid ++ addedLinks links (hd :: mid), ¬ isHH y := by
      intro y hy
      rcases List.mem_append.1 hy with h1 | h1
      · exact hmid y h1
      · obtain ⟨u, rfl⟩ := addedLinks_form _ _ y h1
        exact linkLine_not_isHH u
    have hres : sectionBody (pre ++ hd :: (mid ++ addedLinks links (hd :: mid)) ++ rest2)
        header = some (mid ++ addedLinks links (hd :: mid)) := by
      rcases hrest with rfl | ⟨term, post, rfl, hterm⟩
      · rw [show pre ++ hd :: (mid ++ addedLinks links (hd :: mid)) ++ ([] : Lines) =
          pre ++ hd :: (mid ++ addedLinks links (hd :: mid)) by simp]
        exact sectionBody_noterm pre hd _ header hpre hhd hmidadd
      · exact sectionBody_term pre hd _ term post header hpre hhd hmidadd hterm
    rw [hres] at hb2
    simp only [Option.some.injEq] at hb2
    rw [← hb2] at hl
    have hb1 : sectionBody lines header = some mid := by
      rw [hdec]
      rcases hrest with rfl | ⟨term, post, rfl, hterm⟩
      · rw [show pre ++ hd :: mid ++ ([] : Lines) = pre ++ hd :: mid by simp]
        exact sectionBody_noterm pre hd mid header hpre hhd hmid
      · exact sectionBody_term pre hd mid term post header hpre hhd hmid hterm
    rcases List.mem_append.1 hl with h1 | h1
    · exact Or.inl ⟨mid, hb1, h1⟩
    · obtain ⟨u, rfl⟩ := addedLinks_form _ _ l h1
      exact Or.inr (Or.inr ⟨u, mem_addedLinks_mem u links _ h1, rfl⟩)
  | none =>
    rw [aml_missing lines header links hf] at hb2
    have hres : sectionBody ((lines ++ ensureSep lines ++ [hline header, ([] : Str)]) ++
        addedLinks links [hline header, ([] : Str)]) header =
        some (([] : Str) :: addedLinks links [hline header, ([] : Str)]) := by
      rw [show (lines ++ ensureSep lines ++ [hline header, ([] : Str)]) ++
          addedLinks links [hline header, ([] : Str)] =
        (lines ++ ensureSep lines) ++ (hline header) ::
          (([] : Str) :: addedLinks links [hline header, ([] : Str)]) by simp]
      refine sectionBody_noterm _ (hline header) _ header ?_ hsh ?_
      · intro y hy
        rcases List.mem_append.1 hy with h1 | h1
        · exact (fsr_none_iff lines header).1 hf y h1
        · rcases ensureSep_cases lines with hsep | hsep
          · rw [hsep] at h1
            exact absurd h1 (List.not_mem_nil y)
          · rw [hsep] at h1
            rw [List.mem_singleton.1 h1]
            exact fun he => hline_ne_nil header he.symm
      · intro y hy
        rcases List.mem_cons.1 hy with rfl | h1
        · exact blank_not_isHH
        · obtain ⟨u, rfl⟩ := addedLinks_form _ _ y h1
          exact linkLine_not_isHH u
    rw [hres] at hb2
    simp only [Option.some.injEq] at hb2
    rw [← hb2] at hl
    rcases List.mem_cons.1 hl with rfl | h1
    · exact Or.inr (Or.inl rfl)
    · obtain ⟨u, rfl⟩ := addedLinks_form _ _ l h1
      exact Or.inr (Or.inr ⟨u, mem_addedLinks_mem u links _ h1, rfl⟩)

/-- Every line of the final Children body is an original document line, a
blank, or the link line of a requested child — and dually for Parents —
on any document whose strip-matching heading lines are genuine "## "
lines, for any request. -/
theorem merge_body_filter (doc : Lines) (ps cs : List Str) (prs : List (Str × Str))
    (hniP : ∀ y ∈ doc, pyStrip y = hline (str "Parents") → isHH y)
    (hniC : ∀ y ∈ doc, pyStrip y = hline (str "Children") → isHH y)
    (hniD : ∀ y ∈ doc, pyStrip y = hline (str "Description and source") → isHH y) :
    (∀ b, sectionBody (merge_note_lines doc ps cs prs) (str "Children") = some b →
      ∀ l ∈ b, l ∈ doc ∨ l = ([] : Str) ∨ ∃ u ∈ cs, l = linkLine u) ∧
    (∀ b, sectionBody (merge_note_lines doc ps cs prs) (str "Parents") = some b →
      ∀ l ∈ b, l ∈ doc ∨ l = ([] : Str) ∨ ∃ u ∈ ps, l = linkLine u) := by
  rw [merge_note_lines]
  set L1 := if ps.isEmpty then doc else append_missing_links doc (str "Parents") ps with hL1
  set L2 := if cs.isEmpty then L1 else append_missing_links L1 (str "Children") cs with hL2
  have tr1 : ∀ h0, (∀ y ∈ doc, pyStrip y = hline h0 → isHH y) →
      ∀ y ∈ L1, pyStrip y = hline h0 → isHH y := by
    intro h0 hh
    rw [hL1]
    by_cases hp : ps.isEmpty
    · rw [if_pos hp]
      exact hh
    · rw [if_neg hp]
      exact aml_noIndent doc _ h0 ps hh
  have tr2 : ∀ h0, (∀ y ∈ L1, pyStrip y = hline h0 → isHH y) →
      ∀ y ∈ L2, pyStrip y = hline h0 → isHH y := by
    intro h0 hh
    rw [hL2]
    by_cases hc : cs.isEmpty
    · rw [if_pos hc]
      exact hh
    · rw [if_neg hc]
      exact aml_noIndent L1 _ h0 cs hh
  have stepP1 : ∀ b, sectionBody L1 (str "Children") = some b →
      ∀ l ∈ b, l ∈ doc ∨ l = ([] : Str) := by
    intro b hb l hl
    rw [hL1] at hb
    by_cases hp : ps.isEmpty
    · rw [if_pos hp] at hb
      exact Or.inl (sectionBody_subset doc _ b hb l hl)
    · rw [if_neg hp] at hb
      obtain ⟨b0, hb0, hor⟩ := aml_body_stable doc (str "Parents") (str "Children") ps
        (by decide) (by decide) hniP hniC b hb
      rcases hor with rfl | rfl
      · exact Or.inl (sectionBody_subset doc _ _ hb0 l hl)
      · rcases List.mem_append.1 hl with h1 | h1
        · exact Or.inl (sectionBody_subset doc _ _ hb0 l h1)
        · exact Or.inr (List.mem_singleton.1 h1)
  have stepC2 : ∀ b, sectionBody L2 (str "Children") = some b →
      ∀ l ∈ b, l ∈ doc ∨ l = ([] : Str) ∨ ∃ u ∈ cs, l = linkLine u := by
    intro b hb l hl
    rw [hL2] at hb
    by_cases hc : cs.isEmpty
    · rw [if_pos hc] at hb
      rcases stepP1 b hb l hl with h1 | h1
      · exact Or.inl h1
      · exact Or.inr (Or.inl h1)
    · rw [if_neg hc] at hb
      rcases aml_body_self L1 (str "Children") cs (by decide) b hb l hl with
        ⟨b1, hb1, hlb1⟩ | h1 | h1
      · rcases stepP1 b1 hb1 l hlb1 with h2 | h2
        · exact Or.inl h2
        · exact Or.inr (Or.inl h2)
      · exact Or.inr (Or.inl h1)
      · exact Or.inr (Or.inr h1)
  have stepP1' : ∀ b, sectionBody L1 (str "Parents") = some b →
      ∀ l ∈ b, l ∈ doc ∨ l = ([] : Str) ∨ ∃ u ∈ ps, l = linkLine u := by
    intro b hb l hl
    rw [hL1] at hb
    by_cases hp : ps.isEmpty
    · rw [if_pos hp] at hb
      exact Or.inl (sectionBody_subset doc _ b hb l hl)
    · rw [if_neg hp] at hb
      rcases aml_body_self doc (str "Parents") ps (by decide) b hb l hl with
        ⟨b1, hb1, hlb1⟩ | h1 | h1
      · exact Or.inl (sectionBody_subset doc _ b1 hb1 l hlb1)
      · exact Or.inr (Or.inl h1)
      · exact Or.inr (Or.inr h1)
  have stepC2' : ∀ b, sectionBody L2 (str "Parents") = some b →
      ∀ l ∈ b, l ∈ doc ∨ l = ([] : Str) ∨ ∃ u ∈ ps, l = linkLine u := by
    intro b hb l hl
    rw [hL2] at hb
    by_cases hc : cs.isEmpty
    · rw [if_pos hc] at hb
      exact stepP1' b hb l hl
    · rw [if_neg hc] at hb
      obtain ⟨b1, hb1, hor⟩ := aml_body_stable L1 (str "Children") (str "Parents") cs
        (by decide) (by decide) (tr1 _ hniC) (tr1 _ hniP) b hb
      rcases hor with rfl | rfl
      · exact stepP1' _ hb1 l hl
      · rcases List.mem_append.1 hl with h1 | h1
        · exact stepP1' _ hb1 l h1
        · exact Or.inr (Or.inl (List.mem_singleton.1 h1))
  constructor
  · intro b hb l hl
    by_cases hpr : prs.isEmpty
    · rw [if_pos hpr] at hb
      exact stepC2 b hb l hl
    · rw [if_neg hpr] at hb
      obtain ⟨b2, hb2, hor⟩ := amlb_body_stable L2 (str "Children") prs
        (by decide) (by decide) (tr2 _ (tr1 _ hniD)) (tr2 _ (tr1 _ hniC)) b hb
      rcases hor with rfl | rfl
      · exact stepC2 _ hb2 l hl
      · rcases List.mem_append.1 hl with h1 | h1
        · exact stepC2 _ hb2 l h1
        · exact Or.inr (Or.inl (List.mem_singleton.1 h1))
  · intro b hb l hl
    by_cases hpr : prs.isEmpty
    · rw [if_pos hpr] at hb
      exact stepC2' b hb l hl
    · rw [if_neg hpr] at hb
      obtain ⟨b2, hb2, hor⟩ := amlb_body_stable L2 (str "Parents") prs
        (by decide) (by decide) (tr2 _ (tr1 _ hniD)) (tr2 _ (tr1 _ hniP)) b hb
      rcases hor with rfl | rfl
      · exact stepC2' _ hb2 l hl
      · rcases List.mem_append.1 hl with h1 | h1
        · exact stepC2' _ hb2 l h1
        · exact Or.inr (Or.inl (List.mem_singleton.1 h1))

/-- Claim C4, amended: on any document whose heading lines are genuine
"## " lines (the stripped-equality heading test and the startswith
terminator test agree for the three section names), for every merge
request, a link line requested for "Parents" never appears in the
"Children" section body of the result unless that very line was already
in the document or the same title is also requested as a child — and
symmetrically with the roles of the two sections swapped. -/
theorem claim_C4 (doc : Lines) (ps cs : List Str) (prs : List (Str × Str)) (t : Str)
    (hniP : ∀ y ∈ doc, pyStrip y = hline (str "Parents") → isHH y)
    (hniC : ∀ y ∈ doc, pyStrip y = hline (str "Children") → isHH y)
    (hniD : ∀ y ∈ doc, pyStrip y = hline (str "Description and source") → isHH y) :
    (t ∈ ps → ¬ linkLine t ∈ doc → ¬ t ∈ cs →
      ∀ b, sectionBody (merge_note_lines doc ps cs prs) (str "Children") = some b →
        ¬ linkLine t ∈ b) ∧
    (t ∈ cs → ¬ linkLine t ∈ doc → ¬ t ∈ ps →
      ∀ b, sectionBody (merge_note_lines doc ps cs prs) (str "Parents") = some b →
        ¬ linkLine t ∈ b) := by
  obtain ⟨hC, hP⟩ := merge_body_filter doc ps cs prs hniP hniC hniD
  constructor
  · intro ht hdoc hcs b hb hmem
    rcases hC b hb _ hmem with h1 | h1 | ⟨u, hu, he⟩
    · exact hdoc h1
    · exact linkLine_ne_nil t h1
    · exact hcs (by rw [linkLine_inj he]; exact hu)
  · intro ht hdoc hps b hb hmem
    rcases hP b hb _ hmem with h1 | h1 | ⟨u, hu, he⟩
    · exact hdoc h1
    · exact linkLine_ne_nil t h1
    · exact hps (by rw [linkLine_inj he]; exact hu)

/-- Claim C4 witness: a document holding only a Children heading, a
request with one parent title, no children and one leaf pair. -/
theorem claim_C4_witness :
    sectionBody (merge_note_lines [str "## Children"] [str "x"] []
      [(str "d", str "s")]) (str "Children") = some [([] : Str)] ∧
    ¬ linkLine (str "x") ∈ [([] : Str)] :=
  ⟨by decide,
   (claim_C4 [str "## Children"] [str "x"] [] [(str "d", str "s")] (str "x")
      (by decide) (by decide) (by decide)).1
     (by decide) (by decide) (by decide) [([] : Str)] (by decide)⟩
